import Mathlib

/-!
Verification of the egui_tiles tile-layout engine.

The Rust source is shallowly embedded: hash maps become sorted association
lists keyed by `Nat` tile ids, `f32` arithmetic becomes exact `Rat`
arithmetic, and the remove/recurse/reinsert traversals become fuel-indexed
total functions (the fuel mirrors the depth bound the Rust code enjoys
because every traversal removes a tile from the arena before recursing).
-/

set_option maxHeartbeats 1000000

namespace EguiTiles

/-! ## Sorted association lists (the model of `ahash::HashMap<TileId, _>`) -/

/-- Model of a hash map keyed by tile ids: a key-sorted association list. -/
abbrev Smap (α : Type) : Type := List (Nat × α)

namespace Smap

/-- First binding of key `k`. -/
def lookup {α : Type} (m : Smap α) (k : Nat) : Option α :=
  match m with
  | [] => none
  | (a, b) :: t => if k = a then some b else lookup t k

/-- Insert a binding, keeping the list key-sorted (overwrites an existing key). -/
def insertS {α : Type} (m : Smap α) (k : Nat) (v : α) : Smap α :=
  match m with
  | [] => [(k, v)]
  | (a, b) :: t =>
    if k < a then (k, v) :: (a, b) :: t
    else if k = a then (k, v) :: t
    else (a, b) :: insertS t k v

/-- Remove the binding of key `k`, if any. -/
def eraseS {α : Type} (m : Smap α) (k : Nat) : Smap α :=
  match m with
  | [] => []
  | (a, b) :: t => if k = a then t else (a, b) :: eraseS t k

def containsS {α : Type} (m : Smap α) (k : Nat) : Bool :=
  (lookup m k).isSome

def keysS {α : Type} (m : Smap α) : List Nat :=
  m.map Prod.fst

/-- Key-sortedness invariant of the model. -/
def SortedK {α : Type} (m : Smap α) : Prop :=
  m.Pairwise (fun x y => x.1 < y.1)

theorem sortedK_nil {α : Type} : SortedK ([] : Smap α) := List.Pairwise.nil

theorem sortedK_cons_tail {α : Type} {p : Nat × α} {t : Smap α} (h : SortedK (p :: t)) :
    SortedK t := by
  cases h with
  | cons _ ht => exact ht

theorem sortedK_cons_head {α : Type} {p : Nat × α} {t : Smap α} (h : SortedK (p :: t)) :
    ∀ q ∈ t, p.1 < q.1 := by
  cases h with
  | cons hh _ => exact hh

theorem lookup_some_mem {α : Type} {m : Smap α} {k : Nat} {v : α}
    (h : lookup m k = some v) : (k, v) ∈ m := by
  induction m with
  | nil => simp [lookup] at h
  | cons p t ih =>
    obtain ⟨a, b⟩ := p
    by_cases hka : k = a
    · subst hka
      simp only [lookup, if_true, eq_self_iff_true, Option.some.injEq] at h
      have : b = v := by simpa using h
      subst this
      exact List.mem_cons_self _ _
    · simp only [lookup, if_neg hka] at h
      exact List.mem_cons_of_mem _ (ih h)

theorem lookup_none_of_all_lt {α : Type} {m : Smap α} {k : Nat}
    (h : ∀ q ∈ m, k < q.1) : lookup m k = none := by
  induction m with
  | nil => simp [lookup]
  | cons p t ih =>
    obtain ⟨a, b⟩ := p
    have hka : k < a := h (a, b) (List.mem_cons_self _ _)
    have : ¬ (k = a) := Nat.ne_of_lt hka
    simp only [lookup, if_neg this]
    exact ih (fun q hq => h q (List.mem_cons_of_mem _ hq))

theorem lookup_insertS_self {α : Type} (m : Smap α) (k : Nat) (v : α) :
    lookup (insertS m k v) k = some v := by
  induction m with
  | nil => simp [insertS, lookup]
  | cons p t ih =>
    obtain ⟨a, b⟩ := p
    by_cases hlt : k < a
    · simp [insertS, hlt, lookup]
    · by_cases heq : k = a
      · simp [insertS, hlt, heq, lookup]
      · simp [insertS, hlt, heq, lookup, ih]

theorem lookup_insertS_ne {α : Type} (m : Smap α) (k j : Nat) (v : α) (hne : j ≠ k) :
    lookup (insertS m k v) j = lookup m j := by
  induction m with
  | nil => simp [insertS, lookup, hne]
  | cons p t ih =>
    obtain ⟨a, b⟩ := p
    by_cases hlt : k < a
    · simp [insertS, hlt, lookup, hne]
    · by_cases heq : k = a
      · subst heq
        simp [insertS, hlt, lookup, hne]
      · by_cases hja : j = a
        · simp [insertS, hlt, heq, lookup, hja]
        · simp [insertS, hlt, heq, lookup, hja, ih]

theorem lookup_eraseS_self {α : Type} (m : Smap α) (k : Nat) (hs : SortedK m) :
    lookup (eraseS m k) k = none := by
  induction m with
  | nil => simp [eraseS, lookup]
  | cons p t ih =>
    obtain ⟨a, b⟩ := p
    by_cases heq : k = a
    · subst heq
      simp only [eraseS, if_pos rfl]
      exact lookup_none_of_all_lt (sortedK_cons_head hs)
    · simp only [eraseS, if_neg heq, lookup, if_neg heq]
      exact ih (sortedK_cons_tail hs)

theorem lookup_eraseS_ne {α : Type} (m : Smap α) (k j : Nat) (hne : j ≠ k) :
    lookup (eraseS m k) j = lookup m j := by
  induction m with
  | nil => simp [eraseS, lookup]
  | cons p t ih =>
    obtain ⟨a, b⟩ := p
    by_cases heq : k = a
    · subst heq
      simp [eraseS, lookup, hne]
    · by_cases hja : j = a
      · simp [eraseS, heq, lookup, hja]
      · simp [eraseS, heq, lookup, hja, ih]

theorem insertS_of_all_lt {α : Type} {m : Smap α} {k : Nat} (v : α)
    (h : ∀ q ∈ m, k < q.1) : insertS m k v = (k, v) :: m := by
  cases m with
  | nil => simp [insertS]
  | cons p t =>
    obtain ⟨a, b⟩ := p
    have : k < a := h (a, b) (List.mem_cons_self _ _)
    simp [insertS, this]

theorem sortedK_insertS {α : Type} (m : Smap α) (k : Nat) (v : α) (hs : SortedK m) :
    SortedK (insertS m k v) := by
  induction m with
  | nil => simp [insertS, SortedK]
  | cons p t ih =>
    obtain ⟨a, b⟩ := p
    have hhead := sortedK_cons_head hs
    have htail := sortedK_cons_tail hs
    by_cases hlt : k < a
    · simp only [insertS, if_pos hlt]
      refine List.Pairwise.cons ?_ hs
      intro q hq
      rcases List.mem_cons.mp hq with hq1 | hq2
      · subst hq1; exact hlt
      · exact Nat.lt_trans hlt (hhead q hq2)
    · by_cases heq : k = a
      · subst heq
        simp only [insertS, if_neg hlt, if_pos rfl]
        exact List.Pairwise.cons hhead htail
      · simp only [insertS, if_neg hlt, if_neg heq]
        have hak : a < k := by omega
        refine List.Pairwise.cons ?_ (ih htail)
        intro q hq
        -- q is either the new entry or an old member of t
        have hmem : q = (k, v) ∨ q ∈ t := by
          clear ih hs hhead htail
          induction t with
          | nil =>
            simp [insertS] at hq
            exact Or.inl hq
          | cons r u ihr =>
            obtain ⟨c, d⟩ := r
            by_cases h1 : k < c
            · simp only [insertS, if_pos h1] at hq
              rcases List.mem_cons.mp hq with h2 | h3
              · exact Or.inl h2
              · exact Or.inr h3
            · by_cases h2 : k = c
              · simp only [insertS, if_neg h1, if_pos h2] at hq
                rcases List.mem_cons.mp hq with h3 | h4
                · subst h2; exact Or.inl (by simpa using h3)
                · exact Or.inr (List.mem_cons_of_mem _ h4)
              · simp only [insertS, if_neg h1, if_neg h2] at hq
                rcases List.mem_cons.mp hq with h3 | h4
                · exact Or.inr (h3 ▸ List.mem_cons_self _ _)
                · rcases ihr h4 with h5 | h6
                  · exact Or.inl h5
                  · exact Or.inr (List.mem_cons_of_mem _ h6)
        rcases hmem with h1 | h2
        · subst h1; exact hak
        · exact hhead q h2

theorem eraseS_subset {α : Type} {m : Smap α} {k : Nat} :
    ∀ q ∈ eraseS m k, q ∈ m := by
  induction m with
  | nil => simp [eraseS]
  | cons p t ih =>
    obtain ⟨a, b⟩ := p
    intro q hq
    by_cases heq : k = a
    · simp only [eraseS, if_pos heq] at hq
      exact List.mem_cons_of_mem _ hq
    · simp only [eraseS, if_neg heq] at hq
      rcases List.mem_cons.mp hq with h1 | h2
      · exact h1 ▸ List.mem_cons_self _ _
      · exact List.mem_cons_of_mem _ (ih q h2)

theorem sortedK_eraseS {α : Type} (m : Smap α) (k : Nat) (hs : SortedK m) :
    SortedK (eraseS m k) := by
  induction m with
  | nil => exact hs
  | cons p t ih =>
    obtain ⟨a, b⟩ := p
    have hhead := sortedK_cons_head hs
    have htail := sortedK_cons_tail hs
    by_cases heq : k = a
    · simpa [eraseS, heq] using htail
    · simp only [eraseS, if_neg heq]
      exact List.Pairwise.cons (fun q hq => hhead q (eraseS_subset q hq)) (ih htail)

/-- Removing a present binding and reinserting the same value is the identity
on sorted maps. -/
theorem insertS_eraseS_self {α : Type} {m : Smap α} {k : Nat} {v : α}
    (hs : SortedK m) (h : lookup m k = some v) :
    insertS (eraseS m k) k v = m := by
  induction m with
  | nil => simp [lookup] at h
  | cons p t ih =>
    obtain ⟨a, b⟩ := p
    have hhead := sortedK_cons_head hs
    have htail := sortedK_cons_tail hs
    by_cases heq : k = a
    · subst heq
      have hbv : b = v := by simpa [lookup] using h
      subst hbv
      simp only [eraseS, if_pos rfl]
      exact insertS_of_all_lt b hhead
    · simp only [lookup, if_neg heq] at h
      have hak : a < k := by
        have := hhead _ (lookup_some_mem h)
        exact this
      simp only [eraseS, if_neg heq, insertS, if_neg (by omega : ¬ (k < a)), if_neg heq]
      rw [ih htail h]

/-- Two sorted maps with the same lookups are syntactically equal. -/
theorem ext_sorted {α : Type} (m₁ m₂ : Smap α) (h₁ : SortedK m₁) (h₂ : SortedK m₂)
    (h : ∀ k, lookup m₁ k = lookup m₂ k) : m₁ = m₂ := by
  induction m₁ generalizing m₂ with
  | nil =>
    cases m₂ with
    | nil => rfl
    | cons q u =>
      obtain ⟨c, d⟩ := q
      have := h c
      simp [lookup] at this
  | cons p t ih =>
    obtain ⟨a, b⟩ := p
    cases m₂ with
    | nil =>
      have := h a
      simp [lookup] at this
    | cons q u =>
      obtain ⟨c, d⟩ := q
      have hhead₁ := sortedK_cons_head h₁
      have htail₁ := sortedK_cons_tail h₁
      have hhead₂ := sortedK_cons_head h₂
      have htail₂ := sortedK_cons_tail h₂
      have hac : a = c := by
        by_contra hne
        rcases Nat.lt_or_ge a c with hlt | hge
        · -- lookup m₂ a = some b, but all keys of m₂ exceed a
          have ha := h a
          simp only [lookup, if_pos rfl, if_neg hne] at ha
          have hmem := lookup_some_mem ha.symm
          have := hhead₂ _ hmem
          simp at this
          omega
        · have hca : c < a := by omega
          have hc := h c
          have hnca : ¬ (c = a) := by omega
          simp only [lookup, if_neg hnca, if_pos rfl] at hc
          have hmem := lookup_some_mem hc
          have := hhead₁ _ hmem
          simp at this
          omega
      subst hac
      have hbd : b = d := by
        have := h a
        simpa [lookup] using this
      subst hbd
      have htu : t = u := by
        refine ih u htail₁ htail₂ ?_
        intro k
        by_cases hka : k = a
        · subst hka
          have hn₁ : lookup t k = none :=
            lookup_none_of_all_lt (fun q hq => hhead₁ q hq)
          have hn₂ : lookup u k = none :=
            lookup_none_of_all_lt (fun q hq => hhead₂ q hq)
          rw [hn₁, hn₂]
        · have := h k
          simpa [lookup, hka] using this
      rw [htu]

end Smap

/-! ## Sorted id sets (the model of `ahash::HashSet<TileId>`) -/

namespace Sset

def memS (s : List Nat) (k : Nat) : Bool :=
  s.contains k

def insertN (s : List Nat) (k : Nat) : List Nat :=
  match s with
  | [] => [k]
  | a :: t =>
    if k < a then k :: a :: t
    else if k = a then a :: t
    else a :: insertN t k

def eraseN (s : List Nat) (k : Nat) : List Nat :=
  match s with
  | [] => []
  | a :: t => if k = a then t else a :: eraseN t k

end Sset

/-! ## Data model (`src/tile.rs`, `src/container/...`, `src/lib.rs`) -/

/-- `egui::Rect` with exact rational coordinates. -/
structure Rect where
  minX : Rat
  minY : Rat
  maxX : Rat
  maxY : Rat
deriving DecidableEq

namespace Rect

def width (r : Rect) : Rat := r.maxX - r.minX

def height (r : Rect) : Rat := r.maxY - r.minY

/-- `Rect::from_min_size(pos2(x, y), vec2(w, h))`. -/
def from_min_size (x y w h : Rat) : Rect := ⟨x, y, x + w, y + h⟩

end Rect

/-- `LinearDir`: direction of a `Linear` container. -/
inductive LinearDir where
  | horizontal
  | vertical
deriving DecidableEq

/-- `GridLayout`: automatic or fixed number of grid columns. -/
inductive GridLayoutMode where
  | auto
  | columns (n : Nat)
deriving DecidableEq

/-- `ContainerKind`. -/
inductive ContainerKind where
  | tabs
  | horizontal
  | vertical
  | grid
deriving DecidableEq

/-- `Shares`: map from child id to its share, default share 1. -/
abbrev Shares : Type := Smap Rat

namespace Shares

/-- `impl Index for Shares`: missing entries read as 1.0. -/
def get (s : Shares) (id : Nat) : Rat := (Smap.lookup s id).getD 1

/-- `Shares::set_share`. -/
def set_share (s : Shares) (id : Nat) (v : Rat) : Shares := Smap.insertS s id v

/-- `Shares::replace_with`. -/
def replace_with (s : Shares) (remove new : Nat) : Shares :=
  match Smap.lookup s remove with
  | some share => Smap.insertS (Smap.eraseS s remove) new share
  | none => s

/-- `Shares::split`: split the available width proportionally to the
children's shares, substituting a total of 1 when the sum is exactly zero. -/
def split (s : Shares) (children : List Nat) (available_width : Rat) : List Rat :=
  let sum := children.foldl (fun acc c => acc + get s c) 0
  let num_shares := if sum = 0 then 1 else sum
  children.map (fun c => available_width * get s c / num_shares)

/-- `Shares::retain`. -/
def retain (s : Shares) (keep : Nat → Bool) : Shares := s.filter (fun q => keep q.1)

end Shares

/-- `Tabs` container. -/
structure Tabs where
  children : List Nat
  active : Option Nat
deriving DecidableEq

namespace Tabs

/-- `Tabs::new`: the first child becomes active. -/
def new (children : List Nat) : Tabs := ⟨children, children.head?⟩

/-- `Tabs::set_active`. -/
def set_active (t : Tabs) (child : Nat) : Tabs := { t with active := some child }

/-- `Tabs::is_active`. -/
def is_active (t : Tabs) (child : Nat) : Bool := t.active = some child

end Tabs

/-- `Linear` container. -/
structure Linear where
  children : List Nat
  dir : LinearDir
  shares : Shares
deriving DecidableEq

namespace Linear

/-- `Linear::new`. -/
def new (dir : LinearDir) (children : List Nat) : Linear := ⟨children, dir, []⟩

end Linear

/-- `Grid` container; `children` is the row-major slot list, with holes. -/
structure Grid where
  children : List (Option Nat)
  layout : GridLayoutMode
  col_shares : List Rat
  row_shares : List Rat
  col_ranges : List (Rat × Rat)
  row_ranges : List (Rat × Rat)
deriving DecidableEq

namespace Grid

/-- `Grid::new`. -/
def new (children : List Nat) : Grid :=
  ⟨children.map some, GridLayoutMode.auto, [], [], [], []⟩

/-- `Grid::children`: the non-hole entries. -/
def childrenIds (g : Grid) : List Nat := g.children.filterMap id

/-- `Grid::num_children`. -/
def num_children (g : Grid) : Nat := g.childrenIds.length

/-- `Grid::insert_at`: fill the hole at `index`, or shift, or push last. -/
def insert_at (g : Grid) (index : Nat) (child : Nat) : Grid :=
  match g.children.get? index with
  | some slot =>
    match slot with
    | none => { g with children := g.children.set index (some child) }
    | some _ => { g with children := g.children.insertIdx index (some child) }
  | none => { g with children := g.children ++ [some child] }

/-- `Grid::replace_at`: put `child` in the slot at `index` and return the
previous occupant; pushes last when the index is out of bounds. -/
def replace_at (g : Grid) (index : Nat) (child : Nat) : Grid × Option Nat :=
  match g.children.get? index with
  | some slot => ({ g with children := g.children.set index (some child) }, slot)
  | none => ({ g with children := g.children ++ [some child] }, none)

/-- `Grid::collapse_holes`. -/
def collapse_holes (g : Grid) : Grid :=
  { g with children := g.children.filter (fun c => c.isSome) }

/-- `Grid::retain`: children that fail the predicate become holes. -/
def retainG (g : Grid) (keep : Nat → Bool) : Grid :=
  { g with children := g.children.map (fun slot =>
      match slot with
      | some child => if keep child then some child else none
      | none => none) }

/-- `Grid::remove_child`: the slot of the first occurrence becomes a hole. -/
def remove_child (g : Grid) (needle : Nat) : Grid × Option Nat :=
  match g.children.findIdx? (fun c => c = some needle) with
  | some index => ({ g with children := g.children.set index none }, some index)
  | none => (g, none)

end Grid

/-- `Container`. -/
inductive Container where
  | tabs (t : Tabs)
  | linear (l : Linear)
  | grid (g : Grid)
deriving DecidableEq

namespace Container

/-- `Container::kind`. -/
def kind : Container → ContainerKind
  | .tabs _ => .tabs
  | .linear l =>
    match l.dir with
    | .horizontal => .horizontal
    | .vertical => .vertical
  | .grid _ => .grid

/-- `Container::children` (as a list of ids; for grids, holes skipped). -/
def childrenList : Container → List Nat
  | .tabs t => t.children
  | .linear l => l.children
  | .grid g => g.childrenIds

/-- `Container::num_children`. -/
def num_children (c : Container) : Nat := c.childrenList.length

/-- `Container::is_empty`. -/
def is_empty (c : Container) : Bool := c.num_children = 0

/-- `Container::only_child`. -/
def only_child (c : Container) : Option Nat :=
  match c.childrenList with
  | [child] => some child
  | _ => none

/-- `Container::has_child`. -/
def has_child (c : Container) (needle : Nat) : Bool := c.childrenList.contains needle

/-- `Container::retain`. -/
def retainC (c : Container) (keep : Nat → Bool) : Container :=
  match c with
  | .tabs t => .tabs { t with children := t.children.filter keep }
  | .linear l => .linear { l with children := l.children.filter keep }
  | .grid g => .grid (g.retainG keep)

/-- `Container::remove_child` (returns the found index, grid slot becomes a hole). -/
def remove_childC (c : Container) (needle : Nat) : Container × Option Nat :=
  match c with
  | .tabs t =>
    match t.children.findIdx? (fun x => x = needle) with
    | some index => (.tabs { t with children := t.children.eraseIdx index }, some index)
    | none => (.tabs t, none)
  | .linear l =>
    match l.children.findIdx? (fun x => x = needle) with
    | some index => (.linear { l with children := l.children.eraseIdx index }, some index)
    | none => (.linear l, none)
  | .grid g =>
    let r := g.remove_child needle
    (.grid r.1, r.2)

/-- `Container::new_tabs`. -/
def new_tabs (children : List Nat) : Container := .tabs (Tabs.new children)

/-- `Container::new_linear`. -/
def new_linear (dir : LinearDir) (children : List Nat) : Container :=
  .linear (Linear.new dir children)

/-- `Container::new_grid`. -/
def new_grid (children : List Nat) : Container := .grid (Grid.new children)

end Container

/-- `Tile`: a pane (opaque payload, modelled as a `Nat`) or a container. -/
inductive Tile where
  | pane (payload : Nat)
  | cont (c : Container)
deriving DecidableEq

/-- `Tiles<Pane>`: the arena. -/
structure TilesState where
  next_tile_id : Nat
  tiles : Smap Tile
  invisible : List Nat
  rects : Smap Rect
deriving DecidableEq

namespace TilesState

/-- `Tiles::is_visible`. -/
def is_visible (st : TilesState) (id : Nat) : Bool := ¬ Sset.memS st.invisible id

/-- `Tiles::set_visible`. -/
def set_visible (st : TilesState) (id : Nat) (visible : Bool) : TilesState :=
  if visible then { st with invisible := Sset.eraseN st.invisible id }
  else { st with invisible := Sset.insertN st.invisible id }

/-- `Tiles::get`. -/
def getTile (st : TilesState) (id : Nat) : Option Tile := Smap.lookup st.tiles id

/-- `Tiles::insert`. -/
def insertTile (st : TilesState) (id : Nat) (tile : Tile) : TilesState :=
  { st with tiles := Smap.insertS st.tiles id tile }

/-- `Tiles::remove` (the state part; the removed tile is read via `getTile`). -/
def removeTile (st : TilesState) (id : Nat) : TilesState :=
  { st with tiles := Smap.eraseS st.tiles id }

/-- `Tiles::insert_new`. -/
def insert_new (st : TilesState) (tile : Tile) : TilesState × Nat :=
  let id := st.next_tile_id
  ({ st with next_tile_id := id + 1, tiles := Smap.insertS st.tiles id tile }, id)

end TilesState

/-- `SimplificationOptions`. -/
structure SimplificationOptions where
  prune_empty_tabs : Bool
  prune_empty_containers : Bool
  prune_single_child_tabs : Bool
  prune_single_child_containers : Bool
  all_panes_must_have_tabs : Bool
  join_nested_linear_containers : Bool
deriving DecidableEq

/-- `GcAction`. -/
inductive GcAction where
  | keep
  | remove
deriving DecidableEq

/-- `SimplifyAction`. -/
inductive SimplifyAction where
  | remove
  | keep
  | replace (id : Nat)
deriving DecidableEq

/-- `ContainerInsertion`. -/
inductive ContainerInsertion where
  | tabs (index : Nat)
  | horizontal (index : Nat)
  | vertical (index : Nat)
  | grid (index : Nat)
deriving DecidableEq

namespace ContainerInsertion

/-- `ContainerInsertion::index`. -/
def index : ContainerInsertion → Nat
  | .tabs i | .horizontal i | .vertical i | .grid i => i

/-- `ContainerInsertion::kind`. -/
def kindCI : ContainerInsertion → ContainerKind
  | .tabs _ => .tabs
  | .horizontal _ => .horizontal
  | .vertical _ => .vertical
  | .grid _ => .grid

end ContainerInsertion

/-- `InsertionPoint`. -/
structure InsertionPoint where
  parent_id : Nat
  insertion : ContainerInsertion
deriving DecidableEq

/-! ## Grid auto-column heuristic (`src/behavior.rs`) -/

/-- One step of the candidate scan in `num_columns_heuristic`: the
accumulator holds the best loss so far (`none` is the initial infinity)
and the best column count so far. -/
def heuristicStep (n : Nat) (sizeX sizeY gap desired_aspect : Rat)
    (best : Option Rat × Nat) (ncols : Nat) : Option Rat × Nat :=
  if 4 ≤ n ∧ ncols = n - 1 then best
  else
    let nrows := (n + ncols - 1) / ncols
    let cell_width := (sizeX - gap * ((ncols : Rat) - 1)) / (ncols : Rat)
    let cell_height := (sizeY - gap * ((nrows : Rat) - 1)) / (nrows : Rat)
    let cell_aspect := cell_width / cell_height
    let aspect_diff := |desired_aspect - cell_aspect|
    let num_empty_cells := ncols * nrows - n
    let loss := aspect_diff * (n : Rat) + 2 * ((num_empty_cells : Nat) : Rat)
    match best.1 with
    | none => (some loss, ncols)
    | some b => if loss < b then (some loss, ncols) else best

/-- `num_columns_heuristic`: scan column counts `1..=n`, skipping `n - 1`
when `4 ≤ n`, keeping the candidate with the smallest loss. -/
def num_columns_heuristic (n : Nat) (sizeX sizeY gap desired_aspect : Rat) : Nat :=
  ((List.range' 1 n).foldl (heuristicStep n sizeX sizeY gap desired_aspect) (none, 1)).2

theorem heuristicStep_snd (n : Nat) (sizeX sizeY gap desired_aspect : Rat)
    (best : Option Rat × Nat) (ncols : Nat) :
    (heuristicStep n sizeX sizeY gap desired_aspect best ncols).2 = best.2 ∨
      ((heuristicStep n sizeX sizeY gap desired_aspect best ncols).2 = ncols ∧
        ¬ (4 ≤ n ∧ ncols = n - 1)) := by
  unfold heuristicStep
  split
  · exact Or.inl rfl
  next hskip =>
    split
    · exact Or.inr ⟨rfl, hskip⟩
    next b _ =>
      dsimp only
      split
      · exact Or.inr ⟨rfl, hskip⟩
      · exact Or.inl rfl

theorem heuristic_foldl_mem (n : Nat) (sizeX sizeY gap desired_aspect : Rat) :
    ∀ (l : List Nat) (acc : Option Rat × Nat),
      (l.foldl (heuristicStep n sizeX sizeY gap desired_aspect) acc).2 = acc.2 ∨
        ∃ c ∈ l, (l.foldl (heuristicStep n sizeX sizeY gap desired_aspect) acc).2 = c ∧
          ¬ (4 ≤ n ∧ c = n - 1) := by
  intro l
  induction l with
  | nil => intro acc; exact Or.inl rfl
  | cons x xs ih =>
    intro acc
    simp only [List.foldl_cons]
    rcases ih (heuristicStep n sizeX sizeY gap desired_aspect acc x) with h1 | h2
    · rw [h1]
      rcases heuristicStep_snd n sizeX sizeY gap desired_aspect acc x with h3 | h4
      · exact Or.inl h3
      · exact Or.inr ⟨x, List.mem_cons_self _ _, h4⟩
    · obtain ⟨c, hc, he, hp⟩ := h2
      exact Or.inr ⟨c, List.mem_cons_of_mem _ hc, he, hp⟩

/-- C4: the grid auto-column heuristic never chooses `n - 1` columns when
`n ≥ 4`; in particular for `n = 4` the chosen column count is 1, 2 or 4,
for every size, gap width and desired aspect ratio. -/
theorem num_columns_heuristic_no_orphan (n : Nat) (sizeX sizeY gap desired_aspect : Rat)
    (hn : 4 ≤ n) :
    num_columns_heuristic n sizeX sizeY gap desired_aspect ≠ n - 1 ∧
      (n = 4 →
        num_columns_heuristic n sizeX sizeY gap desired_aspect = 1 ∨
        num_columns_heuristic n sizeX sizeY gap desired_aspect = 2 ∨
        num_columns_heuristic n sizeX sizeY gap desired_aspect = 4) := by
  have hmem := heuristic_foldl_mem n sizeX sizeY gap desired_aspect (List.range' 1 n) (none, 1)
  unfold num_columns_heuristic
  constructor
  · rcases hmem with h1 | h2
    · rw [h1]
      omega
    · obtain ⟨c, _, he, hp⟩ := h2
      rw [he]
      intro hcontra
      exact hp ⟨hn, hcontra⟩
  · intro h4
    subst h4
    rcases hmem with h1 | h2
    · rw [h1]
      exact Or.inl rfl
    · obtain ⟨c, hc, he, hp⟩ := h2
      rw [he]
      have hrange := List.mem_range'.mp hc
      have hne3 : c ≠ 3 := fun h3 => hp ⟨by omega, by omega⟩
      omega

/-- Witness for C4 at a concrete input. -/
theorem num_columns_heuristic_no_orphan_witness :
    num_columns_heuristic 4 100 100 0 (4 / 3) ≠ 3 ∧
      (4 = 4 →
        num_columns_heuristic 4 100 100 0 (4 / 3) = 1 ∨
        num_columns_heuristic 4 100 100 0 (4 / 3) = 2 ∨
        num_columns_heuristic 4 100 100 0 (4 / 3) = 4) :=
  num_columns_heuristic_no_orphan 4 100 100 0 (4 / 3) (by decide)

/-! ## Grid share split (`sizes_from_shares`, `src/container/grid.rs`) -/

/-- `sizes_from_shares`: per-column / per-row pixel sizes from shares, with a
uniform fallback when the total share is not positive. -/
def sizes_from_shares (shares : List Rat) (available_size gap_width : Rat) : List Rat :=
  if shares.isEmpty then []
  else
    let available1 := available_size - gap_width * (((shares.length - 1 : Nat)) : Rat)
    let available2 := max available1 0
    let total_share := shares.foldl (fun acc s => acc + s) 0
    if total_share ≤ 0 then
      List.replicate shares.length (available2 / (shares.length : Rat))
    else
      shares.map (fun share => share / total_share * available2)

/-- The sum of the shares of the given children, default share 1
(the accumulation loop at the top of `Shares::split`). -/
def childShareSum (s : Shares) (children : List Nat) : Rat :=
  children.foldl (fun acc c => acc + Shares.get s c) 0

/-- C3 counterexample: with two children of explicit share 0, the Linear
`Shares::split` yields zero lengths, not the uniform division `[5, 5]` of
the available extent 10 that the claim asserts. -/
theorem split_zero_shares_not_uniform :
    Shares.split [(1, 0), (2, 0)] [1, 2] 10 = [0, 0] ∧
      Shares.split [(1, 0), (2, 0)] [1, 2] 10 ≠ [5, 5] := by
  constructor
  · norm_num [Shares.split, Shares.get, Smap.lookup, childShareSum]
  · norm_num [Shares.split, Shares.get, Smap.lookup, childShareSum]

/-- C3 (amended): neither split divides by zero. The Grid
`sizes_from_shares` falls back to uniform division of the clamped available
extent whenever the total share is `≤ 0`; the Linear `Shares::split`
instead substitutes a total of 1 when the sum is exactly 0, so each child
receives `available * share` (in particular zero length for zero shares),
and divides by the (nonzero) sum otherwise. -/
theorem share_split_degenerate_totals (s : Shares) (children : List Nat)
    (shares : List Rat) (avail availG gap : Rat) :
    (childShareSum s children = 0 →
      Shares.split s children avail = children.map (fun c => avail * Shares.get s c)) ∧
    (childShareSum s children ≠ 0 →
      Shares.split s children avail =
        children.map (fun c => avail * Shares.get s c / childShareSum s children)) ∧
    (shares ≠ [] → shares.foldl (fun acc x => acc + x) 0 ≤ 0 →
      sizes_from_shares shares availG gap =
        List.replicate shares.length
          (max (availG - gap * (((shares.length - 1 : Nat)) : Rat)) 0 /
            (shares.length : Rat))) ∧
    (sizes_from_shares shares availG gap).length = shares.length := by
  refine ⟨?_, ?_, ?_, ?_⟩
  · intro hz
    unfold Shares.split
    rw [show children.foldl (fun acc c => acc + Shares.get s c) 0 = childShareSum s children
      from rfl]
    rw [hz]
    simp
  · intro hz
    unfold Shares.split
    rw [show children.foldl (fun acc c => acc + Shares.get s c) 0 = childShareSum s children
      from rfl]
    dsimp only
    rw [if_neg hz]
  · intro hne hsum
    unfold sizes_from_shares
    rw [if_neg (by simpa using hne)]
    dsimp only
    rw [if_pos hsum]
  · unfold sizes_from_shares
    by_cases he : shares.isEmpty
    · rw [if_pos he]
      have : shares = [] := List.isEmpty_iff.mp he
      simp [this]
    · rw [if_neg he]
      dsimp only
      split
      · simp
      · simp

/-- Witness for C3 (amended) at concrete inputs. -/
theorem share_split_degenerate_totals_witness :
    (childShareSum [(1, 0), (2, 0)] [1, 2] = 0 →
      Shares.split [(1, 0), (2, 0)] [1, 2] 10 =
        [1, 2].map (fun c => 10 * Shares.get [(1, 0), (2, 0)] c)) ∧
    (childShareSum [(1, 0), (2, 0)] [1, 2] ≠ 0 →
      Shares.split [(1, 0), (2, 0)] [1, 2] 10 =
        [1, 2].map (fun c =>
          10 * Shares.get [(1, 0), (2, 0)] c / childShareSum [(1, 0), (2, 0)] [1, 2])) ∧
    (([(0 : Rat), 0] : List Rat) ≠ [] → ([(0 : Rat), 0] : List Rat).foldl
        (fun acc x => acc + x) 0 ≤ 0 →
      sizes_from_shares [0, 0] 12 2 =
        List.replicate ([(0 : Rat), 0] : List Rat).length
          (max ((12 : Rat) - 2 * ((((([(0 : Rat), 0] : List Rat).length - 1 : Nat)) : Rat))) 0 /
            ((([(0 : Rat), 0] : List Rat).length : Nat) : Rat))) ∧
    (sizes_from_shares [0, 0] 12 2).length = ([(0 : Rat), 0] : List Rat).length :=
  share_split_degenerate_totals [(1, 0), (2, 0)] [1, 2] [0, 0] 10 12 2

/-! ## Linear layout (`src/container/linear.rs`) -/

/-- `Linear::visible_children`. -/
def Linear.visible_childrenL (l : Linear) (st : TilesState) : List Nat :=
  l.children.filter (fun c => st.is_visible c)

/-- The placement loop of `Linear::layout_horizontal`: walk the visible
children left to right, pairing each child with its computed width. -/
def placeRow (rect : Rect) (gap : Rat) : Rat → List (Nat × Rat) → List (Nat × Rect)
  | _, [] => []
  | x, (c, w) :: rest =>
    (c, Rect.from_min_size x rect.minY w rect.height) :: placeRow rect gap (x + w + gap) rest

/-- The placement loop of `Linear::layout_vertical`. -/
def placeColumn (rect : Rect) (gap : Rat) : Rat → List (Nat × Rat) → List (Nat × Rect)
  | _, [] => []
  | y, (c, h) :: rest =>
    (c, Rect.from_min_size rect.minX y rect.width h) :: placeColumn rect gap (y + h + gap) rest

/-- The per-child rectangles computed by `Linear::layout_horizontal`. -/
def linear_child_rects_h (shares : Shares) (visible : List Nat) (rect : Rect)
    (gap_width : Rat) : List (Nat × Rect) :=
  let num_gaps := visible.length - 1
  let total_gap_width := gap_width * ((num_gaps : Nat) : Rat)
  let available_width := max (rect.width - total_gap_width) 0
  let widths := Shares.split shares visible available_width
  placeRow rect gap_width rect.minX (visible.zip widths)

/-- The per-child rectangles computed by `Linear::layout_vertical`. -/
def linear_child_rects_v (shares : Shares) (visible : List Nat) (rect : Rect)
    (gap_width : Rat) : List (Nat × Rect) :=
  let num_gaps := visible.length - 1
  let total_gap_height := gap_width * ((num_gaps : Nat) : Rat)
  let available_height := max (rect.height - total_gap_height) 0
  let heights := Shares.split shares visible available_height
  placeColumn rect gap_width rect.minY (visible.zip heights)

theorem placeRow_get (rect : Rect) (gap : Rat) :
    ∀ (pairs : List (Nat × Rat)) (x : Rat) (i : Nat),
      (placeRow rect gap x pairs).get? i =
        (pairs.get? i).map (fun p =>
          (p.1, Rect.from_min_size (x + ((pairs.map Prod.snd).take i).sum + gap * (i : Rat))
            rect.minY p.2 rect.height)) := by
  intro pairs
  induction pairs with
  | nil => intro x i; simp [placeRow]
  | cons pw rest ih =>
    intro x i
    obtain ⟨c, w⟩ := pw
    cases i with
    | zero =>
      simp only [placeRow, List.get?, Option.map_some, List.map_cons, List.take_zero,
        List.sum_nil, Nat.cast_zero, mul_zero, add_zero]
      norm_num
    | succ j =>
      simp only [placeRow, List.get?]
      rw [ih (x + w + gap) j]
      have hfun : (fun (p : Nat × Rat) =>
          (p.1, Rect.from_min_size (x + w + gap + ((rest.map Prod.snd).take j).sum +
            gap * (j : Rat)) rect.minY p.2 rect.height)) =
          (fun (p : Nat × Rat) =>
          (p.1, Rect.from_min_size (x + (((w :: rest.map Prod.snd)).take (j + 1)).sum +
            gap * ((j + 1 : Nat) : Rat)) rect.minY p.2 rect.height)) := by
        funext p
        have harg : x + w + gap + ((rest.map Prod.snd).take j).sum + gap * (j : Rat) =
            x + (((w :: rest.map Prod.snd)).take (j + 1)).sum + gap * ((j + 1 : Nat) : Rat) := by
          simp only [List.take_succ_cons, List.sum_cons]
          push_cast
          ring
        rw [harg]
      rw [hfun]
      rfl

theorem placeColumn_get (rect : Rect) (gap : Rat) :
    ∀ (pairs : List (Nat × Rat)) (y : Rat) (i : Nat),
      (placeColumn rect gap y pairs).get? i =
        (pairs.get? i).map (fun p =>
          (p.1, Rect.from_min_size rect.minX
            (y + ((pairs.map Prod.snd).take i).sum + gap * (i : Rat)) rect.width p.2)) := by
  intro pairs
  induction pairs with
  | nil => intro y i; simp [placeColumn]
  | cons pw rest ih =>
    intro y i
    obtain ⟨c, h⟩ := pw
    cases i with
    | zero =>
      simp only [placeColumn, List.get?, Option.map_some, List.map_cons, List.take_zero,
        List.sum_nil, Nat.cast_zero, mul_zero, add_zero]
      norm_num
    | succ j =>
      simp only [placeColumn, List.get?]
      rw [ih (y + h + gap) j]
      have hfun : (fun (p : Nat × Rat) =>
          (p.1, Rect.from_min_size rect.minX (y + h + gap + ((rest.map Prod.snd).take j).sum +
            gap * (j : Rat)) rect.width p.2)) =
          (fun (p : Nat × Rat) =>
          (p.1, Rect.from_min_size rect.minX (y + (((h :: rest.map Prod.snd)).take (j + 1)).sum +
            gap * ((j + 1 : Nat) : Rat)) rect.width p.2)) := by
        funext p
        have harg : y + h + gap + ((rest.map Prod.snd).take j).sum + gap * (j : Rat) =
            y + (((h :: rest.map Prod.snd)).take (j + 1)).sum + gap * ((j + 1 : Nat) : Rat) := by
          simp only [List.take_succ_cons, List.sum_cons]
          push_cast
          ring
        rw [harg]
      rw [hfun]
      rfl

theorem split_eq_map (s : Shares) (children : List Nat) (avail : Rat)
    (hS : childShareSum s children ≠ 0) :
    Shares.split s children avail =
      children.map (fun c => avail * Shares.get s c / childShareSum s children) := by
  unfold Shares.split
  rw [show children.foldl (fun acc c => acc + Shares.get s c) 0 = childShareSum s children
    from rfl]
  dsimp only
  rw [if_neg hS]

/-- C2: for a Linear container whose visible children have a nonzero total
share, the layout assigns the `i`-th visible child a main-axis length of
`available * share / total`, with the available extent clamped at zero
after subtracting one gap per adjacent pair, the full cross-axis extent,
and a position offset by all earlier lengths plus `i` gaps — for both the
horizontal and the vertical direction. -/
theorem linear_layout_proportional (shares : Shares) (vis : List Nat) (rect : Rect)
    (gap : Rat) (i : Nat) (hS : childShareSum shares vis ≠ 0) (hi : i < vis.length) :
    (linear_child_rects_h shares vis rect gap).get? i =
      some (vis.get ⟨i, hi⟩,
        { minX := rect.minX +
            ((vis.take i).map (fun c =>
              max (rect.width - gap * (((vis.length - 1 : Nat)) : Rat)) 0 *
                Shares.get shares c / childShareSum shares vis)).sum + gap * (i : Rat)
          minY := rect.minY
          maxX := rect.minX +
            ((vis.take i).map (fun c =>
              max (rect.width - gap * (((vis.length - 1 : Nat)) : Rat)) 0 *
                Shares.get shares c / childShareSum shares vis)).sum + gap * (i : Rat) +
            max (rect.width - gap * (((vis.length - 1 : Nat)) : Rat)) 0 *
              Shares.get shares (vis.get ⟨i, hi⟩) / childShareSum shares vis
          maxY := rect.maxY }) ∧
    (linear_child_rects_v shares vis rect gap).get? i =
      some (vis.get ⟨i, hi⟩,
        { minX := rect.minX
          minY := rect.minY +
            ((vis.take i).map (fun c =>
              max (rect.height - gap * (((vis.length - 1 : Nat)) : Rat)) 0 *
                Shares.get shares c / childShareSum shares vis)).sum + gap * (i : Rat)
          maxX := rect.maxX
          maxY := rect.minY +
            ((vis.take i).map (fun c =>
              max (rect.height - gap * (((vis.length - 1 : Nat)) : Rat)) 0 *
                Shares.get shares c / childShareSum shares vis)).sum + gap * (i : Rat) +
            max (rect.height - gap * (((vis.length - 1 : Nat)) : Rat)) 0 *
              Shares.get shares (vis.get ⟨i, hi⟩) / childShareSum shares vis }) := by
  constructor
  · unfold linear_child_rects_h
    dsimp only
    rw [split_eq_map shares vis _ hS, ← List.map_prod_left_eq_zip, placeRow_get]
    have hmapmap : ((vis.map (fun a => (a,
        max (rect.width - gap * (((vis.length - 1 : Nat)) : Rat)) 0 *
          Shares.get shares a / childShareSum shares vis))).map Prod.snd) =
        vis.map (fun c =>
          max (rect.width - gap * (((vis.length - 1 : Nat)) : Rat)) 0 *
            Shares.get shares c / childShareSum shares vis) := by
      rw [List.map_map]
      rfl
    rw [hmapmap]
    rw [List.get?_map, List.get?_eq_get hi]
    simp only [Option.map_some']
    rw [← List.map_take]
    unfold Rect.from_min_size Rect.height
    congr 2
    ring
  · unfold linear_child_rects_v
    dsimp only
    rw [split_eq_map shares vis _ hS, ← List.map_prod_left_eq_zip, placeColumn_get]
    have hmapmap : ((vis.map (fun a => (a,
        max (rect.height - gap * (((vis.length - 1 : Nat)) : Rat)) 0 *
          Shares.get shares a / childShareSum shares vis))).map Prod.snd) =
        vis.map (fun c =>
          max (rect.height - gap * (((vis.length - 1 : Nat)) : Rat)) 0 *
            Shares.get shares c / childShareSum shares vis) := by
      rw [List.map_map]
      rfl
    rw [hmapmap]
    rw [List.get?_map, List.get?_eq_get hi]
    simp only [Option.map_some']
    rw [← List.map_take]
    unfold Rect.from_min_size Rect.width
    congr 2
    ring

/-- Witness for C2 at a concrete input: shares `[1, 2, 3]`, available
length 60 (no gaps), first child gets `60 * 1 / 6 = 10`. -/
theorem linear_layout_proportional_witness :
    childShareSum [(1, 1), (2, 2), (3, 3)] [1, 2, 3] ≠ 0 ∧
      (0 : Nat) < ([1, 2, 3] : List Nat).length ∧
      (linear_child_rects_h [(1, 1), (2, 2), (3, 3)] [1, 2, 3] ⟨0, 0, 60, 8⟩ 0).get? 0 =
        some (1, { minX := 0, minY := 0, maxX := 10, maxY := 8 }) := by
  refine ⟨by norm_num [childShareSum, Shares.get, Smap.lookup], by norm_num, ?_⟩
  have h := (linear_layout_proportional [(1, 1), (2, 2), (3, 3)] [1, 2, 3] ⟨0, 0, 60, 8⟩ 0 0
    (by norm_num [childShareSum, Shares.get, Smap.lookup]) (by norm_num)).1
  rw [h]
  norm_num [childShareSum, Shares.get, Smap.lookup, Rect.width, List.get]

/-! ## Insertion (`Tiles::insert_at`, `src/tiles.rs`) -/

/-- `Tiles::insert_at`: insert `inserted_id` at the given insertion point;
wraps the parent in a new container when the kinds do not match, and is a
no-op when the parent id does not resolve. -/
def insert_at (st : TilesState) (ip : InsertionPoint) (inserted_id : Nat) : TilesState :=
  match Smap.lookup st.tiles ip.parent_id with
  | none => st
  | some parent_tile =>
    let st1 := st.removeTile ip.parent_id
    match ip.insertion with
    | .tabs index =>
      match parent_tile with
      | .cont (.tabs tabs) =>
        let index := min index tabs.children.length
        st1.insertTile ip.parent_id (Tile.cont (.tabs
          { tabs with children := tabs.children.insertIdx index inserted_id,
                      active := some inserted_id }))
      | _ =>
        let r := st1.insert_new parent_tile
        let tabs0 := Tabs.new [r.2]
        let tabs1 := { tabs0 with children := tabs0.children.insertIdx (min index 1) inserted_id }
        r.1.insertTile ip.parent_id (Tile.cont (.tabs (tabs1.set_active inserted_id)))
    | .horizontal index =>
      match parent_tile with
      | .cont (.linear l) =>
        match l.dir with
        | .horizontal =>
          let index := min index l.children.length
          st1.insertTile ip.parent_id (Tile.cont (.linear
            { l with children := l.children.insertIdx index inserted_id }))
        | .vertical =>
          let r := st1.insert_new parent_tile
          let lin0 := Linear.new .horizontal [r.2]
          let lin1 := { lin0 with children := lin0.children.insertIdx (min index 1) inserted_id }
          r.1.insertTile ip.parent_id (Tile.cont (.linear lin1))
      | _ =>
        let r := st1.insert_new parent_tile
        let lin0 := Linear.new .horizontal [r.2]
        let lin1 := { lin0 with children := lin0.children.insertIdx (min index 1) inserted_id }
        r.1.insertTile ip.parent_id (Tile.cont (.linear lin1))
    | .vertical index =>
      match parent_tile with
      | .cont (.linear l) =>
        match l.dir with
        | .vertical =>
          let index := min index l.children.length
          st1.insertTile ip.parent_id (Tile.cont (.linear
            { l with children := l.children.insertIdx index inserted_id }))
        | .horizontal =>
          let r := st1.insert_new parent_tile
          let lin0 := Linear.new .vertical [r.2]
          let lin1 := { lin0 with children := lin0.children.insertIdx (min index 1) inserted_id }
          r.1.insertTile ip.parent_id (Tile.cont (.linear lin1))
      | _ =>
        let r := st1.insert_new parent_tile
        let lin0 := Linear.new .vertical [r.2]
        let lin1 := { lin0 with children := lin0.children.insertIdx (min index 1) inserted_id }
        r.1.insertTile ip.parent_id (Tile.cont (.linear lin1))
    | .grid index =>
      match parent_tile with
      | .cont (.grid g) =>
        st1.insertTile ip.parent_id (Tile.cont (.grid (g.insert_at index inserted_id)))
      | _ =>
        let r := st1.insert_new parent_tile
        r.1.insertTile ip.parent_id (Tile.cont (.grid (Grid.new [r.2, inserted_id])))

/-- C10: inserting at an insertion point whose parent id is not in the
arena mutates nothing at all: tile map, invisible set, rectangle cache and
id counter are exactly unchanged. -/
theorem insert_at_missing_parent_noop (st : TilesState) (ip : InsertionPoint)
    (inserted_id : Nat) (h : Smap.lookup st.tiles ip.parent_id = none) :
    insert_at st ip inserted_id = st := by
  unfold insert_at
  rw [h]

/-- Witness for C10 at a concrete input. -/
theorem insert_at_missing_parent_noop_witness :
    Smap.lookup (⟨1, [], [], []⟩ : TilesState).tiles 7 = none ∧
      insert_at ⟨1, [], [], []⟩ ⟨7, ContainerInsertion.tabs 0⟩ 3 = ⟨1, [], [], []⟩ :=
  ⟨rfl, insert_at_missing_parent_noop ⟨1, [], [], []⟩ ⟨7, ContainerInsertion.tabs 0⟩ 3 rfl⟩

/-! ## Moving tiles (`Tree::move_tile`, `src/tree.rs`) -/

/-- Modelled from the spec: `Tabs::ensure_active` is called by
`Tree::remove_tile_id_from_parent` but its definition is missing from the
source snapshot (only the call site is present). Per the spec, a Tabs
container's active child, if set, must be a member of its children list
and visible; if absent or no longer visible, one visible child is chosen
as active (the first visible one), or none if no child is visible. -/
def Tabs.ensure_active (t : Tabs) (st : TilesState) : Tabs :=
  match t.active with
  | some a =>
    if t.children.contains a ∧ st.is_visible a then t
    else { t with active := t.children.find? (fun c => st.is_visible c) }
  | none => { t with active := t.children.find? (fun c => st.is_visible c) }

/-- The per-tile effect of `Tree::remove_tile_id_from_parent`: containers
drop the child, panes are untouched. -/
def removeFromTile (remove_me : Nat) (t : Tile) : Tile :=
  match t with
  | .pane p => .pane p
  | .cont c => .cont (c.remove_childC remove_me).1

/-- The per-entry hit record of `Tree::remove_tile_id_from_parent`:
the parent id and the child index at which the id was removed. -/
def removeHit (remove_me : Nat) (e : Nat × Tile) : Option (Nat × Nat) :=
  match e.2 with
  | .pane _ => none
  | .cont c => ((c.remove_childC remove_me).2).map (fun idx => (e.1, idx))

/-- `Tree::remove_tile_id_from_parent`: remove the id from every container
in the arena (last hit wins), then re-establish the active tab of the
parent it was removed from. -/
def remove_tile_id_from_parent (st : TilesState) (remove_me : Nat) :
    TilesState × Option (Nat × Nat) :=
  let new_tiles : Smap Tile := st.tiles.map (fun e => (e.1, removeFromTile remove_me e.2))
  let result := (st.tiles.filterMap (removeHit remove_me)).getLast?
  let st1 : TilesState := { st with tiles := new_tiles }
  match result with
  | none => (st1, none)
  | some (parent_id, _) =>
    match Smap.lookup st1.tiles parent_id with
    | some (Tile.cont (Container.tabs tabs)) =>
      (st1.insertTile parent_id (Tile.cont (.tabs (tabs.ensure_active st1))), result)
    | some _ => (st1, result)
    | none => (st1, result)

/-- The `adjusted_index` computation in `Tree::move_tile`: when the child
was removed from an earlier position, the destination index shifts left. -/
def adjustedIndex (source_index dest_index : Nat) : Nat :=
  if source_index < dest_index then dest_index - 1 else dest_index

/-- `Tree::move_tile`: same-container moves with matching kind degenerate
to an index-adjusted in-place reorder (grid: slot swap unless reflowing);
otherwise detach and reattach via `insert_at`. -/
def move_tile (st : TilesState) (moved_tile_id : Nat) (ip : InsertionPoint)
    (reflow_grid : Bool) : TilesState :=
  let r := remove_tile_id_from_parent st moved_tile_id
  let st1 := r.1
  match r.2 with
  | some (prev_parent_id, source_index) =>
    if prev_parent_id = ip.parent_id then
      match Smap.lookup st1.tiles prev_parent_id with
      | some (Tile.cont container) =>
        if container.kind = ip.insertion.kindCI then
          let dest_index := ip.insertion.index
          let adjusted_index := adjustedIndex source_index dest_index
          match container with
          | .tabs tabs =>
            let insertion_index := min adjusted_index tabs.children.length
            st1.insertTile prev_parent_id (Tile.cont (.tabs
              { tabs with children := tabs.children.insertIdx insertion_index moved_tile_id,
                          active := some moved_tile_id }))
          | .linear linear =>
            let insertion_index := min adjusted_index linear.children.length
            st1.insertTile prev_parent_id (Tile.cont (.linear
              { linear with
                children := linear.children.insertIdx insertion_index moved_tile_id }))
          | .grid grid =>
            if reflow_grid then insert_at st1 ip moved_tile_id
            else
              let rp := grid.replace_at dest_index moved_tile_id
              let grid2 := match rp.2 with
                | some dest => rp.1.insert_at source_index dest
                | none => rp.1
              st1.insertTile prev_parent_id (Tile.cont (.grid grid2))
        else insert_at st1 ip moved_tile_id
      | some (Tile.pane _) => insert_at st1 ip moved_tile_id
      | none => insert_at st1 ip moved_tile_id
    else insert_at st1 ip moved_tile_id
  | none => insert_at st1 ip moved_tile_id

/-! ## C9: in-place reorder when moving within the same container -/

theorem remove_childC_not_child (c : Container) (needle : Nat)
    (h : c.has_child needle = false) : c.remove_childC needle = (c, none) := by
  cases c with
  | tabs t =>
    have hnone : t.children.findIdx? (fun x => x = needle) = none := by
      rw [List.findIdx?_eq_none_iff]
      intro x hx
      simp only [decide_eq_false_iff_not]
      intro hxn
      subst hxn
      have : t.children.contains x = true := List.elem_eq_true_of_mem hx
      rw [show Container.has_child (.tabs t) x = t.children.contains x from rfl] at h
      rw [h] at this
      exact Bool.false_ne_true this
    simp [Container.remove_childC, hnone]
  | linear l =>
    have hnone : l.children.findIdx? (fun x => x = needle) = none := by
      rw [List.findIdx?_eq_none_iff]
      intro x hx
      simp only [decide_eq_false_iff_not]
      intro hxn
      subst hxn
      have : l.children.contains x = true := List.elem_eq_true_of_mem hx
      rw [show Container.has_child (.linear l) x = l.children.contains x from rfl] at h
      rw [h] at this
      exact Bool.false_ne_true this
    simp [Container.remove_childC, hnone]
  | grid g =>
    have hnone : g.children.findIdx? (fun c => c = some needle) = none := by
      rw [List.findIdx?_eq_none_iff]
      intro slot hslot
      simp only [decide_eq_false_iff_not]
      intro hsn
      subst hsn
      have hmem : needle ∈ g.childrenIds := by
        unfold Grid.childrenIds
        exact List.mem_filterMap.mpr ⟨some needle, hslot, rfl⟩
      have : g.childrenIds.contains needle = true := List.elem_eq_true_of_mem hmem
      rw [show Container.has_child (.grid g) needle = g.childrenIds.contains needle from rfl] at h
      rw [h] at this
      exact Bool.false_ne_true this
    simp [Container.remove_childC, Grid.remove_child, hnone]

theorem removeFromTile_not_child (t : Tile) (needle : Nat)
    (h : ∀ c, t = Tile.cont c → c.has_child needle = false) :
    removeFromTile needle t = t := by
  cases t with
  | pane p => rfl
  | cont c =>
    show Tile.cont (c.remove_childC needle).1 = Tile.cont c
    rw [remove_childC_not_child c needle (h c rfl)]

theorem lookup_map_value (tf : Tile → Tile) (l : Smap Tile) (k : Nat) :
    Smap.lookup (l.map (fun e => (e.1, tf e.2))) k = (Smap.lookup l k).map tf := by
  induction l with
  | nil => simp [Smap.lookup]
  | cons e t ih =>
    obtain ⟨a, b⟩ := e
    by_cases hka : k = a
    · simp [Smap.lookup, hka]
    · simp [Smap.lookup, hka, ih]

theorem sortedK_map_value (tf : Tile → Tile) (l : Smap Tile) (hs : Smap.SortedK l) :
    Smap.SortedK (l.map (fun e => (e.1, tf e.2))) := by
  unfold Smap.SortedK at hs ⊢
  rw [List.pairwise_map]
  exact hs.imp (fun h => h)

theorem filterMap_single {β : Type} (f : Nat × Tile → Option β) (p : Nat) (tp : Tile)
    (b : β) : ∀ (l : Smap Tile), Smap.SortedK l → Smap.lookup l p = some tp →
      (∀ e ∈ l, e.1 ≠ p → f e = none) → f (p, tp) = some b →
      l.filterMap f = [b] := by
  intro l
  induction l with
  | nil => intro _ hlk; simp [Smap.lookup] at hlk
  | cons e t ih =>
    intro hs hlk hnone hfp
    obtain ⟨a, v⟩ := e
    by_cases hpa : p = a
    · subst hpa
      have hv : v = tp := by simpa [Smap.lookup] using hlk
      subst hv
      have htail_none : ∀ e ∈ t, f e = none := by
        intro e he
        refine hnone e (List.mem_cons_of_mem _ he) ?_
        have := Smap.sortedK_cons_head hs e he
        simp at this
        omega
      rw [List.filterMap_cons, hfp]
      rw [List.filterMap_eq_nil_iff.mpr htail_none]
    · have hfa : f (a, v) = none := by
        refine hnone (a, v) (List.mem_cons_self _ _) ?_
        simp
        omega
      rw [List.filterMap_cons, hfa]
      refine ih (Smap.sortedK_cons_tail hs) ?_ ?_ hfp
      · simpa [Smap.lookup, hpa] using hlk
      · intro e he hep
        exact hnone e (List.mem_cons_of_mem _ he) hep

theorem ensure_active_children (t : Tabs) (st : TilesState) :
    (t.ensure_active st).children = t.children := by
  unfold Tabs.ensure_active
  cases t.active with
  | none => rfl
  | some a =>
    dsimp only
    split
    · rfl
    · rfl

/-- A tile id is only a child of the container at id `p`, nowhere else. -/
def only_parent_of (st : TilesState) (p moved : Nat) : Prop :=
  ∀ e ∈ st.tiles, e.1 ≠ p → ∀ c, e.2 = Tile.cont c → c.has_child moved = false

theorem lookup_removed_ne (st : TilesState) (p moved k : Nat)
    (huniq : only_parent_of st p moved) (hk : k ≠ p) :
    Smap.lookup (st.tiles.map (fun e => (e.1, removeFromTile moved e.2))) k =
      Smap.lookup st.tiles k := by
  rw [lookup_map_value]
  cases hl : Smap.lookup st.tiles k with
  | none => rfl
  | some t =>
    have hmem := Smap.lookup_some_mem hl
    simp only [Option.map_some']
    rw [removeFromTile_not_child t moved (fun c hc => huniq (k, t) hmem hk c hc)]

theorem removeHit_filterMap (st : TilesState) (p moved s : Nat) (G G2 : Container)
    (hsorted : Smap.SortedK st.tiles) (huniq : only_parent_of st p moved)
    (hG : Smap.lookup st.tiles p = some (Tile.cont G))
    (hrc : G.remove_childC moved = (G2, some s)) :
    st.tiles.filterMap (removeHit moved) = [(p, s)] := by
  refine filterMap_single (removeHit moved) p (Tile.cont G) (p, s) st.tiles hsorted hG ?_ ?_
  · intro e he hep
    unfold removeHit
    cases he2 : e.2 with
    | pane q => rfl
    | cont c =>
      dsimp only
      rw [remove_childC_not_child c moved (huniq e he hep c he2)]
      rfl
  · unfold removeHit
    dsimp only
    rw [hrc]
    rfl

/-- The tile map after `remove_tile_id_from_parent` has dropped the moved
id from every container. -/
def removedTiles (st : TilesState) (moved : Nat) : Smap Tile :=
  st.tiles.map (fun e => (e.1, removeFromTile moved e.2))

/-- The arena state reached inside `remove_tile_id_from_parent` before the
active-tab fixup. -/
def removedState (st : TilesState) (moved : Nat) : TilesState :=
  { st with tiles := removedTiles st moved }

theorem rtifp_compute_tabs (st : TilesState) (p moved s : Nat) (G : Container) (t2 : Tabs)
    (hsorted : Smap.SortedK st.tiles) (huniq : only_parent_of st p moved)
    (hG : Smap.lookup st.tiles p = some (Tile.cont G))
    (hrc : G.remove_childC moved = (Container.tabs t2, some s)) :
    remove_tile_id_from_parent st moved =
      ((removedState st moved).insertTile p
          (Tile.cont (.tabs (t2.ensure_active (removedState st moved)))),
        some (p, s)) := by
  unfold remove_tile_id_from_parent
  rw [removeHit_filterMap st p moved s G (Container.tabs t2) hsorted huniq hG hrc]
  rw [show ([(p, s)] : List (Nat × Nat)).getLast? = some (p, s) from rfl]
  have hlp : Smap.lookup (st.tiles.map (fun e => (e.1, removeFromTile moved e.2))) p =
      some (Tile.cont (.tabs t2)) := by
    rw [lookup_map_value, hG]
    simp only [Option.map_some']
    unfold removeFromTile
    dsimp only
    rw [hrc]
  dsimp only
  rw [hlp]
  rfl

theorem rtifp_compute_nontabs (st : TilesState) (p moved s : Nat) (G G2 : Container)
    (hsorted : Smap.SortedK st.tiles) (huniq : only_parent_of st p moved)
    (hG : Smap.lookup st.tiles p = some (Tile.cont G))
    (hrc : G.remove_childC moved = (G2, some s))
    (hnt : ∀ t, G2 ≠ Container.tabs t) :
    remove_tile_id_from_parent st moved = (removedState st moved, some (p, s)) := by
  unfold remove_tile_id_from_parent
  rw [removeHit_filterMap st p moved s G G2 hsorted huniq hG hrc]
  rw [show ([(p, s)] : List (Nat × Nat)).getLast? = some (p, s) from rfl]
  have hlp : Smap.lookup (st.tiles.map (fun e => (e.1, removeFromTile moved e.2))) p =
      some (Tile.cont G2) := by
    rw [lookup_map_value, hG]
    simp only [Option.map_some']
    unfold removeFromTile
    dsimp only
    rw [hrc]
  dsimp only
  rw [hlp]
  cases G2 with
  | tabs t => exact absurd rfl (hnt t)
  | linear l => rfl
  | grid g => rfl

theorem insertS_insertS {α : Type} (m : Smap α) (p : Nat) (X Y : α)
    (hs : Smap.SortedK m) :
    Smap.insertS (Smap.insertS m p X) p Y = Smap.insertS m p Y := by
  apply Smap.ext_sorted
  · exact Smap.sortedK_insertS _ _ _ (Smap.sortedK_insertS _ _ _ hs)
  · exact Smap.sortedK_insertS _ _ _ hs
  · intro k
    by_cases hk : k = p
    · subst hk
      rw [Smap.lookup_insertS_self, Smap.lookup_insertS_self]
    · rw [Smap.lookup_insertS_ne _ _ _ _ hk, Smap.lookup_insertS_ne _ _ _ _ hk,
        Smap.lookup_insertS_ne _ _ _ _ hk]

theorem insert_removed_eq (st : TilesState) (p moved : Nat) (Z : Tile)
    (hsorted : Smap.SortedK st.tiles) (huniq : only_parent_of st p moved) :
    Smap.insertS (removedTiles st moved) p Z = Smap.insertS st.tiles p Z := by
  apply Smap.ext_sorted
  · exact Smap.sortedK_insertS _ _ _ (sortedK_map_value _ _ hsorted)
  · exact Smap.sortedK_insertS _ _ _ hsorted
  · intro k
    by_cases hk : k = p
    · subst hk
      rw [Smap.lookup_insertS_self, Smap.lookup_insertS_self]
    · rw [Smap.lookup_insertS_ne _ _ _ _ hk, Smap.lookup_insertS_ne _ _ _ _ hk]
      exact lookup_removed_ne st p moved k huniq hk

/-- C9: moving a tile to an insertion point inside its own parent with a
matching container kind is performed as an in-place reorder: Tabs and
Linear reinsert at the destination index (minus one when the source index
was earlier, clamped to the child count) and a Tabs parent makes the moved
tile active; a Grid destination without reflow swaps the moved tile into
the destination slot and puts that slot's previous occupant, if any, into
the vacated source slot. -/
theorem move_tile_same_parent_reorder (st : TilesState) (p moved s : Nat)
    (ins : ContainerInsertion) (hsorted : Smap.SortedK st.tiles)
    (huniq : only_parent_of st p moved) :
    (∀ tabs : Tabs,
      Smap.lookup st.tiles p = some (Tile.cont (.tabs tabs)) →
      ins.kindCI = ContainerKind.tabs →
      tabs.children.findIdx? (fun x => x = moved) = some s →
      move_tile st moved ⟨p, ins⟩ false =
        { st with tiles := Smap.insertS st.tiles p (Tile.cont (.tabs
            { children := (tabs.children.eraseIdx s).insertIdx (min (adjustedIndex s ins.index) (tabs.children.eraseIdx s).length) moved,
              active := some moved })) }) ∧
    (∀ lin : Linear,
      Smap.lookup st.tiles p = some (Tile.cont (.linear lin)) →
      ins.kindCI = (Container.linear lin).kind →
      lin.children.findIdx? (fun x => x = moved) = some s →
      move_tile st moved ⟨p, ins⟩ false =
        { st with tiles := Smap.insertS st.tiles p (Tile.cont (.linear
            { lin with children := (lin.children.eraseIdx s).insertIdx (min (adjustedIndex s ins.index) (lin.children.eraseIdx s).length) moved })) }) ∧
    (∀ (g : Grid) (slotv : Option Nat),
      Smap.lookup st.tiles p = some (Tile.cont (.grid g)) →
      ins.kindCI = ContainerKind.grid →
      g.children.findIdx? (fun c => c = some moved) = some s →
      s ≠ ins.index →
      g.children.get? ins.index = some slotv →
      move_tile st moved ⟨p, ins⟩ false =
        { st with tiles := Smap.insertS st.tiles p (Tile.cont (.grid
            { g with children :=
                match slotv with
                | some d => (g.children.set ins.index (some moved)).set s (some d)
                | none => (g.children.set s none).set ins.index (some moved) })) }) := by
  refine ⟨?_, ?_, ?_⟩
  · intro tabs hG hkind hfind
    have hrc : Container.remove_childC (.tabs tabs) moved =
        (.tabs { tabs with children := tabs.children.eraseIdx s }, some s) := by
      unfold Container.remove_childC
      dsimp only
      rw [hfind]
    have hrm := rtifp_compute_tabs st p moved s (.tabs tabs) _ hsorted huniq hG hrc
    unfold move_tile
    rw [hrm]
    dsimp only
    have hl2 : Smap.lookup ((removedState st moved).insertTile p
        (Tile.cont (.tabs (Tabs.ensure_active
          { tabs with children := tabs.children.eraseIdx s }
          (removedState st moved))))).tiles p =
        some (Tile.cont (.tabs (Tabs.ensure_active
          { tabs with children := tabs.children.eraseIdx s }
          (removedState st moved)))) := by
      unfold TilesState.insertTile
      exact Smap.lookup_insertS_self _ _ _
    rw [if_pos rfl, hl2]
    dsimp only
    split
    case isFalse hcond => exact absurd hkind.symm hcond
    case isTrue hcond =>
      rw [ensure_active_children]
      unfold TilesState.insertTile removedState removedTiles
      dsimp only
      congr 1
      rw [insertS_insertS _ _ _ _ (sortedK_map_value _ _ hsorted)]
      exact insert_removed_eq st p moved _ hsorted huniq
  · intro lin hG hkind hfind
    have hrc : Container.remove_childC (.linear lin) moved =
        (.linear { lin with children := lin.children.eraseIdx s }, some s) := by
      unfold Container.remove_childC
      dsimp only
      rw [hfind]
    have hrm := rtifp_compute_nontabs st p moved s (.linear lin)
      (.linear { lin with children := lin.children.eraseIdx s }) hsorted huniq hG hrc
      (by intro t h; exact Container.noConfusion h)
    unfold move_tile
    rw [hrm]
    dsimp only
    have hl2 : Smap.lookup (removedState st moved).tiles p =
        some (Tile.cont (.linear { lin with children := lin.children.eraseIdx s })) := by
      unfold removedState removedTiles
      dsimp only
      rw [lookup_map_value, hG]
      simp only [Option.map_some']
      unfold removeFromTile
      dsimp only
      rw [hrc]
    rw [if_pos rfl, hl2]
    dsimp only
    split
    case isFalse hcond => exact absurd hkind.symm hcond
    case isTrue hcond =>
      unfold TilesState.insertTile removedState removedTiles
      dsimp only
      congr 1
      exact insert_removed_eq st p moved _ hsorted huniq
  · intro g slotv hG hkind hfind hne hslot
    have hrc : Container.remove_childC (.grid g) moved =
        (.grid { g with children := g.children.set s none }, some s) := by
      unfold Container.remove_childC Grid.remove_child
      dsimp only
      rw [hfind]
    have hrm := rtifp_compute_nontabs st p moved s (.grid g)
      (.grid { g with children := g.children.set s none }) hsorted huniq hG hrc
      (by intro t h; exact Container.noConfusion h)
    unfold move_tile
    rw [hrm]
    dsimp only
    have hl2 : Smap.lookup (removedState st moved).tiles p =
        some (Tile.cont (.grid { g with children := g.children.set s none })) := by
      unfold removedState removedTiles
      dsimp only
      rw [lookup_map_value, hG]
      simp only [Option.map_some']
      unfold removeFromTile
      dsimp only
      rw [hrc]
    rw [if_pos rfl, hl2]
    dsimp only
    split
    case isFalse hcond => exact absurd hkind.symm hcond
    case isTrue hcond =>
      rw [if_neg Bool.false_ne_true]
      have hget_dest : ((g.children.set s none).get? ins.index) = some slotv := by
        rw [List.get?_eq_getElem?, List.getElem?_set_ne hne]
        rw [List.get?_eq_getElem?] at hslot
        exact hslot
      have hreplace : Grid.replace_at { g with children := g.children.set s none }
          ins.index moved =
          ({ g with children := (g.children.set s none).set ins.index (some moved) },
            slotv) := by
        unfold Grid.replace_at
        dsimp only
        rw [hget_dest]
      rw [hreplace]
      dsimp only
      cases slotv with
      | none =>
        dsimp only
        unfold TilesState.insertTile removedState removedTiles
        dsimp only
        congr 1
        exact insert_removed_eq st p moved _ hsorted huniq
      | some d =>
        dsimp only
        have hs_lt : s < g.children.length := by
          have := List.findIdx?_eq_some_iff_findIdx_eq.mp hfind
          exact this.1
        have hget_s : (((g.children.set s none).set ins.index (some moved)).get? s) =
            some none := by
          rw [List.get?_eq_getElem?, List.getElem?_set_ne (fun h => hne h.symm),
            List.getElem?_set_self]
          omega
        have hins : Grid.insert_at
            { g with children := (g.children.set s none).set ins.index (some moved) }
            s d =
            { g with children :=
                (g.children.set ins.index (some moved)).set s (some d) } := by
          unfold Grid.insert_at
          rw [hget_s]
          dsimp only
          have hsets : (((g.children.set s none).set ins.index (some moved)).set s
              (some d)) = (g.children.set ins.index (some moved)).set s (some d) := by
            rw [List.set_comm _ _ _ hne, List.set_set]
          rw [hsets]
        rw [hins]
        unfold TilesState.insertTile removedState removedTiles
        dsimp only
        congr 1
        exact insert_removed_eq st p moved _ hsorted huniq

/-- A concrete arena for the C9 witness: a Tabs container `1` with three
pane children `2, 3, 4`. -/
def c9_state : TilesState :=
  ⟨5, [(1, Tile.cont (.tabs ⟨[2, 3, 4], some 2⟩)),
       (2, Tile.pane 0), (3, Tile.pane 0), (4, Tile.pane 0)], [], []⟩

/-- Witness for C9: moving tile 3 (source index 1) to tabs index 3 of its
own parent reorders in place to `[2, 4, 3]` and makes it active. -/
theorem move_tile_same_parent_reorder_witness :
    move_tile c9_state 3 ⟨1, ContainerInsertion.tabs 3⟩ false =
      { c9_state with tiles := Smap.insertS c9_state.tiles 1 (Tile.cont (.tabs ⟨[2, 4, 3], some 3⟩)) } := by
  have huniq : only_parent_of c9_state 1 3 := by
    intro e he hne c hc
    unfold c9_state at he
    simp only [List.mem_cons, List.not_mem_nil, or_false] at he
    rcases he with h | h | h | h <;> subst h <;> simp_all
  have h := (move_tile_same_parent_reorder c9_state 1 3 1 (ContainerInsertion.tabs 3)
    (by unfold Smap.SortedK c9_state; decide) huniq).1 ⟨[2, 3, 4], some 2⟩ (by decide) rfl
    (by decide)
  rw [h]
  rfl

/-! ## Garbage collection (`Tiles::gc_root` / `gc_tile_id`, `src/tiles.rs`) -/

/-- The child ids referenced by a tile. -/
def tileChildren (t : Tile) : List Nat :=
  match t with
  | .pane _ => []
  | .cont c => c.childrenList

/-- The sequential walk of `Container::retain` over an ordered child list,
threading the arena state and the visited set; returns the kept children. -/
def gc_children (f : TilesState → List Nat → Nat → TilesState × List Nat × GcAction) :
    TilesState → List Nat → List Nat → TilesState × List Nat × List Nat
  | st, visited, [] => (st, visited, [])
  | st, visited, c :: rest =>
    let r := f st visited c
    let rr := gc_children f r.1 r.2.1 rest
    (rr.1, rr.2.1, if r.2.2 = GcAction.keep then c :: rr.2.2 else rr.2.2)

/-- The walk of `Grid::retain` over the slot list: removed children leave a
hole in place. -/
def gc_children_grid
    (f : TilesState → List Nat → Nat → TilesState × List Nat × GcAction) :
    TilesState → List Nat → List (Option Nat) →
      TilesState × List Nat × List (Option Nat)
  | st, visited, [] => (st, visited, [])
  | st, visited, none :: rest =>
    let rr := gc_children_grid f st visited rest
    (rr.1, rr.2.1, none :: rr.2.2)
  | st, visited, some c :: rest =>
    let r := f st visited c
    let rr := gc_children_grid f r.1 r.2.1 rest
    (rr.1, rr.2.1, (if r.2.2 = GcAction.keep then some c else none) :: rr.2.2)

/-- `Tiles::gc_tile_id`: remove the tile, fail fast on missing or
already-visited ids (the tile stays removed in the latter case), consult
`retain_pane` for panes, recurse into container children, reinsert. -/
def gc_tile_id (retain_pane : Nat → Bool) :
    Nat → TilesState → List Nat → Nat → TilesState × List Nat × GcAction
  | 0, st, visited, _ => (st, visited, .remove)
  | fuel + 1, st, visited, id =>
    match st.getTile id with
    | none => (st, visited, .remove)
    | some tile =>
      let st1 := st.removeTile id
      if visited.contains id then (st1, visited, .remove)
      else
        let visited1 := visited ++ [id]
        match tile with
        | .pane p =>
          if retain_pane p then (st1.insertTile id (.pane p), visited1, .keep)
          else (st1, visited1, .remove)
        | .cont c =>
          match c with
          | .tabs t =>
            let rr := gc_children (gc_tile_id retain_pane fuel) st1 visited1 t.children
            (rr.1.insertTile id (.cont (.tabs { t with children := rr.2.2 })),
              rr.2.1, .keep)
          | .linear l =>
            let rr := gc_children (gc_tile_id retain_pane fuel) st1 visited1 l.children
            (rr.1.insertTile id (.cont (.linear { l with children := rr.2.2 })),
              rr.2.1, .keep)
          | .grid g =>
            let rr := gc_children_grid (gc_tile_id retain_pane fuel) st1 visited1 g.children
            (rr.1.insertTile id (.cont (.grid { g with children := rr.2.2 })),
              rr.2.1, .keep)

/-- `Tiles::gc_root`: walk from the root (ignoring the root action), then
delete every unvisited tile, also from the invisible set. Returns the
visited list (in first-visit order) alongside the final state. -/
def gc_root (retain_pane : Nat → Bool) (st : TilesState) (root : Option Nat) :
    TilesState × List Nat :=
  let r := match root with
    | some root_id =>
      let r := gc_tile_id retain_pane (st.tiles.length + 1) st [] root_id
      (r.1, r.2.1)
    | none => (st, [])
  ({ r.1 with
      invisible := r.1.invisible.filter (fun id => r.2.contains id),
      tiles := r.1.tiles.filter (fun e => r.2.contains e.1) },
    r.2)

/-- C1 counterexample: with a duplicate child reference `[2, 2]`, tile 2 is
visited by the walk yet deleted from the arena (the second occurrence is
removed and never reinserted), so the arena does not contain exactly the
visited tiles. -/
theorem gc_duplicate_visited_tile_dropped :
    2 ∈ (gc_root (fun _ => true)
        ⟨3, [(1, Tile.cont (.tabs ⟨[2, 2], none⟩)), (2, Tile.pane 0)], [], []⟩
        (some 1)).2 ∧
      Smap.lookup (gc_root (fun _ => true)
        ⟨3, [(1, Tile.cont (.tabs ⟨[2, 2], none⟩)), (2, Tile.pane 0)], [], []⟩
        (some 1)).1.tiles 2 = none := by
  decide

/-- The parent-to-child edges of the currently visited and present tiles. -/
def edgesOf (st : TilesState) (visited : List Nat) : List (Nat × Nat) :=
  (st.tiles.filter (fun e => visited.contains e.1)).flatMap
    (fun e => (tileChildren e.2).map (fun c => (e.1, c)))

/-- The invariant of the garbage-collection walk: the arena stays sorted,
the visited list has no repeats, every edge out of a visited tile points
forward in visit order, and no id is the target of two edges. -/
def GcInv (st : TilesState) (visited : List Nat) : Prop :=
  Smap.SortedK st.tiles ∧ visited.Nodup ∧
  (∀ e ∈ edgesOf st visited, e.2 ∈ visited ∧
    visited.indexOf e.1 < visited.indexOf e.2) ∧
  ((edgesOf st visited).map Prod.snd).Nodup

theorem mem_edgesOf {st : TilesState} {visited : List Nat} {e : Nat × Nat} :
    e ∈ edgesOf st visited ↔
      ∃ t, (e.1, t) ∈ st.tiles ∧ visited.contains e.1 ∧ e.2 ∈ tileChildren t := by
  unfold edgesOf
  rw [List.mem_flatMap]
  constructor
  · rintro ⟨q, hq, he⟩
    rw [List.mem_filter] at hq
    rw [List.mem_map] at he
    obtain ⟨c, hc, hce⟩ := he
    obtain ⟨a, b⟩ := q
    obtain ⟨x, y⟩ := e
    cases hce
    exact ⟨b, hq.1, hq.2, hc⟩
  · rintro ⟨t, ht, hv, hc⟩
    refine ⟨(e.1, t), List.mem_filter.mpr ⟨ht, hv⟩, ?_⟩
    rw [List.mem_map]
    exact ⟨e.2, hc, rfl⟩

theorem eraseS_sublist {α : Type} (m : Smap α) (k : Nat) :
    List.Sublist (Smap.eraseS m k) m := by
  induction m with
  | nil => simp [Smap.eraseS]
  | cons p t ih =>
    obtain ⟨a, b⟩ := p
    by_cases hk : k = a
    · simp only [Smap.eraseS, if_pos hk]
      exact List.sublist_cons_self _ _
    · simp only [Smap.eraseS, if_neg hk]
      exact List.Sublist.cons₂ _ ih

theorem sublist_flatMap {α β : Type} (f : α → List β) {l₁ l₂ : List α}
    (h : List.Sublist l₁ l₂) : List.Sublist (l₁.flatMap f) (l₂.flatMap f) := by
  induction h with
  | slnil => exact List.Sublist.refl _
  | cons a _ ih =>
    rw [List.flatMap_cons]
    exact List.Sublist.trans ih (List.sublist_append_right _ _)
  | cons₂ a _ ih =>
    rw [List.flatMap_cons, List.flatMap_cons]
    exact List.Sublist.append_left ih _

theorem edgesOf_sublist_of_tiles_sublist {st st2 : TilesState} {visited : List Nat}
    (h : List.Sublist st2.tiles st.tiles) :
    List.Sublist (edgesOf st2 visited) (edgesOf st visited) := by
  unfold edgesOf
  exact sublist_flatMap _ (List.Sublist.filter _ h)

theorem filter_contains_eraseS_unvisited (l : Smap Tile) (visited : List Nat) (id : Nat)
    (h : visited.contains id = false) :
    (Smap.eraseS l id).filter (fun e => visited.contains e.1) =
      l.filter (fun e => visited.contains e.1) := by
  induction l with
  | nil => rfl
  | cons p t ih =>
    obtain ⟨a, b⟩ := p
    by_cases hk : id = a
    · subst hk
      simp only [Smap.eraseS, if_pos rfl, List.filter_cons, h]
      rfl
    · simp only [Smap.eraseS, if_neg hk, List.filter_cons]
      rw [ih]

/-- Removing an unvisited tile leaves the visited edge list unchanged. -/
theorem edgesOf_removeTile_unvisited {st : TilesState} {visited : List Nat} {id : Nat}
    (h : visited.contains id = false) :
    edgesOf (st.removeTile id) visited = edgesOf st visited := by
  unfold edgesOf TilesState.removeTile
  dsimp only
  rw [filter_contains_eraseS_unvisited st.tiles visited id h]

theorem filter_contains_snoc_absent (l : Smap Tile) (visited : List Nat) (id : Nat)
    (h : Smap.lookup l id = none) :
    l.filter (fun e => (visited ++ [id]).contains e.1) =
      l.filter (fun e => visited.contains e.1) := by
  induction l with
  | nil => rfl
  | cons p t ih =>
    obtain ⟨a, b⟩ := p
    have hne : ¬ (id = a) := by
      intro hk
      rw [hk] at h
      simp [Smap.lookup] at h
    have hcont : ((visited ++ [id]).contains a) = (visited.contains a) := by
      simp only [List.contains_eq_any_beq, List.any_append, List.any_cons, List.any_nil]
      have : (a == id) = false := by
        simp
        omega
      rw [this]
      simp
    simp only [List.filter_cons, hcont]
    have ht : Smap.lookup t id = none := by
      simpa [Smap.lookup, hne] using h
    rw [ih ht]

/-- A visited list extension does not change the edges when the new id has
no present tile. -/
theorem edgesOf_snoc_absent {st : TilesState} {visited : List Nat} {id : Nat}
    (h : Smap.lookup st.tiles id = none) :
    edgesOf st (visited ++ [id]) = edgesOf st visited := by
  unfold edgesOf
  rw [filter_contains_snoc_absent st.tiles visited id h]

/-- Appending a freshly-visited id with no present tile preserves the
invariant. -/
theorem gcInv_snoc_fresh {st : TilesState} {visited : List Nat} {id : Nat}
    (hinv : GcInv st visited) (hfresh : id ∉ visited)
    (habsent : Smap.lookup st.tiles id = none) :
    GcInv st (visited ++ [id]) := by
  obtain ⟨hs, hnd, hedge, hne⟩ := hinv
  refine ⟨hs, ?_, ?_, ?_⟩
  · simp [List.nodup_append, hnd, hfresh]
  · intro e he
    rw [edgesOf_snoc_absent habsent] at he
    obtain ⟨h1, h2⟩ := hedge e he
    have he1 : e.1 ∈ visited := by
      rcases mem_edgesOf.mp he with ⟨t, _, hv, _⟩
      simpa using hv
    constructor
    · exact List.mem_append_left _ h1
    · rw [List.indexOf_append_of_mem he1, List.indexOf_append_of_mem h1]
      exact h2
  · rw [edgesOf_snoc_absent habsent]
    exact hne

theorem gcInv_removeTile {st : TilesState} {visited : List Nat} {id : Nat}
    (hinv : GcInv st visited) : GcInv (st.removeTile id) visited := by
  obtain ⟨hs, hnd, hedge, hne⟩ := hinv
  have hsub : (edgesOf (st.removeTile id) visited).Sublist (edgesOf st visited) :=
    edgesOf_sublist_of_tiles_sublist (eraseS_sublist _ _)
  refine ⟨Smap.sortedK_eraseS _ _ hs, hnd, ?_, ?_⟩
  · intro e he
    exact hedge e (hsub.mem he)
  · exact ((hsub.map Prod.snd).nodup hne)

theorem lookup_none_iff {α : Type} {m : Smap α} {k : Nat} :
    Smap.lookup m k = none ↔ ∀ b, (k, b) ∉ m := by
  induction m with
  | nil => simp [Smap.lookup]
  | cons p t ih =>
    obtain ⟨a, c⟩ := p
    by_cases hk : k = a
    · subst hk
      simp only [Smap.lookup, if_pos rfl]
      constructor
      · intro h
        exact Option.noConfusion h
      · intro h
        exact absurd (List.mem_cons_self _ _) (h c)
    · simp only [Smap.lookup, if_neg hk, ih]
      constructor
      · intro h b hmem
        rcases List.mem_cons.mp hmem with h1 | h2
        · exact hk (congrArg Prod.fst h1)
        · exact h b h2
      · intro h b hmem
        exact h b (List.mem_cons_of_mem _ hmem)

theorem lookup_none_of_sublist {α : Type} {m₁ m₂ : Smap α} {k : Nat}
    (hsub : List.Sublist m₁ m₂) (h : Smap.lookup m₂ k = none) :
    Smap.lookup m₁ k = none := by
  rw [lookup_none_iff] at h ⊢
  intro b hmem
  exact h b (hsub.mem hmem)

theorem insertS_append_decomp {α : Type} (m : Smap α) (k : Nat) (v : α)
    (habs : Smap.lookup m k = none) :
    ∃ l₁ l₂, m = l₁ ++ l₂ ∧ Smap.insertS m k v = l₁ ++ (k, v) :: l₂ := by
  induction m with
  | nil => exact ⟨[], [], rfl, rfl⟩
  | cons p t ih =>
    obtain ⟨a, b⟩ := p
    have hk : ¬ (k = a) := by
      intro h
      rw [h] at habs
      simp [Smap.lookup] at habs
    by_cases hlt : k < a
    · exact ⟨[], (a, b) :: t, rfl, by simp [Smap.insertS, hlt]⟩
    · have ht : Smap.lookup t k = none := by
        simpa [Smap.lookup, hk] using habs
      obtain ⟨l₁, l₂, he, hi⟩ := ih ht
      refine ⟨(a, b) :: l₁, l₂, by rw [List.cons_append, ← he], ?_⟩
      simp only [Smap.insertS, if_neg hlt, if_neg hk, hi, List.cons_append]

theorem edgesOf_insertTile_perm {st : TilesState} {v : List Nat} {id : Nat} {tile : Tile}
    (habs : Smap.lookup st.tiles id = none) (hid : id ∈ v) :
    List.Perm (edgesOf (st.insertTile id tile) v)
      (((tileChildren tile).map (fun c => (id, c))) ++ edgesOf st v) := by
  obtain ⟨l₁, l₂, he, hi⟩ := insertS_append_decomp st.tiles id tile habs
  unfold edgesOf TilesState.insertTile
  dsimp only
  rw [hi, he]
  rw [List.filter_append, List.filter_append, List.filter_cons]
  have hcont : (v.contains (id, tile).1) = true := by
    simpa using List.elem_eq_true_of_mem hid
  rw [if_pos hcont]
  rw [List.flatMap_append, List.flatMap_cons, List.flatMap_append]
  have h1 : List.Perm
      ((List.filter (fun e => v.contains e.1) l₁).flatMap
          (fun e => (tileChildren e.2).map (fun c => (e.1, c))) ++
        ((tileChildren tile).map (fun c => (id, c)) ++
          (List.filter (fun e => v.contains e.1) l₂).flatMap
            (fun e => (tileChildren e.2).map (fun c => (e.1, c)))))
      (((tileChildren tile).map (fun c => (id, c))) ++
        ((List.filter (fun e => v.contains e.1) l₁).flatMap
            (fun e => (tileChildren e.2).map (fun c => (e.1, c))) ++
          (List.filter (fun e => v.contains e.1) l₂).flatMap
            (fun e => (tileChildren e.2).map (fun c => (e.1, c))))) := by
    rw [← List.append_assoc, ← List.append_assoc]
    exact List.Perm.append_right _ (List.perm_append_comm)
  exact h1

theorem flatMap_filter_snoc_nochildren {v : List Nat} {id : Nat} (l : Smap Tile)
    (hid : ∀ e ∈ l, e.1 = id → tileChildren e.2 = [])
    (hnv : id ∉ v) :
    (l.filter (fun e => (v ++ [id]).contains e.1)).flatMap
        (fun e => (tileChildren e.2).map (fun c => (e.1, c))) =
      (l.filter (fun e => v.contains e.1)).flatMap
        (fun e => (tileChildren e.2).map (fun c => (e.1, c))) := by
  induction l with
  | nil => rfl
  | cons p t ih =>
    obtain ⟨a, b⟩ := p
    have iht := ih (fun e he h2 => hid e (List.mem_cons_of_mem _ he) h2)
    by_cases ha : a = id
    · subst ha
      have hch : tileChildren b = [] := hid (a, b) (List.mem_cons_self _ _) rfl
      have hc1 : ((v ++ [a]).contains a) = true :=
        List.elem_eq_true_of_mem (List.mem_append_right _ (List.mem_cons_self _ _))
      have hc2 : (v.contains a) = false := by
        rw [← Bool.not_eq_true]
        intro hc
        exact hnv (by simpa using hc)
      rw [List.filter_cons, List.filter_cons]
      rw [if_pos (show ((v ++ [a]).contains (a, b).1) = true from hc1)]
      rw [if_neg (show ¬ ((v.contains (a, b).1) = true) from by rw [hc2]; simp)]
      rw [List.flatMap_cons, hch]
      simpa using iht
    · have hc : ((v ++ [id]).contains a) = (v.contains a) := by
        simp only [List.contains_eq_any_beq, List.any_append, List.any_cons, List.any_nil]
        have : (a == id) = false := by
          simp only [beq_eq_false_iff_ne, ne_eq]
          exact ha
        rw [this]
        simp
      rw [List.filter_cons, List.filter_cons]
      rw [show ((v ++ [id]).contains (a, b).1) = (v.contains (a, b).1) from hc]
      by_cases hv : (v.contains (a, b).1) = true
      · rw [if_pos hv, if_pos hv]
        rw [List.flatMap_cons, List.flatMap_cons, iht]
      · rw [if_neg hv, if_neg hv]
        exact iht

/-- Appending a freshly-visited id whose tile (if present) has no children
preserves the invariant. -/
theorem gcInv_snoc_of_edges_eq {st : TilesState} {visited : List Nat} {id : Nat}
    (hinv : GcInv st visited) (hfresh : id ∉ visited)
    (hedges : edgesOf st (visited ++ [id]) = edgesOf st visited) :
    GcInv st (visited ++ [id]) := by
  obtain ⟨hs, hnd, hedge, hne⟩ := hinv
  refine ⟨hs, ?_, ?_, ?_⟩
  · simp [List.nodup_append, hnd, hfresh]
  · intro e he
    rw [hedges] at he
    obtain ⟨h1, h2⟩ := hedge e he
    have he1 : e.1 ∈ visited := by
      rcases mem_edgesOf.mp he with ⟨t, _, hv, _⟩
      simpa using hv
    constructor
    · exact List.mem_append_left _ h1
    · rw [List.indexOf_append_of_mem he1, List.indexOf_append_of_mem h1]
      exact h2
  · rw [hedges]
    exact hne

theorem mem_key_eq_lookup {α : Type} {m : Smap α} (hs : Smap.SortedK m) {k : Nat}
    {b : α} (hmem : (k, b) ∈ m) : Smap.lookup m k = some b := by
  induction m with
  | nil => simp at hmem
  | cons p t ih =>
    obtain ⟨a, c⟩ := p
    rcases List.mem_cons.mp hmem with h1 | h2
    · have ha : k = a := congrArg Prod.fst h1
      have hb : b = c := by
        have := congrArg Prod.snd h1
        simpa using this
      subst ha
      subst hb
      simp [Smap.lookup]
    · by_cases hk : k = a
      · subst hk
        have := Smap.sortedK_cons_head hs (k, b) h2
        simp at this
      · simp only [Smap.lookup, if_neg hk]
        exact ih (Smap.sortedK_cons_tail hs) h2

theorem edgesOf_snoc_pane {st : TilesState} {visited : List Nat} {id : Nat} {p : Nat}
    (hs : Smap.SortedK st.tiles)
    (h : Smap.lookup st.tiles id = some (Tile.pane p)) (hnv : id ∉ visited) :
    edgesOf st (visited ++ [id]) = edgesOf st visited := by
  unfold edgesOf
  apply flatMap_filter_snoc_nochildren
  · intro e he h2
    obtain ⟨a, b⟩ := e
    dsimp only at h2
    subst h2
    have hl := mem_key_eq_lookup hs he
    rw [h] at hl
    have : b = Tile.pane p := by
      have := Option.some.inj hl
      exact this.symm
    rw [this]
    rfl
  · exact hnv

theorem gcInv_insert_parent {st2 : TilesState} {v0 Δ : List Nat} {id : Nat} {tile : Tile}
    (hinv : GcInv st2 ((v0 ++ [id]) ++ Δ))
    (habs : Smap.lookup st2.tiles id = none)
    (hfresh : id ∉ v0)
    (hkept : ∀ c ∈ tileChildren tile, c ∉ (v0 ++ [id]) ∧ c ∈ (v0 ++ [id]) ++ Δ)
    (hnd : (tileChildren tile).Nodup)
    (hnotarget : ∀ c ∈ tileChildren tile, ∀ e ∈ edgesOf st2 ((v0 ++ [id]) ++ Δ),
      e.2 ≠ c) :
    GcInv (st2.insertTile id tile) ((v0 ++ [id]) ++ Δ) := by
  obtain ⟨hs, hndv, hedge, hne⟩ := hinv
  have hid_mem : id ∈ (v0 ++ [id]) ++ Δ :=
    List.mem_append_left _ (List.mem_append_right _ (List.mem_cons_self _ _))
  have hperm := @edgesOf_insertTile_perm st2 ((v0 ++ [id]) ++ Δ) id tile habs hid_mem
  have hid_idx : ((v0 ++ [id]) ++ Δ).indexOf id = v0.length := by
    rw [List.indexOf_append_of_mem
      (List.mem_append_right _ (List.mem_cons_self _ _))]
    rw [List.indexOf_append_of_not_mem hfresh]
    simp [List.indexOf_cons_self]
  refine ⟨?_, hndv, ?_, ?_⟩
  · exact Smap.sortedK_insertS _ _ _ hs
  · intro e he
    have := hperm.mem_iff.mp he
    rcases List.mem_append.mp this with hnew | hold
    · rw [List.mem_map] at hnew
      obtain ⟨c, hc, hce⟩ := hnew
      obtain ⟨hc1, hc2⟩ := hkept c hc
      subst hce
      refine ⟨hc2, ?_⟩
      dsimp only
      rw [hid_idx]
      rw [List.indexOf_append_of_not_mem hc1]
      have : v0.length < (v0 ++ [id]).length := by simp
      omega
    · exact hedge e hold
  · have hmap := hperm.map Prod.snd
    refine hmap.nodup_iff.mpr ?_
    rw [List.map_append]
    rw [List.nodup_append]
    refine ⟨?_, hne, ?_⟩
    · rw [List.map_map]
      have : (Prod.snd ∘ fun c => (id, c)) = (fun (c : Nat) => c) := rfl
      rw [this]
      simpa using hnd
    · intro x hx hx2
      rw [List.map_map] at hx
      have hxk : x ∈ tileChildren tile := by simpa using hx
      rw [List.mem_map] at hx2
      obtain ⟨e, he, hee⟩ := hx2
      exact hnotarget x hxk e he hee

/-- Postcondition of one `gc_tile_id` call. -/
def GcPost (st : TilesState) (v : List Nat) (id : Nat)
    (r : TilesState × List Nat × GcAction) : Prop :=
  GcInv r.1 r.2.1 ∧
  (∃ Δ, r.2.1 = v ++ Δ) ∧
  (r.2.2 = GcAction.keep → id ∉ v ∧ id ∈ r.2.1) ∧
  (∀ e ∈ edgesOf r.1 r.2.1, e ∈ edgesOf st v ∨ (e.2 ∉ v ∧ e.2 ≠ id)) ∧
  (∀ k, Smap.lookup st.tiles k = none → Smap.lookup r.1.tiles k = none) ∧
  r.1.invisible = st.invisible ∧ r.1.rects = st.rects ∧
  r.1.next_tile_id = st.next_tile_id

/-- Postcondition of a `Container::retain` walk over a child list. -/
def GcWalkPost (st : TilesState) (v : List Nat) (kept : List Nat)
    (st2 : TilesState) (v2 : List Nat) : Prop :=
  GcInv st2 v2 ∧
  (∃ Δ, v2 = v ++ Δ) ∧
  kept.Nodup ∧
  (∀ c ∈ kept, c ∉ v ∧ c ∈ v2) ∧
  (∀ c ∈ kept, ∀ e ∈ edgesOf st2 v2, e.2 ≠ c) ∧
  (∀ e ∈ edgesOf st2 v2, e ∈ edgesOf st v ∨ e.2 ∉ v) ∧
  (∀ k, Smap.lookup st.tiles k = none → Smap.lookup st2.tiles k = none) ∧
  st2.invisible = st.invisible ∧ st2.rects = st.rects ∧
  st2.next_tile_id = st.next_tile_id

theorem gc_children_post
    (f : TilesState → List Nat → Nat → TilesState × List Nat × GcAction)
    (hf : ∀ st v id, GcInv st v → GcPost st v id (f st v id)) :
    ∀ (l : List Nat) (st : TilesState) (v : List Nat), GcInv st v →
      GcWalkPost st v (gc_children f st v l).2.2 (gc_children f st v l).1
        (gc_children f st v l).2.1 := by
  intro l
  induction l with
  | nil =>
    intro st v hinv
    exact ⟨hinv, ⟨[], by simp [gc_children]⟩, List.nodup_nil, by simp [gc_children],
      by simp [gc_children], fun e he => Or.inl he, fun k h => h, rfl, rfl, rfl⟩
  | cons c rest ih =>
    intro st v hinv
    obtain ⟨hs0, hnd0, hedge0, hne0⟩ := hinv
    have hpost := hf st v c ⟨hs0, hnd0, hedge0, hne0⟩
    obtain ⟨hinv1, ⟨d1, hd1⟩, hkeep1, hNE1, hlook1, hinvis1, hrects1, hnext1⟩ := hpost
    have hwalk := ih (f st v c).1 (f st v c).2.1 hinv1
    obtain ⟨hinv2, ⟨d2, hd2⟩, hnd2, hfresh2, hnotgt2, hNE2, hlook2, hinvis2, hrects2,
      hnext2⟩ := hwalk
    have hv2 : (gc_children f (f st v c).1 (f st v c).2.1 rest).2.1 = v ++ (d1 ++ d2) := by
      rw [hd2, hd1, List.append_assoc]
    refine ⟨hinv2, ⟨d1 ++ d2, hv2⟩, ?_, ?_, ?_, ?_, ?_, ?_, ?_, ?_⟩
    · show (if (f st v c).2.2 = GcAction.keep
          then c :: (gc_children f (f st v c).1 (f st v c).2.1 rest).2.2
          else (gc_children f (f st v c).1 (f st v c).2.1 rest).2.2).Nodup
      by_cases hk : (f st v c).2.2 = GcAction.keep
      · rw [if_pos hk]
        refine List.Nodup.cons ?_ hnd2
        intro hc
        exact (hfresh2 c hc).1 ((hkeep1 hk).2)
      · rw [if_neg hk]
        exact hnd2
    · show ∀ x ∈ (if (f st v c).2.2 = GcAction.keep
          then c :: (gc_children f (f st v c).1 (f st v c).2.1 rest).2.2
          else (gc_children f (f st v c).1 (f st v c).2.1 rest).2.2),
        x ∉ v ∧ x ∈ (gc_children f (f st v c).1 (f st v c).2.1 rest).2.1
      intro x hx
      by_cases hk : (f st v c).2.2 = GcAction.keep
      · rw [if_pos hk] at hx
        rcases List.mem_cons.mp hx with h1 | h2
        · subst h1
          refine ⟨(hkeep1 hk).1, ?_⟩
          rw [hd2]
          exact List.mem_append_left _ ((hkeep1 hk).2)
        · obtain ⟨ha, hb⟩ := hfresh2 x h2
          refine ⟨?_, hb⟩
          intro hv
          rw [hd1] at ha
          exact ha (List.mem_append_left _ hv)
      · rw [if_neg hk] at hx
        obtain ⟨ha, hb⟩ := hfresh2 x hx
        refine ⟨?_, hb⟩
        intro hv
        rw [hd1] at ha
        exact ha (List.mem_append_left _ hv)
    · show ∀ x ∈ (if (f st v c).2.2 = GcAction.keep
          then c :: (gc_children f (f st v c).1 (f st v c).2.1 rest).2.2
          else (gc_children f (f st v c).1 (f st v c).2.1 rest).2.2),
        ∀ e ∈ edgesOf (gc_children f (f st v c).1 (f st v c).2.1 rest).1
          (gc_children f (f st v c).1 (f st v c).2.1 rest).2.1, e.2 ≠ x
      intro x hx e he
      by_cases hk : (f st v c).2.2 = GcAction.keep
      · rw [if_pos hk] at hx
        rcases List.mem_cons.mp hx with h1 | h2
        · subst h1
          rcases hNE2 e he with hA | hB
          · rcases hNE1 e hA with hC | hD
            · intro hee
              have := (hedge0 e hC).1
              rw [hee] at this
              exact (hkeep1 hk).1 this
            · exact hD.2
          · intro hee
            rw [hee] at hB
            exact hB ((hkeep1 hk).2)
        · exact hnotgt2 x h2 e he
      · rw [if_neg hk] at hx
        exact hnotgt2 x hx e he
    · intro e he
      rcases hNE2 e he with hA | hB
      · rcases hNE1 e hA with hC | hD
        · exact Or.inl hC
        · exact Or.inr hD.1
      · refine Or.inr ?_
        intro hv
        rw [hd1] at hB
        exact hB (List.mem_append_left _ hv)
    · intro k hnone
      exact hlook2 k (hlook1 k hnone)
    · exact hinvis2.trans hinvis1
    · exact hrects2.trans hrects1
    · exact hnext2.trans hnext1

theorem gc_children_grid_post
    (f : TilesState → List Nat → Nat → TilesState × List Nat × GcAction)
    (hf : ∀ st v id, GcInv st v → GcPost st v id (f st v id)) :
    ∀ (l : List (Option Nat)) (st : TilesState) (v : List Nat), GcInv st v →
      GcWalkPost st v ((gc_children_grid f st v l).2.2.filterMap id)
        (gc_children_grid f st v l).1 (gc_children_grid f st v l).2.1 := by
  intro l
  induction l with
  | nil =>
    intro st v hinv
    exact ⟨hinv, ⟨[], by simp [gc_children_grid]⟩, by simp [gc_children_grid],
      by simp [gc_children_grid], by simp [gc_children_grid],
      fun e he => Or.inl he, fun k h => h, rfl, rfl, rfl⟩
  | cons slot rest ih =>
    intro st v hinv
    cases slot with
    | none =>
      rw [show gc_children_grid f st v (none :: rest) =
        ((gc_children_grid f st v rest).1, (gc_children_grid f st v rest).2.1,
          none :: (gc_children_grid f st v rest).2.2) from rfl]
      dsimp only
      rw [show (List.filterMap id (none :: (gc_children_grid f st v rest).2.2)) =
        (List.filterMap id (gc_children_grid f st v rest).2.2) from rfl]
      exact ih st v hinv
    | some c =>
      rw [show gc_children_grid f st v (some c :: rest) =
        ((gc_children_grid f (f st v c).1 (f st v c).2.1 rest).1,
         (gc_children_grid f (f st v c).1 (f st v c).2.1 rest).2.1,
         (if (f st v c).2.2 = GcAction.keep then some c else none) ::
           (gc_children_grid f (f st v c).1 (f st v c).2.1 rest).2.2) from rfl]
      dsimp only
      obtain ⟨hs0, hnd0, hedge0, hne0⟩ := hinv
      have hpost := hf st v c ⟨hs0, hnd0, hedge0, hne0⟩
      obtain ⟨hinv1, ⟨d1, hd1⟩, hkeep1, hNE1, hlook1, hinvis1, hrects1, hnext1⟩ := hpost
      have hwalk := ih (f st v c).1 (f st v c).2.1 hinv1
      obtain ⟨hinv2, ⟨d2, hd2⟩, hnd2, hfresh2, hnotgt2, hNE2, hlook2, hinvis2, hrects2,
        hnext2⟩ := hwalk
      have hv2 : (gc_children_grid f (f st v c).1 (f st v c).2.1 rest).2.1 =
          v ++ (d1 ++ d2) := by
        rw [hd2, hd1, List.append_assoc]
      have hkept_eq : (List.filterMap id
          ((if (f st v c).2.2 = GcAction.keep then some c else none) ::
            (gc_children_grid f (f st v c).1 (f st v c).2.1 rest).2.2)) =
          (if (f st v c).2.2 = GcAction.keep
            then c :: (List.filterMap id
              (gc_children_grid f (f st v c).1 (f st v c).2.1 rest).2.2)
            else (List.filterMap id
              (gc_children_grid f (f st v c).1 (f st v c).2.1 rest).2.2)) := by
        by_cases hk : (f st v c).2.2 = GcAction.keep
        · rw [if_pos hk, if_pos hk]
          rfl
        · rw [if_neg hk, if_neg hk]
          rfl
      rw [hkept_eq]
      refine ⟨hinv2, ⟨d1 ++ d2, hv2⟩, ?_, ?_, ?_, ?_, ?_, ?_, ?_, ?_⟩
      · by_cases hk : (f st v c).2.2 = GcAction.keep
        · rw [if_pos hk]
          refine List.Nodup.cons ?_ hnd2
          intro hc
          exact (hfresh2 c hc).1 ((hkeep1 hk).2)
        · rw [if_neg hk]
          exact hnd2
      · intro x hx
        by_cases hk : (f st v c).2.2 = GcAction.keep
        · rw [if_pos hk] at hx
          rcases List.mem_cons.mp hx with h1 | h2
          · subst h1
            refine ⟨(hkeep1 hk).1, ?_⟩
            rw [hd2]
            exact List.mem_append_left _ ((hkeep1 hk).2)
          · obtain ⟨ha, hb⟩ := hfresh2 x h2
            refine ⟨?_, hb⟩
            intro hv
            rw [hd1] at ha
            exact ha (List.mem_append_left _ hv)
        · rw [if_neg hk] at hx
          obtain ⟨ha, hb⟩ := hfresh2 x hx
          refine ⟨?_, hb⟩
          intro hv
          rw [hd1] at ha
          exact ha (List.mem_append_left _ hv)
      · intro x hx e he
        by_cases hk : (f st v c).2.2 = GcAction.keep
        · rw [if_pos hk] at hx
          rcases List.mem_cons.mp hx with h1 | h2
          · subst h1
            rcases hNE2 e he with hA | hB
            · rcases hNE1 e hA with hC | hD
              · intro hee
                have := (hedge0 e hC).1
                rw [hee] at this
                exact (hkeep1 hk).1 this
              · exact hD.2
            · intro hee
              rw [hee] at hB
              exact hB ((hkeep1 hk).2)
          · exact hnotgt2 x h2 e he
        · rw [if_neg hk] at hx
          exact hnotgt2 x hx e he
      · intro e he
        rcases hNE2 e he with hA | hB
        · rcases hNE1 e hA with hC | hD
          · exact Or.inl hC
          · exact Or.inr hD.1
        · refine Or.inr ?_
          intro hv
          rw [hd1] at hB
          exact hB (List.mem_append_left _ hv)
      · intro k hnone
        exact hlook2 k (hlook1 k hnone)
      · exact hinvis2.trans hinvis1
      · exact hrects2.trans hrects1
      · exact hnext2.trans hnext1

theorem edgesOf_nil (st : TilesState) : edgesOf st [] = [] := by
  unfold edgesOf
  have h : st.tiles.filter (fun e => List.contains [] e.1) = [] := by
    induction st.tiles with
    | nil => rfl
    | cons p t ih => simpa [List.filter_cons] using ih
  rw [h]
  rfl

/-- Common reinsertion step shared by the three container branches of
`gc_tile_id`: reinserting the parent with the kept children after the walk
satisfies the call postcondition. -/
theorem gc_cont_branch {st : TilesState} {v : List Nat} {id : Nat} {tile : Tile}
    (hinv : GcInv st v) (hl : Smap.lookup st.tiles id = some tile) (hnv : id ∉ v)
    {st2 : TilesState} {v2 : List Nat} {kept : List Nat} {newtile : Tile}
    (hwalk : GcWalkPost (st.removeTile id) (v ++ [id]) kept st2 v2)
    (hch : tileChildren newtile = kept) :
    GcPost st v id (st2.insertTile id newtile, v2, GcAction.keep) := by
  have hs : Smap.SortedK st.tiles := hinv.1
  have habsent1 : Smap.lookup (st.removeTile id).tiles id = none :=
    Smap.lookup_eraseS_self st.tiles id hs
  obtain ⟨hinv2, ⟨d, hd⟩, hndk, hfreshk, hnotgt, hNE, hlook, hinvis, hrects, hnext⟩ :=
    hwalk
  have habsent2 : Smap.lookup st2.tiles id = none := hlook id habsent1
  have hid2 : id ∈ v2 := by
    rw [hd]
    exact List.mem_append_left _ (List.mem_append_right _ (List.mem_cons_self _ _))
  have hsub1 : List.Sublist (st.removeTile id).tiles st.tiles := eraseS_sublist _ _
  refine ⟨?_, ⟨[id] ++ d, by rw [hd, List.append_assoc]⟩, fun _ => ⟨hnv, hid2⟩,
    ?_, ?_, ?_, ?_, ?_⟩
  · rw [hd] at hinv2 hfreshk hnotgt ⊢
    refine gcInv_insert_parent hinv2 habsent2 hnv ?_ (hch ▸ hndk) ?_
    · intro c hc
      rw [hch] at hc
      exact hfreshk c hc
    · intro c hc e he
      rw [hch] at hc
      exact hnotgt c hc e he
  · intro e he
    have hperm := @edgesOf_insertTile_perm st2 v2 id newtile habsent2 hid2
    have hmem := hperm.mem_iff.mp he
    rcases List.mem_append.mp hmem with hnew | hold
    · rw [List.mem_map] at hnew
      obtain ⟨c, hc, hce⟩ := hnew
      rw [hch] at hc
      obtain ⟨hc1, _⟩ := hfreshk c hc
      subst hce
      refine Or.inr ⟨fun hv => hc1 (List.mem_append_left _ hv), ?_⟩
      intro hee
      exact hc1 (by
        show c ∈ v ++ [id]
        rw [show c = id from hee]
        exact List.mem_append_right _ (List.mem_cons_self _ _))
    · rcases hNE e hold with hA | hB
      · rw [edgesOf_snoc_absent habsent1] at hA
        exact Or.inl ((edgesOf_sublist_of_tiles_sublist hsub1).mem hA)
      · exact Or.inr ⟨fun hv => hB (List.mem_append_left _ hv),
          fun hee => hB (by
            rw [hee]
            exact List.mem_append_right _ (List.mem_cons_self _ _))⟩
  · intro k hnone
    have hkne : k ≠ id := by
      intro h
      rw [h, hl] at hnone
      exact Option.noConfusion hnone
    have h1 : Smap.lookup (st.removeTile id).tiles k = none :=
      lookup_none_of_sublist hsub1 hnone
    have h2 : Smap.lookup st2.tiles k = none := hlook k h1
    show Smap.lookup (Smap.insertS st2.tiles id newtile) k = none
    rw [Smap.lookup_insertS_ne st2.tiles id k newtile hkne]
    exact h2
  · exact hinvis
  · exact hrects
  · exact hnext

/-- The `gc_tile_id` postcondition holds at every fuel. -/
theorem gc_tile_id_post (retain_pane : Nat → Bool) :
    ∀ (fuel : Nat) (st : TilesState) (v : List Nat) (id : Nat), GcInv st v →
      GcPost st v id (gc_tile_id retain_pane fuel st v id) := by
  intro fuel
  induction fuel with
  | zero =>
    intro st v id hinv
    exact ⟨hinv, ⟨[], by simp [gc_tile_id]⟩, fun h => GcAction.noConfusion h,
      fun e he => Or.inl he, fun k h => h, rfl, rfl, rfl⟩
  | succ fuel ih =>
    intro st v id hinv
    cases hlz : st.getTile id with
    | none =>
      have heq : gc_tile_id retain_pane (fuel + 1) st v id = (st, v, GcAction.remove) := by
        simp [gc_tile_id, hlz]
      rw [heq]
      exact ⟨hinv, ⟨[], by simp⟩, fun h => GcAction.noConfusion h,
        fun e he => Or.inl he, fun k h => h, rfl, rfl, rfl⟩
    | some tile =>
      by_cases hvc : v.contains id = true
      · have hmem : id ∈ v := by simpa using hvc
        have heq : gc_tile_id retain_pane (fuel + 1) st v id =
            (st.removeTile id, v, GcAction.remove) := by
          simp [gc_tile_id, hlz, hmem]
        rw [heq]
        refine ⟨gcInv_removeTile hinv, ⟨[], by simp⟩, fun h => GcAction.noConfusion h,
          ?_, ?_, rfl, rfl, rfl⟩
        · intro e he
          exact Or.inl ((edgesOf_sublist_of_tiles_sublist (eraseS_sublist _ _)).mem he)
        · intro k h
          exact lookup_none_of_sublist (eraseS_sublist _ _) h
      · have hnv : id ∉ v := by
          intro h
          exact hvc (by simpa using List.elem_eq_true_of_mem h)
        have hnv' : v.contains id = false := by
          rw [← Bool.not_eq_true]
          exact hvc
        have habsent1 : Smap.lookup (st.removeTile id).tiles id = none :=
          Smap.lookup_eraseS_self st.tiles id hinv.1
        have hinv1 : GcInv (st.removeTile id) (v ++ [id]) :=
          gcInv_snoc_fresh (gcInv_removeTile hinv) hnv habsent1
        cases tile with
        | pane p =>
          by_cases hrp : retain_pane p = true
          · have heq : gc_tile_id retain_pane (fuel + 1) st v id =
                ((st.removeTile id).insertTile id (Tile.pane p), v ++ [id],
                  GcAction.keep) := by
              simp [gc_tile_id, hlz, hnv, hrp]
            have hst : (st.removeTile id).insertTile id (Tile.pane p) = st := by
              have ht : Smap.insertS (Smap.eraseS st.tiles id) id (Tile.pane p) =
                  st.tiles := Smap.insertS_eraseS_self hinv.1 hlz
              show TilesState.mk st.next_tile_id
                (Smap.insertS (Smap.eraseS st.tiles id) id (Tile.pane p))
                st.invisible st.rects = st
              rw [ht]
            rw [heq, hst]
            have hedges : edgesOf st (v ++ [id]) = edgesOf st v :=
              edgesOf_snoc_pane hinv.1 hlz hnv
            refine ⟨gcInv_snoc_of_edges_eq hinv hnv hedges, ⟨[id], rfl⟩,
              fun _ => ⟨hnv, List.mem_append_right _ (List.mem_cons_self _ _)⟩,
              ?_, fun k h => h, rfl, rfl, rfl⟩
            intro e he
            rw [hedges] at he
            exact Or.inl he
          · have heq : gc_tile_id retain_pane (fuel + 1) st v id =
                (st.removeTile id, v ++ [id], GcAction.remove) := by
              simp [gc_tile_id, hlz, hnv, hrp]
            rw [heq]
            refine ⟨hinv1, ⟨[id], rfl⟩, fun h => GcAction.noConfusion h, ?_, ?_,
              rfl, rfl, rfl⟩
            · intro e he
              rw [edgesOf_snoc_absent habsent1] at he
              exact Or.inl
                ((edgesOf_sublist_of_tiles_sublist (eraseS_sublist _ _)).mem he)
            · intro k h
              exact lookup_none_of_sublist (eraseS_sublist _ _) h
        | cont c =>
          cases c with
          | tabs t =>
            have hwalk := gc_children_post (gc_tile_id retain_pane fuel) ih t.children
              (st.removeTile id) (v ++ [id]) hinv1
            have heq : gc_tile_id retain_pane (fuel + 1) st v id =
                ((gc_children (gc_tile_id retain_pane fuel) (st.removeTile id)
                    (v ++ [id]) t.children).1.insertTile id
                  (Tile.cont (.tabs { t with children :=
                    (gc_children (gc_tile_id retain_pane fuel) (st.removeTile id)
                      (v ++ [id]) t.children).2.2 })),
                 (gc_children (gc_tile_id retain_pane fuel) (st.removeTile id)
                    (v ++ [id]) t.children).2.1, GcAction.keep) := by
              simp [gc_tile_id, hlz, hnv]
            rw [heq]
            exact gc_cont_branch hinv hlz hnv hwalk rfl
          | linear l =>
            have hwalk := gc_children_post (gc_tile_id retain_pane fuel) ih l.children
              (st.removeTile id) (v ++ [id]) hinv1
            have heq : gc_tile_id retain_pane (fuel + 1) st v id =
                ((gc_children (gc_tile_id retain_pane fuel) (st.removeTile id)
                    (v ++ [id]) l.children).1.insertTile id
                  (Tile.cont (.linear { l with children :=
                    (gc_children (gc_tile_id retain_pane fuel) (st.removeTile id)
                      (v ++ [id]) l.children).2.2 })),
                 (gc_children (gc_tile_id retain_pane fuel) (st.removeTile id)
                    (v ++ [id]) l.children).2.1, GcAction.keep) := by
              simp [gc_tile_id, hlz, hnv]
            rw [heq]
            exact gc_cont_branch hinv hlz hnv hwalk rfl
          | grid g =>
            have hwalk := gc_children_grid_post (gc_tile_id retain_pane fuel) ih
              g.children (st.removeTile id) (v ++ [id]) hinv1
            have heq : gc_tile_id retain_pane (fuel + 1) st v id =
                ((gc_children_grid (gc_tile_id retain_pane fuel) (st.removeTile id)
                    (v ++ [id]) g.children).1.insertTile id
                  (Tile.cont (.grid { g with children :=
                    (gc_children_grid (gc_tile_id retain_pane fuel) (st.removeTile id)
                      (v ++ [id]) g.children).2.2 })),
                 (gc_children_grid (gc_tile_id retain_pane fuel) (st.removeTile id)
                    (v ++ [id]) g.children).2.1, GcAction.keep) := by
              simp [gc_tile_id, hlz, hnv]
            rw [heq]
            exact gc_cont_branch hinv hlz hnv hwalk rfl

/-- C1 (amended): for every sorted arena and every root, after `gc_root`
every tile id still present in the arena was visited by the walk (every
unvisited id is deleted, also from the invisible set — but not conversely:
a visited id may be deleted too, see the counterexample), the visited list
has no repeats, every child reference of a surviving tile points to a
visited id strictly later in visit order (so the surviving tree has no
cycles), and no id occurs twice across the child lists of the surviving
tiles (no duplicate parentage). -/
theorem gc_root_collects (retain_pane : Nat → Bool) (st : TilesState)
    (root : Option Nat) (hs : Smap.SortedK st.tiles) :
    (∀ e ∈ (gc_root retain_pane st root).1.tiles,
      e.1 ∈ (gc_root retain_pane st root).2) ∧
    (gc_root retain_pane st root).1.invisible =
      st.invisible.filter (fun i => (gc_root retain_pane st root).2.contains i) ∧
    (gc_root retain_pane st root).2.Nodup ∧
    (∀ e ∈ (gc_root retain_pane st root).1.tiles, ∀ c ∈ tileChildren e.2,
      c ∈ (gc_root retain_pane st root).2 ∧
      (gc_root retain_pane st root).2.indexOf e.1 <
        (gc_root retain_pane st root).2.indexOf c) ∧
    ((gc_root retain_pane st root).1.tiles.flatMap
      (fun e => tileChildren e.2)).Nodup := by
  cases root with
  | none =>
    have ht : (gc_root retain_pane st none).1.tiles =
        st.tiles.filter (fun e => List.contains [] e.1) := rfl
    refine ⟨?_, rfl, List.nodup_nil, ?_, ?_⟩
    · intro e he
      rw [ht] at he
      have := (List.mem_filter.mp he).2
      simp at this
    · intro e he
      rw [ht] at he
      have := (List.mem_filter.mp he).2
      simp at this
    · rw [ht]
      have hnil : st.tiles.filter (fun e => List.contains [] e.1) = [] := by
        induction st.tiles with
        | nil => rfl
        | cons p t ih => simpa [List.filter_cons] using ih
      rw [hnil]
      exact List.nodup_nil
  | some root_id =>
    have hinv0 : GcInv st [] := by
      refine ⟨hs, List.nodup_nil, ?_, ?_⟩
      · rw [edgesOf_nil]
        intro e he
        cases he
      · rw [edgesOf_nil]
        exact List.nodup_nil
    have hpost := gc_tile_id_post retain_pane (st.tiles.length + 1) st [] root_id hinv0
    obtain ⟨⟨hsW, hndW, hedgeW, hneW⟩, _, _, _, _, hinvisW, _, _⟩ := hpost
    have hvis : (gc_root retain_pane st (some root_id)).2 =
        (gc_tile_id retain_pane (st.tiles.length + 1) st [] root_id).2.1 := rfl
    have ht : (gc_root retain_pane st (some root_id)).1.tiles =
        (gc_tile_id retain_pane (st.tiles.length + 1) st [] root_id).1.tiles.filter
          (fun e =>
            (gc_tile_id retain_pane (st.tiles.length + 1) st [] root_id).2.1.contains
              e.1) := rfl
    have hi : (gc_root retain_pane st (some root_id)).1.invisible =
        (gc_tile_id retain_pane (st.tiles.length + 1) st [] root_id).1.invisible.filter
          (fun i =>
            (gc_tile_id retain_pane (st.tiles.length + 1) st [] root_id).2.1.contains
              i) := rfl
    refine ⟨?_, ?_, ?_, ?_, ?_⟩
    · intro e he
      rw [ht] at he
      rw [hvis]
      simpa using (List.mem_filter.mp he).2
    · rw [hi, hinvisW, hvis]
    · rw [hvis]
      exact hndW
    · intro e he c hc
      rw [ht] at he
      have hmemW := (List.mem_filter.mp he).1
      have hcont := (List.mem_filter.mp he).2
      have hedge := hedgeW (e.1, c) (mem_edgesOf.mpr ⟨e.2, hmemW, hcont, hc⟩)
      rw [hvis]
      exact hedge
    · rw [ht]
      have hmapsnd : (edgesOf
          (gc_tile_id retain_pane (st.tiles.length + 1) st [] root_id).1
          (gc_tile_id retain_pane (st.tiles.length + 1) st [] root_id).2.1).map
            Prod.snd =
          ((gc_tile_id retain_pane (st.tiles.length + 1) st [] root_id).1.tiles.filter
            (fun e =>
              (gc_tile_id retain_pane
                (st.tiles.length + 1) st [] root_id).2.1.contains e.1)).flatMap
            (fun e => tileChildren e.2) := by
        unfold edgesOf
        rw [List.map_flatMap]
        congr 1
        funext e
        simp
      rw [← hmapsnd]
      exact hneW

/-- Witness for C1: the amended postcondition evaluated on a two-tile arena. -/
theorem gc_root_collects_witness :
    Smap.SortedK (TilesState.mk 3 [(1, Tile.cont (.tabs ⟨[2], none⟩)),
        (2, Tile.pane 0)] [7] []).tiles ∧
    ((∀ e ∈ (gc_root (fun _ => true) (TilesState.mk 3
        [(1, Tile.cont (.tabs ⟨[2], none⟩)), (2, Tile.pane 0)] [7] [])
        (some 1)).1.tiles,
      e.1 ∈ (gc_root (fun _ => true) (TilesState.mk 3
        [(1, Tile.cont (.tabs ⟨[2], none⟩)), (2, Tile.pane 0)] [7] [])
        (some 1)).2) ∧
    (gc_root (fun _ => true) (TilesState.mk 3
        [(1, Tile.cont (.tabs ⟨[2], none⟩)), (2, Tile.pane 0)] [7] [])
        (some 1)).1.invisible =
      [7].filter (fun i => (gc_root (fun _ => true) (TilesState.mk 3
        [(1, Tile.cont (.tabs ⟨[2], none⟩)), (2, Tile.pane 0)] [7] [])
        (some 1)).2.contains i) ∧
    (gc_root (fun _ => true) (TilesState.mk 3
        [(1, Tile.cont (.tabs ⟨[2], none⟩)), (2, Tile.pane 0)] [7] [])
        (some 1)).2.Nodup ∧
    (∀ e ∈ (gc_root (fun _ => true) (TilesState.mk 3
        [(1, Tile.cont (.tabs ⟨[2], none⟩)), (2, Tile.pane 0)] [7] [])
        (some 1)).1.tiles, ∀ c ∈ tileChildren e.2,
      c ∈ (gc_root (fun _ => true) (TilesState.mk 3
        [(1, Tile.cont (.tabs ⟨[2], none⟩)), (2, Tile.pane 0)] [7] [])
        (some 1)).2 ∧
      (gc_root (fun _ => true) (TilesState.mk 3
        [(1, Tile.cont (.tabs ⟨[2], none⟩)), (2, Tile.pane 0)] [7] [])
        (some 1)).2.indexOf e.1 <
        (gc_root (fun _ => true) (TilesState.mk 3
          [(1, Tile.cont (.tabs ⟨[2], none⟩)), (2, Tile.pane 0)] [7] [])
          (some 1)).2.indexOf c) ∧
    ((gc_root (fun _ => true) (TilesState.mk 3
        [(1, Tile.cont (.tabs ⟨[2], none⟩)), (2, Tile.pane 0)] [7] [])
        (some 1)).1.tiles.flatMap (fun e => tileChildren e.2)).Nodup) :=
  ⟨by unfold Smap.SortedK; decide, gc_root_collects (fun _ => true) (TilesState.mk 3
    [(1, Tile.cont (.tabs ⟨[2], none⟩)), (2, Tile.pane 0)] [7] []) (some 1)
    (by unfold Smap.SortedK; decide)⟩

/-! ## Simplification (`Tiles::simplify` / `Tree::simplify`, `src/tiles.rs`,
`src/tree.rs`) -/

/-- `Tabs::simplify_children` (`src/container/tabs.rs`): `retain_mut` over the
children, threading the arena state; a `Replace` also redirects the active
tab when it pointed at the replaced child. -/
def simp_tabs_walk (f : TilesState → Nat → TilesState × SimplifyAction) :
    TilesState → List Nat → Option Nat → TilesState × List Nat × Option Nat
  | st, [], active => (st, [], active)
  | st, c :: rest, active =>
    let r := f st c
    match r.2 with
    | .remove => simp_tabs_walk f r.1 rest active
    | .keep =>
      let rr := simp_tabs_walk f r.1 rest active
      (rr.1, c :: rr.2.1, rr.2.2)
    | .replace new =>
      let rr := simp_tabs_walk f r.1 rest (if active = some c then some new else active)
      (rr.1, new :: rr.2.1, rr.2.2)

/-- `Linear::simplify_children` (`src/container/linear.rs`): a `Replace`
transfers the share entry via `Shares::replace_with`. -/
def simp_linear_walk (f : TilesState → Nat → TilesState × SimplifyAction) :
    TilesState → List Nat → Shares → TilesState × List Nat × Shares
  | st, [], sh => (st, [], sh)
  | st, c :: rest, sh =>
    let r := f st c
    match r.2 with
    | .remove => simp_linear_walk f r.1 rest sh
    | .keep =>
      let rr := simp_linear_walk f r.1 rest sh
      (rr.1, c :: rr.2.1, rr.2.2)
    | .replace new =>
      let rr := simp_linear_walk f r.1 rest (Shares.replace_with sh c new)
      (rr.1, new :: rr.2.1, rr.2.2)

/-- `Grid::simplify_children` (`src/container/grid.rs`): removed children
leave a hole, replacements fill the slot. -/
def simp_grid_walk (f : TilesState → Nat → TilesState × SimplifyAction) :
    TilesState → List (Option Nat) → TilesState × List (Option Nat)
  | st, [] => (st, [])
  | st, none :: rest =>
    let rr := simp_grid_walk f st rest
    (rr.1, none :: rr.2)
  | st, some c :: rest =>
    let r := f st c
    let slot := match r.2 with
      | .remove => none
      | .keep => some c
      | .replace new => some new
    let rr := simp_grid_walk f r.1 rest
    (rr.1, slot :: rr.2)

/-- The `join_nested_linear_containers` absorption loop of `Tiles::simplify`:
a child that is a `Linear` of the same direction is inlined (its grandchildren
take its place, with rescaled shares) and its tile deleted. -/
def join_walk : TilesState → LinearDir → List Nat → Shares →
    TilesState × List Nat × Shares
  | st, _, [], sh => (st, [], sh)
  | st, dir, child :: rest, sh =>
    match st.getTile child with
    | some (Tile.cont (Container.linear cl)) =>
      if cl.dir = dir then
        let css := childShareSum cl.shares cl.children
        let normalizer := Shares.get sh child / css
        let sh2 := cl.children.foldl
          (fun acc g => Shares.set_share acc g (Shares.get cl.shares g * normalizer)) sh
        let rr := join_walk (st.removeTile child) dir rest sh2
        (rr.1, cl.children ++ rr.2.1, rr.2.2)
      else
        let rr := join_walk st dir rest sh
        (rr.1, child :: rr.2.1, rr.2.2)
    | _ =>
      let rr := join_walk st dir rest sh
      (rr.1, child :: rr.2.1, rr.2.2)

/-- `Tiles::simplify` (fuel-indexed: the Rust recursion removes the tile
before recursing, so the depth is bounded by the arena size). A missing tile
yields `Remove`; `Remove` and `Replace` return without reinserting the tile. -/
def tiles_simplify (opts : SimplificationOptions) :
    Nat → TilesState → Nat → Option ContainerKind → TilesState × SimplifyAction
  | 0, st, _, _ => (st, .remove)
  | fuel + 1, st, it, parent_kind =>
    match st.getTile it with
    | none => (st, .remove)
    | some tile =>
      let st1 := st.removeTile it
      match tile with
      | .pane p => (st1.insertTile it (.pane p), .keep)
      | .cont c =>
        match c with
        | .tabs t =>
          let w := simp_tabs_walk
            (fun s ch => tiles_simplify opts fuel s ch (some (Container.tabs t).kind))
            st1 t.children t.active
          let t2 : Tabs := ⟨w.2.1, w.2.2⟩
          if opts.prune_empty_tabs = true ∧ (Container.tabs t2).is_empty = true then
            (w.1, .remove)
          else if opts.prune_single_child_tabs = true then
            match (Container.tabs t2).only_child with
            | some oc =>
              let child_is_pane : Bool := match w.1.getTile oc with
                | some (Tile.pane _) => true
                | _ => false
              if opts.all_panes_must_have_tabs = true ∧ child_is_pane = true ∧
                  parent_kind ≠ some ContainerKind.tabs then
                (w.1.insertTile it (.cont (.tabs t2)), .keep)
              else (w.1, .replace oc)
            | none => (w.1.insertTile it (.cont (.tabs t2)), .keep)
          else (w.1.insertTile it (.cont (.tabs t2)), .keep)
        | .linear l =>
          let w := simp_linear_walk
            (fun s ch => tiles_simplify opts fuel s ch (some (Container.linear l).kind))
            st1 l.children l.shares
          let j := if opts.join_nested_linear_containers = true then
              join_walk w.1 l.dir w.2.1 w.2.2
            else (w.1, w.2.1, w.2.2)
          let l2 : Linear := ⟨j.2.1, l.dir, j.2.2⟩
          if opts.prune_empty_containers = true ∧
              (Container.linear l2).is_empty = true then
            (j.1, .remove)
          else if opts.prune_single_child_containers = true then
            match (Container.linear l2).only_child with
            | some oc => (j.1, .replace oc)
            | none => (j.1.insertTile it (.cont (.linear l2)), .keep)
          else (j.1.insertTile it (.cont (.linear l2)), .keep)
        | .grid g =>
          let w := simp_grid_walk
            (fun s ch => tiles_simplify opts fuel s ch (some (Container.grid g).kind))
            st1 g.children
          let g2 : Grid := { g with children := w.2 }
          if opts.prune_empty_containers = true ∧
              (Container.grid g2).is_empty = true then
            (w.1, .remove)
          else if opts.prune_single_child_containers = true then
            match (Container.grid g2).only_child with
            | some oc => (w.1, .replace oc)
            | none => (w.1.insertTile it (.cont (.grid g2)), .keep)
          else (w.1.insertTile it (.cont (.grid g2)), .keep)

/-- `Tiles::make_all_panes_children_of_tabs` (fuel-indexed): a pane whose
parent is not a `Tabs` gets a fresh `Tabs` wrapper inserted at its id. -/
def make_all_panes : Nat → TilesState → Bool → Nat → TilesState
  | 0, st, _, _ => st
  | fuel + 1, st, parent_is_tabs, it =>
    match st.getTile it with
    | none => st
    | some tile =>
      let st1 := st.removeTile it
      match tile with
      | .pane p =>
        if parent_is_tabs = false then
          let r := st1.insert_new (.pane p)
          r.1.insertTile it (Tile.cont (Container.new_tabs [r.2]))
        else st1.insertTile it (.pane p)
      | .cont c =>
        let is_tabs : Bool := match c with | .tabs _ => true | _ => false
        let st2 := c.childrenList.foldl
          (fun acc ch => make_all_panes fuel acc is_tabs ch) st1
        st2.insertTile it (.cont c)

/-- `Tree::simplify` (`src/tree.rs`): run the tile pass from the root, update
the root pointer from the returned action, then optionally run
`make_all_panes_children_of_tabs`. -/
def tree_simplify (opts : SimplificationOptions) (root : Option Nat)
    (st : TilesState) : Option Nat × TilesState :=
  match root with
  | none => (none, st)
  | some r =>
    let s := tiles_simplify opts (st.tiles.length + 1) st r none
    let root2 : Option Nat := match s.2 with
      | .keep => some r
      | .remove => none
      | .replace new => some new
    if opts.all_panes_must_have_tabs = true then
      match root2 with
      | some tid => (root2, make_all_panes (s.1.tiles.length + 1) s.1 false tid)
      | none => (root2, s.1)
    else (root2, s.1)

/-- C5 counterexample: with `join_nested_linear_containers` and
`prune_single_child_containers` on, a duplicated child reference makes the
join step absorb (and delete) the nested linear tile while the duplicate
survives as the parent's only child, so the parent is replaced by a tile
that is no longer in the arena: the root pointer dangles. -/
theorem tree_simplify_dangling_root :
    (tree_simplify ⟨false, false, false, true, false, true⟩ (some 1)
        ⟨3, [(1, Tile.cont (.linear ⟨[2, 2], .horizontal, []⟩)),
             (2, Tile.cont (.linear ⟨[], .horizontal, []⟩))], [], []⟩).1 =
      some 2 ∧
    Smap.lookup (tree_simplify ⟨false, false, false, true, false, true⟩ (some 1)
        ⟨3, [(1, Tile.cont (.linear ⟨[2, 2], .horizontal, []⟩)),
             (2, Tile.cont (.linear ⟨[], .horizontal, []⟩))], [], []⟩).2.tiles 2 =
      none := by
  decide

/-- Every `Keep` return of `Tiles::simplify` goes through the final
`tiles.insert(it, tile)`: the result state holds some tile at `it`. -/
theorem tiles_simplify_shape (opts : SimplificationOptions) (fuel : Nat)
    (st : TilesState) (it : Nat) (pk : Option ContainerKind) :
    (tiles_simplify opts fuel st it pk).2 ≠ SimplifyAction.keep ∨
    ∃ (st2 : TilesState) (t2 : Tile), tiles_simplify opts fuel st it pk =
      (st2.insertTile it t2, SimplifyAction.keep) := by
  cases fuel with
  | zero => exact Or.inl (by simp [tiles_simplify])
  | succ fuel =>
    unfold tiles_simplify
    rcases hlz : st.getTile it with _ | tile
    · exact Or.inl (by simp)
    · cases tile with
      | pane p => exact Or.inr ⟨st.removeTile it, Tile.pane p, rfl⟩
      | cont c =>
        cases c with
        | tabs t =>
          dsimp only
          split
          · exact Or.inl (by simp)
          · split
            · split
              · split
                · exact Or.inr ⟨_, _, rfl⟩
                · exact Or.inl (by simp)
              · exact Or.inr ⟨_, _, rfl⟩
            · exact Or.inr ⟨_, _, rfl⟩
        | linear l =>
          dsimp only
          split
          case isTrue =>
            split
            · exact Or.inl (by simp)
            · split
              · split
                · exact Or.inl (by simp)
                · exact Or.inr ⟨_, _, rfl⟩
              · exact Or.inr ⟨_, _, rfl⟩
          case isFalse =>
            split
            · exact Or.inl (by simp)
            · split
              · split
                · exact Or.inl (by simp)
                · exact Or.inr ⟨_, _, rfl⟩
              · exact Or.inr ⟨_, _, rfl⟩
        | grid g =>
          dsimp only
          split
          · exact Or.inl (by simp)
          · split
            · split
              · exact Or.inl (by simp)
              · exact Or.inr ⟨_, _, rfl⟩
            · exact Or.inr ⟨_, _, rfl⟩


theorem tiles_simplify_keep_present (opts : SimplificationOptions) (fuel : Nat)
    (st : TilesState) (it : Nat) (pk : Option ContainerKind)
    (h : (tiles_simplify opts fuel st it pk).2 = SimplifyAction.keep) :
    ∃ t, Smap.lookup (tiles_simplify opts fuel st it pk).1.tiles it = some t := by
  rcases tiles_simplify_shape opts fuel st it pk with hne | ⟨st2, t2, heq⟩
  · exact absurd h hne
  · rw [heq]
    exact ⟨t2, Smap.lookup_insertS_self _ _ _⟩

/-- `make_all_panes_children_of_tabs` always reinserts a tile at a present
id (a pane may be rewrapped, a container is reinserted as-is). -/
theorem make_all_panes_present (fuel : Nat) (st : TilesState) (pit : Bool)
    (it : Nat) (h : ∃ t, Smap.lookup st.tiles it = some t) :
    ∃ t, Smap.lookup (make_all_panes fuel st pit it).tiles it = some t := by
  cases fuel with
  | zero => exact h
  | succ fuel =>
    obtain ⟨t, ht⟩ := h
    unfold make_all_panes
    rw [show st.getTile it = some t from ht]
    cases t with
    | pane p =>
      dsimp only
      split
      · exact ⟨_, Smap.lookup_insertS_self _ _ _⟩
      · exact ⟨_, Smap.lookup_insertS_self _ _ _⟩
    | cont c => exact ⟨_, Smap.lookup_insertS_self _ _ _⟩

/-- C5 (amended): the unconditional claim fails (see the counterexample: a
`Replace` action can name a tile that the join step already deleted), but the
root never dangles when the root-level simplify action is `Keep` or `Remove`:
then `Tree::simplify` either clears the root pointer or leaves it on a tile
present in the arena (also across the `make_all_panes_children_of_tabs`
post-pass). -/
theorem tree_simplify_root_not_dangling_without_replace
    (opts : SimplificationOptions) (st : TilesState) (rid : Nat)
    (h : (tiles_simplify opts (st.tiles.length + 1) st rid none).2 =
        SimplifyAction.keep ∨
      (tiles_simplify opts (st.tiles.length + 1) st rid none).2 =
        SimplifyAction.remove) :
    (tree_simplify opts (some rid) st).1 = none ∨
    ∃ r t, (tree_simplify opts (some rid) st).1 = some r ∧
      Smap.lookup (tree_simplify opts (some rid) st).2.tiles r = some t := by
  rcases h with hk | hr
  · have hpres := tiles_simplify_keep_present opts (st.tiles.length + 1) st rid none hk
    refine Or.inr ⟨rid, ?_⟩
    unfold tree_simplify
    dsimp only
    rw [hk]
    dsimp only
    split
    · obtain ⟨t, ht⟩ := make_all_panes_present
        ((tiles_simplify opts (st.tiles.length + 1) st rid none).1.tiles.length + 1)
        (tiles_simplify opts (st.tiles.length + 1) st rid none).1 false rid hpres
      exact ⟨t, rfl, ht⟩
    · obtain ⟨t, ht⟩ := hpres
      exact ⟨t, rfl, ht⟩
  · refine Or.inl ?_
    unfold tree_simplify
    dsimp only
    rw [hr]
    dsimp only
    split
    · rfl
    · rfl

/-- Witness for C5: a pane root is kept, and stays present. -/
theorem tree_simplify_root_not_dangling_without_replace_witness :
    ((tiles_simplify ⟨false, false, false, false, false, false⟩
        ((TilesState.mk 2 [(1, Tile.pane 0)] [] []).tiles.length + 1)
        (TilesState.mk 2 [(1, Tile.pane 0)] [] []) 1 none).2 =
        SimplifyAction.keep ∨
      (tiles_simplify ⟨false, false, false, false, false, false⟩
        ((TilesState.mk 2 [(1, Tile.pane 0)] [] []).tiles.length + 1)
        (TilesState.mk 2 [(1, Tile.pane 0)] [] []) 1 none).2 =
        SimplifyAction.remove) ∧
    ((tree_simplify ⟨false, false, false, false, false, false⟩ (some 1)
        (TilesState.mk 2 [(1, Tile.pane 0)] [] [])).1 = none ∨
    ∃ r t, (tree_simplify ⟨false, false, false, false, false, false⟩ (some 1)
        (TilesState.mk 2 [(1, Tile.pane 0)] [] [])).1 = some r ∧
      Smap.lookup (tree_simplify ⟨false, false, false, false, false, false⟩
        (some 1) (TilesState.mk 2 [(1, Tile.pane 0)] [] [])).2.tiles r =
        some t) :=
  ⟨Or.inl (by decide),
    tree_simplify_root_not_dangling_without_replace
      ⟨false, false, false, false, false, false⟩
      (TilesState.mk 2 [(1, Tile.pane 0)] [] []) 1 (Or.inl (by decide))⟩

/-- A present pane is always kept by `Tiles::simplify`, and the
remove-then-reinsert leaves the state unchanged. -/
theorem tiles_simplify_pane_keep (opts : SimplificationOptions) (fuel : Nat)
    (st : TilesState) (x : Nat) (pk : Option ContainerKind) (px : Nat)
    (hs : Smap.SortedK st.tiles)
    (hx : Smap.lookup st.tiles x = some (Tile.pane px)) :
    tiles_simplify opts (fuel + 1) st x pk = (st, SimplifyAction.keep) := by
  have hst : (st.removeTile x).insertTile x (Tile.pane px) = st := by
    have ht : Smap.insertS (Smap.eraseS st.tiles x) x (Tile.pane px) = st.tiles :=
      Smap.insertS_eraseS_self hs hx
    show TilesState.mk st.next_tile_id
      (Smap.insertS (Smap.eraseS st.tiles x) x (Tile.pane px)) st.invisible st.rects = st
    rw [ht]
  unfold tiles_simplify
  rw [show st.getTile x = some (Tile.pane px) from hx]
  dsimp only
  rw [hst]

theorem simp_linear_walk_all_keep
    (f : TilesState → Nat → TilesState × SimplifyAction) (st : TilesState)
    (xs : List Nat) (sh : Shares)
    (h : ∀ x ∈ xs, f st x = (st, SimplifyAction.keep)) :
    simp_linear_walk f st xs sh = (st, xs, sh) := by
  induction xs with
  | nil => rfl
  | cons x xs ih =>
    have hx := h x (List.mem_cons_self _ _)
    simp only [simp_linear_walk, hx]
    rw [ih (fun y hy => h y (List.mem_cons_of_mem _ hy))]

theorem simp_linear_walk_keep_front
    (f : TilesState → Nat → TilesState × SimplifyAction) (st : TilesState)
    (xs rest : List Nat) (sh : Shares)
    (h : ∀ x ∈ xs, f st x = (st, SimplifyAction.keep)) :
    simp_linear_walk f st (xs ++ rest) sh =
      ((simp_linear_walk f st rest sh).1,
        xs ++ (simp_linear_walk f st rest sh).2.1,
        (simp_linear_walk f st rest sh).2.2) := by
  induction xs with
  | nil => rfl
  | cons x xs ih =>
    have hx := h x (List.mem_cons_self _ _)
    simp only [List.cons_append, simp_linear_walk, hx, List.append_eq]
    rw [ih (fun y hy => h y (List.mem_cons_of_mem _ hy))]

theorem simp_tabs_walk_all_keep
    (f : TilesState → Nat → TilesState × SimplifyAction) (st : TilesState)
    (xs : List Nat) (act : Option Nat)
    (h : ∀ x ∈ xs, f st x = (st, SimplifyAction.keep)) :
    simp_tabs_walk f st xs act = (st, xs, act) := by
  induction xs with
  | nil => rfl
  | cons x xs ih =>
    have hx := h x (List.mem_cons_self _ _)
    simp only [simp_tabs_walk, hx]
    rw [ih (fun y hy => h y (List.mem_cons_of_mem _ hy))]

theorem simp_tabs_walk_keep_front
    (f : TilesState → Nat → TilesState × SimplifyAction) (st : TilesState)
    (xs rest : List Nat) (act : Option Nat)
    (h : ∀ x ∈ xs, f st x = (st, SimplifyAction.keep)) :
    simp_tabs_walk f st (xs ++ rest) act =
      ((simp_tabs_walk f st rest act).1,
        xs ++ (simp_tabs_walk f st rest act).2.1,
        (simp_tabs_walk f st rest act).2.2) := by
  induction xs with
  | nil => rfl
  | cons x xs ih =>
    have hx := h x (List.mem_cons_self _ _)
    simp only [List.cons_append, simp_tabs_walk, hx, List.append_eq]
    rw [ih (fun y hy => h y (List.mem_cons_of_mem _ hy))]

/-- A `Tabs` container with a single present pane child is collapsed by
`Tiles::simplify` into `Replace(child)` (its tile deleted) whenever
`prune_single_child_tabs` is on and `all_panes_must_have_tabs` is off. -/
theorem tiles_simplify_single_tabs_replace (opts : SimplificationOptions)
    (n : Nat) (st : TilesState) (k oc po : Nat) (act : Option Nat)
    (pk : Option ContainerKind)
    (hpt : opts.prune_single_child_tabs = true)
    (hap : opts.all_panes_must_have_tabs = false)
    (hs : Smap.SortedK st.tiles)
    (hk : Smap.lookup st.tiles k = some (Tile.cont (.tabs ⟨[oc], act⟩)))
    (hoc : Smap.lookup st.tiles oc = some (Tile.pane po))
    (hock : oc ≠ k) :
    tiles_simplify opts (n + 2) st k pk =
      (st.removeTile k, SimplifyAction.replace oc) := by
  have hs2 : Smap.SortedK (st.removeTile k).tiles := Smap.sortedK_eraseS _ _ hs
  have hoc2 : Smap.lookup (st.removeTile k).tiles oc = some (Tile.pane po) := by
    show Smap.lookup (Smap.eraseS st.tiles k) oc = _
    rw [Smap.lookup_eraseS_ne st.tiles k oc hock]
    exact hoc
  have hwalk : simp_tabs_walk
      (fun s ch => tiles_simplify opts (n + 1) s ch
        (some (Container.tabs ⟨[oc], act⟩).kind))
      (st.removeTile k) [oc] act = (st.removeTile k, [oc], act) := by
    apply simp_tabs_walk_all_keep
    intro x hx
    have hxo : x = oc := by simpa using hx
    subst hxo
    exact tiles_simplify_pane_keep opts n (st.removeTile k) x _ po hs2 hoc2
  show tiles_simplify opts (n + 1 + 1) st k pk = _
  unfold tiles_simplify
  rw [show st.getTile k = some (Tile.cont (.tabs ⟨[oc], act⟩)) from hk]
  dsimp only
  rw [hwalk]
  dsimp only
  rw [if_neg (by
    rintro ⟨_, hc⟩
    simp [Container.is_empty, Container.num_children, Container.childrenList] at hc)]
  rw [if_pos hpt]
  rw [show (Container.tabs ⟨[oc], act⟩).only_child = some oc from rfl]
  dsimp only
  rw [if_neg (by
    rintro ⟨ha, _⟩
    rw [hap] at ha
    exact Bool.false_ne_true ha)]

/-- C6 counterexample: with `prune_single_child_tabs` and
`all_panes_must_have_tabs` both on, the single-child Tabs container 2 under a
non-Tabs parent keeps its pane child instead of being replaced by it in the
grandparent, so the claimed unconditional collapse does not happen. -/
theorem all_panes_exception_keeps_single_child_tabs :
    Smap.lookup (tree_simplify ⟨false, false, true, false, true, false⟩ (some 1)
        ⟨5, [(1, Tile.cont (.linear ⟨[2, 4], .horizontal, []⟩)),
             (2, Tile.cont (.tabs ⟨[3], none⟩)), (3, Tile.pane 0),
             (4, Tile.pane 1)], [], []⟩).2.tiles 2 =
      some (Tile.cont (.tabs ⟨[3], none⟩)) ∧
    Smap.lookup (tree_simplify ⟨false, false, true, false, true, false⟩ (some 1)
        ⟨5, [(1, Tile.cont (.linear ⟨[2, 4], .horizontal, []⟩)),
             (2, Tile.cont (.tabs ⟨[3], none⟩)), (3, Tile.pane 0),
             (4, Tile.pane 1)], [], []⟩).2.tiles 1 =
      some (Tile.cont (.linear ⟨[2, 4], .horizontal, []⟩)) := by
  decide

/-- C6 (amended): when `prune_single_child_tabs` is on and the
`all_panes_must_have_tabs` exception does not apply, a Tabs container `k`
whose only child is a present pane is collapsed: its simplify action is
`Replace(oc)` and its tile is deleted, and the parent's child walk puts `oc`
at `k`'s exact position — a Linear parent transfers `k`'s share entry to `oc`
via `Shares::replace_with`, and a Tabs parent whose active tab was `k` makes
`oc` the active tab in its place. -/
theorem single_child_tabs_collapse_mechanics (opts : SimplificationOptions)
    (n : Nat) (st1 : TilesState) (k oc po : Nat) (act : Option Nat)
    (xs ys : List Nat)
    (hpt : opts.prune_single_child_tabs = true)
    (hap : opts.all_panes_must_have_tabs = false)
    (hs : Smap.SortedK st1.tiles)
    (hk : Smap.lookup st1.tiles k = some (Tile.cont (.tabs ⟨[oc], act⟩)))
    (hoc : Smap.lookup st1.tiles oc = some (Tile.pane po))
    (hxs : ∀ x ∈ xs ++ ys, ∃ px, Smap.lookup st1.tiles x = some (Tile.pane px))
    (hkxs : k ∉ xs ++ ys) (hock : oc ≠ k) :
    (∀ pk, tiles_simplify opts (n + 2) st1 k pk =
      (st1.removeTile k, SimplifyAction.replace oc)) ∧
    (∀ (sh : Shares) (pk : Option ContainerKind),
      simp_linear_walk (fun s c => tiles_simplify opts (n + 2) s c pk) st1
        (xs ++ k :: ys) sh =
      (st1.removeTile k, xs ++ oc :: ys, Shares.replace_with sh k oc)) ∧
    (∀ (act0 : Option Nat) (pk : Option ContainerKind),
      simp_tabs_walk (fun s c => tiles_simplify opts (n + 2) s c pk) st1
        (xs ++ k :: ys) act0 =
      (st1.removeTile k, xs ++ oc :: ys,
        if act0 = some k then some oc else act0)) := by
  have hA : ∀ pk, tiles_simplify opts (n + 2) st1 k pk =
      (st1.removeTile k, SimplifyAction.replace oc) := fun pk =>
    tiles_simplify_single_tabs_replace opts n st1 k oc po act pk hpt hap hs hk hoc hock
  have hkeep1 : ∀ (pk : Option ContainerKind) x, x ∈ xs →
      tiles_simplify opts (n + 2) st1 x pk = (st1, SimplifyAction.keep) := by
    intro pk x hx
    obtain ⟨px, hpx⟩ := hxs x (List.mem_append_left _ hx)
    exact tiles_simplify_pane_keep opts (n + 1) st1 x pk px hs hpx
  have hs2 : Smap.SortedK (st1.removeTile k).tiles := Smap.sortedK_eraseS _ _ hs
  have hkeep2 : ∀ (pk : Option ContainerKind) y, y ∈ ys →
      tiles_simplify opts (n + 2) (st1.removeTile k) y pk =
        (st1.removeTile k, SimplifyAction.keep) := by
    intro pk y hy
    obtain ⟨py, hpy⟩ := hxs y (List.mem_append_right _ hy)
    have hyk : y ≠ k := fun h => hkxs (h ▸ List.mem_append_right _ hy)
    have hpy2 : Smap.lookup (st1.removeTile k).tiles y = some (Tile.pane py) := by
      show Smap.lookup (Smap.eraseS st1.tiles k) y = _
      rw [Smap.lookup_eraseS_ne st1.tiles k y hyk]
      exact hpy
    exact tiles_simplify_pane_keep opts (n + 1) (st1.removeTile k) y pk py hs2 hpy2
  refine ⟨hA, ?_, ?_⟩
  · intro sh pk
    rw [simp_linear_walk_keep_front _ _ xs (k :: ys) sh (fun x hx => hkeep1 pk x hx)]
    simp only [simp_linear_walk, hA pk]
    rw [simp_linear_walk_all_keep _ _ ys (Shares.replace_with sh k oc)
      (fun y hy => hkeep2 pk y hy)]
  · intro act0 pk
    rw [simp_tabs_walk_keep_front _ _ xs (k :: ys) act0 (fun x hx => hkeep1 pk x hx)]
    simp only [simp_tabs_walk, hA pk]
    rw [simp_tabs_walk_all_keep _ _ ys (if act0 = some k then some oc else act0)
      (fun y hy => hkeep2 pk y hy)]

/-- Witness for C6: the mechanics evaluated on a concrete arena, with the
Linear-parent walk instantiated at an explicit share map. -/
theorem single_child_tabs_collapse_mechanics_witness :
    simp_linear_walk (fun s c => tiles_simplify
        ⟨false, false, true, false, false, false⟩ 2 s c none)
      (TilesState.mk 10 [(2, Tile.cont (.tabs ⟨[3], none⟩)), (3, Tile.pane 0),
        (4, Tile.pane 1)] [] [])
      ([4] ++ 2 :: []) [(2, (5 : Rat))] =
      ((TilesState.mk 10 [(2, Tile.cont (.tabs ⟨[3], none⟩)), (3, Tile.pane 0),
        (4, Tile.pane 1)] [] []).removeTile 2, [4] ++ 3 :: [],
        Shares.replace_with [(2, (5 : Rat))] 2 3) ∧
    simp_tabs_walk (fun s c => tiles_simplify
        ⟨false, false, true, false, false, false⟩ 2 s c none)
      (TilesState.mk 10 [(2, Tile.cont (.tabs ⟨[3], none⟩)), (3, Tile.pane 0),
        (4, Tile.pane 1)] [] [])
      ([4] ++ 2 :: []) (some 2) =
      ((TilesState.mk 10 [(2, Tile.cont (.tabs ⟨[3], none⟩)), (3, Tile.pane 0),
        (4, Tile.pane 1)] [] []).removeTile 2, [4] ++ 3 :: [],
        if (some 2 : Option Nat) = some 2 then some 3 else some 2) := by
  have h := single_child_tabs_collapse_mechanics
    ⟨false, false, true, false, false, false⟩ 0
    (TilesState.mk 10 [(2, Tile.cont (.tabs ⟨[3], none⟩)), (3, Tile.pane 0),
      (4, Tile.pane 1)] [] []) 2 3 0 none [4] []
    rfl rfl (by unfold Smap.SortedK; decide) rfl rfl
    (by
      intro x hx
      have hx4 : x = 4 := by simpa using hx
      subst hx4
      exact ⟨1, rfl⟩)
    (by decide) (by decide)
  exact ⟨h.2.1 [(2, (5 : Rat))] none, h.2.2 (some 2) none⟩

/-- C7 counterexample: on a well-formed tree (1 = Tabs[2,5], 2 = Linear-H[3],
3 = Tabs[4], 4 and 5 panes) with `prune_single_child_tabs`,
`prune_single_child_containers` and `all_panes_must_have_tabs` on, the first
pass collapses 2 and hoists 3 (kept, because its pane child's parent was not
Tabs), and only the second pass collapses 3 (now under a Tabs parent): the
two passes differ, so simplification is not idempotent. -/
theorem tree_simplify_not_idempotent :
    Smap.lookup (tree_simplify ⟨false, false, true, true, true, false⟩ (some 1)
        ⟨6, [(1, Tile.cont (.tabs ⟨[2, 5], none⟩)),
             (2, Tile.cont (.linear ⟨[3], .horizontal, []⟩)),
             (3, Tile.cont (.tabs ⟨[4], none⟩)), (4, Tile.pane 0),
             (5, Tile.pane 1)], [], []⟩).2.tiles 1 =
      some (Tile.cont (.tabs ⟨[3, 5], none⟩)) ∧
    Smap.lookup (tree_simplify ⟨false, false, true, true, true, false⟩
        (tree_simplify ⟨false, false, true, true, true, false⟩ (some 1)
          ⟨6, [(1, Tile.cont (.tabs ⟨[2, 5], none⟩)),
               (2, Tile.cont (.linear ⟨[3], .horizontal, []⟩)),
               (3, Tile.cont (.tabs ⟨[4], none⟩)), (4, Tile.pane 0),
               (5, Tile.pane 1)], [], []⟩).1
        (tree_simplify ⟨false, false, true, true, true, false⟩ (some 1)
          ⟨6, [(1, Tile.cont (.tabs ⟨[2, 5], none⟩)),
               (2, Tile.cont (.linear ⟨[3], .horizontal, []⟩)),
               (3, Tile.cont (.tabs ⟨[4], none⟩)), (4, Tile.pane 0),
               (5, Tile.pane 1)], [], []⟩).2).2.tiles 1 =
      some (Tile.cont (.tabs ⟨[4, 5], none⟩)) := by
  decide

theorem only_child_mem {c : Container} {oc : Nat} (h : c.only_child = some oc) :
    oc ∈ c.childrenList := by
  unfold Container.only_child at h
  rcases hcl : c.childrenList with _ | ⟨a, l⟩
  · rw [hcl] at h
    exact Option.noConfusion h
  · rw [hcl] at h
    cases l with
    | nil =>
      have haoc : a = oc := Option.some.inj h
      rw [← haoc]
      exact List.mem_cons_self _ _
    | cons b l2 => exact Option.noConfusion h

theorem simp_grid_walk_all_keep
    (f : TilesState → Nat → TilesState × SimplifyAction) (st : TilesState)
    (slots : List (Option Nat))
    (h : ∀ c, some c ∈ slots → f st c = (st, SimplifyAction.keep)) :
    simp_grid_walk f st slots = (st, slots) := by
  induction slots with
  | nil => rfl
  | cons s rest ih =>
    cases s with
    | none =>
      simp only [simp_grid_walk]
      rw [ih (fun c hc => h c (List.mem_cons_of_mem _ hc))]
    | some c =>
      have hc := h c (List.mem_cons_self _ _)
      simp only [simp_grid_walk, hc]
      rw [ih (fun d hd => h d (List.mem_cons_of_mem _ hd))]

/-- The `join_nested_linear_containers` loop leaves pane children alone. -/
theorem join_walk_panes (st : TilesState) (dir : LinearDir) (ch : List Nat)
    (sh : Shares)
    (h : ∀ c ∈ ch, ∃ px, Smap.lookup st.tiles c = some (Tile.pane px)) :
    join_walk st dir ch sh = (st, ch, sh) := by
  induction ch with
  | nil => rfl
  | cons c rest ih =>
    obtain ⟨px, hpx⟩ := h c (List.mem_cons_self _ _)
    simp only [join_walk]
    rw [show st.getTile c = some (Tile.pane px) from hpx]
    dsimp only
    rw [ih (fun y hy => h y (List.mem_cons_of_mem _ hy))]

/-- On a container all of whose children are present panes distinct from it,
one `Tiles::simplify` call either keeps the tile and leaves the arena
unchanged, removes it, or replaces it by one of its pane children. -/
theorem tiles_simplify_pane_children_cases (opts : SimplificationOptions)
    (m : Nat) (st : TilesState) (rid : Nat) (pc : Container)
    (pk : Option ContainerKind)
    (hs : Smap.SortedK st.tiles)
    (hroot : Smap.lookup st.tiles rid = some (Tile.cont pc))
    (hpanes : ∀ c ∈ pc.childrenList, ∃ px,
      Smap.lookup st.tiles c = some (Tile.pane px))
    (hrc : rid ∉ pc.childrenList) :
    tiles_simplify opts (m + 1 + 1) st rid pk = (st, SimplifyAction.keep) ∨
    tiles_simplify opts (m + 1 + 1) st rid pk =
      (st.removeTile rid, SimplifyAction.remove) ∨
    ∃ oc po, oc ∈ pc.childrenList ∧
      Smap.lookup st.tiles oc = some (Tile.pane po) ∧
      tiles_simplify opts (m + 1 + 1) st rid pk =
        (st.removeTile rid, SimplifyAction.replace oc) := by
  have hs1 : Smap.SortedK (st.removeTile rid).tiles := Smap.sortedK_eraseS _ _ hs
  have hpanes1 : ∀ c ∈ pc.childrenList, ∃ px,
      Smap.lookup (st.removeTile rid).tiles c = some (Tile.pane px) := by
    intro c hc
    obtain ⟨px, hpx⟩ := hpanes c hc
    refine ⟨px, ?_⟩
    show Smap.lookup (Smap.eraseS st.tiles rid) c = _
    rw [Smap.lookup_eraseS_ne st.tiles rid c (fun h => hrc (h ▸ hc))]
    exact hpx
  have hkeepc : ∀ (pk2 : Option ContainerKind) c, c ∈ pc.childrenList →
      tiles_simplify opts (m + 1) (st.removeTile rid) c pk2 =
        (st.removeTile rid, SimplifyAction.keep) := by
    intro pk2 c hc
    obtain ⟨px, hpx⟩ := hpanes1 c hc
    exact tiles_simplify_pane_keep opts m (st.removeTile rid) c pk2 px hs1 hpx
  unfold tiles_simplify
  rw [show st.getTile rid = some (Tile.cont pc) from hroot]
  cases pc with
  | tabs t =>
    obtain ⟨ch, act⟩ := t
    have hins : (st.removeTile rid).insertTile rid
        (Tile.cont (.tabs ⟨ch, act⟩)) = st := by
      have ht : Smap.insertS (Smap.eraseS st.tiles rid) rid
          (Tile.cont (.tabs ⟨ch, act⟩)) = st.tiles :=
        Smap.insertS_eraseS_self hs hroot
      show TilesState.mk st.next_tile_id
        (Smap.insertS (Smap.eraseS st.tiles rid) rid (Tile.cont (.tabs ⟨ch, act⟩)))
        st.invisible st.rects = st
      rw [ht]
    have hwalk : simp_tabs_walk
        (fun s c2 => tiles_simplify opts (m + 1) s c2
          (some (Container.tabs ⟨ch, act⟩).kind))
        (st.removeTile rid) ch act = (st.removeTile rid, ch, act) :=
      simp_tabs_walk_all_keep _ _ ch act (fun x hx => hkeepc _ x hx)
    dsimp only
    rw [hwalk]
    dsimp only
    split
    · exact Or.inr (Or.inl rfl)
    · split
      · split
        case h_1 oc heq =>
          have hocm : oc ∈ Container.childrenList (.tabs ⟨ch, act⟩) :=
            only_child_mem heq
          obtain ⟨po, hpo⟩ := hpanes oc hocm
          split
          · rw [hins]
            exact Or.inl rfl
          · exact Or.inr (Or.inr ⟨oc, po, hocm, hpo, rfl⟩)
        case h_2 heq =>
          rw [hins]
          exact Or.inl rfl
      · rw [hins]
        exact Or.inl rfl
  | linear l =>
    obtain ⟨ch, dir, sh⟩ := l
    have hins : (st.removeTile rid).insertTile rid
        (Tile.cont (.linear ⟨ch, dir, sh⟩)) = st := by
      have ht : Smap.insertS (Smap.eraseS st.tiles rid) rid
          (Tile.cont (.linear ⟨ch, dir, sh⟩)) = st.tiles :=
        Smap.insertS_eraseS_self hs hroot
      show TilesState.mk st.next_tile_id
        (Smap.insertS (Smap.eraseS st.tiles rid) rid
          (Tile.cont (.linear ⟨ch, dir, sh⟩)))
        st.invisible st.rects = st
      rw [ht]
    have hwalk : simp_linear_walk
        (fun s c2 => tiles_simplify opts (m + 1) s c2
          (some (Container.linear ⟨ch, dir, sh⟩).kind))
        (st.removeTile rid) ch sh = (st.removeTile rid, ch, sh) :=
      simp_linear_walk_all_keep _ _ ch sh (fun x hx => hkeepc _ x hx)
    dsimp only
    rw [hwalk]
    dsimp only
    have hj : (if opts.join_nested_linear_containers = true then
        join_walk (st.removeTile rid) dir ch sh
      else ((st.removeTile rid), ch, sh)) = ((st.removeTile rid), ch, sh) := by
      split
      · exact join_walk_panes (st.removeTile rid) dir ch sh hpanes1
      · rfl
    rw [hj]
    dsimp only
    split
    · exact Or.inr (Or.inl rfl)
    · split
      · split
        case h_1 oc heq =>
          have hocm : oc ∈ Container.childrenList (.linear ⟨ch, dir, sh⟩) :=
            only_child_mem heq
          obtain ⟨po, hpo⟩ := hpanes oc hocm
          exact Or.inr (Or.inr ⟨oc, po, hocm, hpo, rfl⟩)
        case h_2 heq =>
          rw [hins]
          exact Or.inl rfl
      · rw [hins]
        exact Or.inl rfl
  | grid g =>
    obtain ⟨slots, lay, csh, rsh, crg, rrg⟩ := g
    have hins : (st.removeTile rid).insertTile rid
        (Tile.cont (.grid ⟨slots, lay, csh, rsh, crg, rrg⟩)) = st := by
      have ht : Smap.insertS (Smap.eraseS st.tiles rid) rid
          (Tile.cont (.grid ⟨slots, lay, csh, rsh, crg, rrg⟩)) = st.tiles :=
        Smap.insertS_eraseS_self hs hroot
      show TilesState.mk st.next_tile_id
        (Smap.insertS (Smap.eraseS st.tiles rid) rid
          (Tile.cont (.grid ⟨slots, lay, csh, rsh, crg, rrg⟩)))
        st.invisible st.rects = st
      rw [ht]
    have hwalk : simp_grid_walk
        (fun s c2 => tiles_simplify opts (m + 1) s c2
          (some (Container.grid ⟨slots, lay, csh, rsh, crg, rrg⟩).kind))
        (st.removeTile rid) slots = (st.removeTile rid, slots) := by
      apply simp_grid_walk_all_keep
      intro c hc
      refine hkeepc _ c ?_
      show c ∈ Grid.childrenIds ⟨slots, lay, csh, rsh, crg, rrg⟩
      unfold Grid.childrenIds
      exact List.mem_filterMap.mpr ⟨some c, hc, rfl⟩
    dsimp only
    rw [hwalk]
    dsimp only
    split
    · exact Or.inr (Or.inl rfl)
    · split
      · split
        case h_1 oc heq =>
          have hocm : oc ∈ Container.childrenList
              (.grid ⟨slots, lay, csh, rsh, crg, rrg⟩) := only_child_mem heq
          obtain ⟨po, hpo⟩ := hpanes oc hocm
          exact Or.inr (Or.inr ⟨oc, po, hocm, hpo, rfl⟩)
        case h_2 heq =>
          rw [hins]
          exact Or.inl rfl
      · rw [hins]
        exact Or.inl rfl

/-- C7 (amended): the unconditional claim fails (see the counterexample:
with `all_panes_must_have_tabs` the keep/collapse decision for a single-child
Tabs depends on the parent kind, which changes between passes), but
simplification is idempotent on a tree consisting of one container of
present pane children for every `SimplificationOptions` with
`all_panes_must_have_tabs = false`. -/
theorem tree_simplify_idempotent_pane_children (opts : SimplificationOptions)
    (st : TilesState) (rid : Nat) (pc : Container)
    (hap : opts.all_panes_must_have_tabs = false)
    (hs : Smap.SortedK st.tiles)
    (hroot : Smap.lookup st.tiles rid = some (Tile.cont pc))
    (hpanes : ∀ c ∈ pc.childrenList, ∃ px,
      Smap.lookup st.tiles c = some (Tile.pane px))
    (hrc : rid ∉ pc.childrenList) :
    tree_simplify opts (tree_simplify opts (some rid) st).1
        (tree_simplify opts (some rid) st).2 =
      tree_simplify opts (some rid) st := by
  have hne : st.tiles ≠ [] := by
    intro h
    rw [h] at hroot
    simp [Smap.lookup] at hroot
  obtain ⟨m, hm⟩ : ∃ m, st.tiles.length = m + 1 := by
    cases hc : st.tiles with
    | nil => exact absurd hc hne
    | cons a l => exact ⟨l.length, rfl⟩
  have hcases := tiles_simplify_pane_children_cases opts m st rid pc none
    hs hroot hpanes hrc
  rcases hcases with hk | hr | ⟨oc, po, hocm, hpo, hrep⟩
  · have h1 : tree_simplify opts (some rid) st = (some rid, st) := by
      unfold tree_simplify
      dsimp only
      rw [hm, hk]
      dsimp only
      rw [hap, if_neg Bool.false_ne_true]
    rw [h1]
    exact h1
  · have h1 : tree_simplify opts (some rid) st = (none, st.removeTile rid) := by
      unfold tree_simplify
      dsimp only
      rw [hm, hr]
      dsimp only
      rw [hap, if_neg Bool.false_ne_true]
    rw [h1]
    rfl
  · have h1 : tree_simplify opts (some rid) st = (some oc, st.removeTile rid) := by
      unfold tree_simplify
      dsimp only
      rw [hm, hrep]
      dsimp only
      rw [hap, if_neg Bool.false_ne_true]
    have hock : oc ≠ rid := fun h => hrc (h ▸ hocm)
    have hs1 : Smap.SortedK (st.removeTile rid).tiles := Smap.sortedK_eraseS _ _ hs
    have hpo1 : Smap.lookup (st.removeTile rid).tiles oc = some (Tile.pane po) := by
      show Smap.lookup (Smap.eraseS st.tiles rid) oc = _
      rw [Smap.lookup_eraseS_ne st.tiles rid oc hock]
      exact hpo
    rw [h1]
    unfold tree_simplify
    dsimp only
    rw [tiles_simplify_pane_keep opts ((st.removeTile rid).tiles.length)
      (st.removeTile rid) oc none po hs1 hpo1]
    dsimp only
    rw [hap, if_neg Bool.false_ne_true]

/-- Witness for C7: a Tabs root of two panes, all prune and join options on,
`all_panes_must_have_tabs` off. -/
theorem tree_simplify_idempotent_pane_children_witness :
    (∀ c ∈ (Container.tabs ⟨[2, 3], none⟩).childrenList, ∃ px,
      Smap.lookup (TilesState.mk 4 [(1, Tile.cont (.tabs ⟨[2, 3], none⟩)),
        (2, Tile.pane 0), (3, Tile.pane 1)] [] []).tiles c =
        some (Tile.pane px)) ∧
    tree_simplify ⟨true, true, true, true, false, true⟩
        (tree_simplify ⟨true, true, true, true, false, true⟩ (some 1)
          (TilesState.mk 4 [(1, Tile.cont (.tabs ⟨[2, 3], none⟩)),
            (2, Tile.pane 0), (3, Tile.pane 1)] [] [])).1
        (tree_simplify ⟨true, true, true, true, false, true⟩ (some 1)
          (TilesState.mk 4 [(1, Tile.cont (.tabs ⟨[2, 3], none⟩)),
            (2, Tile.pane 0), (3, Tile.pane 1)] [] [])).2 =
      tree_simplify ⟨true, true, true, true, false, true⟩ (some 1)
        (TilesState.mk 4 [(1, Tile.cont (.tabs ⟨[2, 3], none⟩)),
          (2, Tile.pane 0), (3, Tile.pane 1)] [] []) := by
  have hpanes : ∀ c ∈ (Container.tabs ⟨[2, 3], none⟩).childrenList, ∃ px,
      Smap.lookup (TilesState.mk 4 [(1, Tile.cont (.tabs ⟨[2, 3], none⟩)),
        (2, Tile.pane 0), (3, Tile.pane 1)] [] []).tiles c =
        some (Tile.pane px) := by
    intro c hc
    have hc2 : c = 2 ∨ c = 3 := by simpa [Container.childrenList] using hc
    rcases hc2 with h | h
    · subst h
      exact ⟨0, rfl⟩
    · subst h
      exact ⟨1, rfl⟩
  exact ⟨hpanes, tree_simplify_idempotent_pane_children
    ⟨true, true, true, true, false, true⟩
    (TilesState.mk 4 [(1, Tile.cont (.tabs ⟨[2, 3], none⟩)),
      (2, Tile.pane 0), (3, Tile.pane 1)] [] []) 1
    (Container.tabs ⟨[2, 3], none⟩) rfl (by unfold Smap.SortedK; decide) rfl
    hpanes (by decide)⟩

/-! ## Layout (`Tiles::layout_tile`, `Tabs::layout`, `Linear::layout`,
`Grid::layout`) -/

/-- The behavior parameters the layout pass reads
(`Behavior::gap_width`, `Behavior::tab_bar_height`,
`Behavior::ideal_tile_aspect_ratio`). -/
structure BehaviorParams where
  gap_width : Rat
  tab_bar_height : Rat
  ideal_tile_aspect_ratio : Rat
deriving DecidableEq

/-- The `while self.children.last() == Some(&None) { pop }` loop of
`Grid::layout`. -/
def popTrailingNones (l : List (Option Nat)) : List (Option Nat) :=
  (l.reverse.dropWhile (fun s => s.isNone)).reverse

/-- `Vec::resize(n, 1.0)` on a share list. -/
def resizeShares (sh : List Rat) (n : Nat) : List Rat :=
  sh.take n ++ List.replicate (n - sh.length) 1

/-- The column/row range loop of `Grid::layout`. -/
def rangesFrom (gap : Rat) : Rat → List Rat → List (Rat × Rat)
  | _, [] => []
  | x, w :: rest => (x, x + w) :: rangesFrom gap (x + w + gap) rest

/-- The per-cell child layout loop of `Grid::layout`. -/
def layoutGridChildren (f : TilesState → Rect → Nat → TilesState) :
    TilesState → List (Option Nat) → Nat → List (Rat × Rat) → List (Rat × Rat) →
      Nat → TilesState
  | st, [], _, _, _, _ => st
  | st, slot :: rest, ncols, crs, rrs, i =>
    let st2 := match slot with
      | some child =>
        let cr := crs.getD (i % ncols) (0, 0)
        let rr2 := rrs.getD (i / ncols) (0, 0)
        f st ⟨cr.1, rr2.1, cr.2, rr2.2⟩ child
      | none => st
    layoutGridChildren f st2 rest ncols crs rrs (i + 1)

/-- `Tabs::layout` (with the recursive per-tile layout passed in as `f`):
clear an invisible active tab, reassign to the first visible child when no
child is active, then lay out only the active child below the tab bar. -/
def tabs_layout (f : TilesState → Rect → Nat → TilesState)
    (bp : BehaviorParams) (st : TilesState) (rect : Rect) (t : Tabs) :
    TilesState × Tabs :=
  let active1 : Option Nat := match t.active with
    | some a => if st.is_visible a = true then some a else none
    | none => none
  let active2 : Option Nat :=
    if t.children.any (fun c => Tabs.is_active ⟨t.children, active1⟩ c) = true
    then active1
    else t.children.find? (fun c => st.is_visible c)
  let active_rect : Rect := { rect with minY := rect.minY + bp.tab_bar_height }
  match active2 with
  | some a => (f st active_rect a, ⟨t.children, active2⟩)
  | none => (st, ⟨t.children, active2⟩)

/-- `Linear::layout`: garbage-collect the share map to the current children,
then place the visible children with `layout_horizontal`/`layout_vertical`. -/
def linear_layout (f : TilesState → Rect → Nat → TilesState)
    (bp : BehaviorParams) (st : TilesState) (rect : Rect) (l : Linear) :
    TilesState × Linear :=
  let sh := l.shares.retain (fun i => l.children.contains i)
  let visible := l.children.filter (fun c => st.is_visible c)
  let pairs := match l.dir with
    | .horizontal => linear_child_rects_h sh visible rect bp.gap_width
    | .vertical => linear_child_rects_v sh visible rect bp.gap_width
  (pairs.foldl (fun acc p => f acc p.2 p.1) st, ⟨l.children, l.dir, sh⟩)

/-- `Grid::layout`: pop trailing holes, compute the column count (auto
heuristic or fixed), resize the share lists, derive the column/row ranges,
lay out each visible child in its cell, and possibly collapse holes. -/
def grid_layout (f : TilesState → Rect → Nat → TilesState)
    (bp : BehaviorParams) (st : TilesState) (rect : Rect) (g : Grid) :
    TilesState × Grid :=
  let children1 := popTrailingNones g.children
  let gap := bp.gap_width
  let vch := children1.filter (fun slot => match slot with
    | none => true
    | some i => st.is_visible i)
  let nvis := vch.length
  let num_cols0 := match g.layout with
    | .auto => num_columns_heuristic nvis rect.width rect.height gap
        bp.ideal_tile_aspect_ratio
    | .columns n => n
  let num_cols := max num_cols0 1
  let num_rows := (nvis + num_cols - 1) / num_cols
  let col_shares := resizeShares g.col_shares num_cols
  let row_shares := resizeShares g.row_shares num_rows
  let col_widths := sizes_from_shares col_shares rect.width gap
  let row_heights := sizes_from_shares row_shares rect.height gap
  let col_ranges := rangesFrom gap rect.minX col_widths
  let row_ranges := rangesFrom gap rect.minY row_heights
  let st2 := layoutGridChildren f st vch num_cols col_ranges row_ranges 0
  let g2 : Grid := { g with children := children1, col_shares := col_shares, row_shares := row_shares, col_ranges := col_ranges, row_ranges := row_ranges }
  let num_holes := (vch.filter (fun c => c.isNone)).length +
    (num_cols * num_rows - nvis)
  if min num_cols num_rows ≤ num_holes then (st2, g2.collapse_holes)
  else (st2, g2)

/-- `Tiles::layout_tile` (fuel-indexed): remove the tile, record its
rectangle, recursively lay out a container, reinsert. An empty container is
left alone by `Container::layout`. -/
def layout_tile (bp : BehaviorParams) :
    Nat → TilesState → Rect → Nat → TilesState
  | 0, st, _, _ => st
  | fuel + 1, st, rect, tile_id =>
    match st.getTile tile_id with
    | none => st
    | some tile =>
      let st1 := st.removeTile tile_id
      let st2 := { st1 with rects := Smap.insertS st1.rects tile_id rect }
      match tile with
      | .pane p => st2.insertTile tile_id (.pane p)
      | .cont c =>
        if c.is_empty = true then st2.insertTile tile_id (.cont c)
        else match c with
          | .tabs t =>
            let r := tabs_layout (layout_tile bp fuel) bp st2 rect t
            r.1.insertTile tile_id (.cont (.tabs r.2))
          | .linear l =>
            let r := linear_layout (layout_tile bp fuel) bp st2 rect l
            r.1.insertTile tile_id (.cont (.linear r.2))
          | .grid g =>
            let r := grid_layout (layout_tile bp fuel) bp st2 rect g
            r.1.insertTile tile_id (.cont (.grid r.2))

/-- The tile ids the layout recursion may reach from a tile in `fuel` more
steps (an overapproximation computed on the starting arena). -/
def reach (st : TilesState) : Nat → Nat → List Nat
  | 0, i => [i]
  | fuel + 1, i =>
    i :: (match st.getTile i with
      | some t => (tileChildren t).flatMap (fun c => reach st fuel c)
      | none => [])

/-- The layout pass only deletes tiles or reinserts tiles with the same
child ids: the result arena's tiles are a child-preserving subset. -/
def ArenaLe (st' st : TilesState) : Prop :=
  ∀ i t', st'.getTile i = some t' →
    ∃ t, st.getTile i = some t ∧ tileChildren t' = tileChildren t

theorem arenaLe_refl (st : TilesState) : ArenaLe st st :=
  fun _ t' hj => ⟨t', hj, rfl⟩

theorem arenaLe_trans {s1 s2 s3 : TilesState} (h12 : ArenaLe s1 s2)
    (h23 : ArenaLe s2 s3) : ArenaLe s1 s3 := by
  intro i t' hj
  obtain ⟨t2, ht2, hc2⟩ := h12 i t' hj
  obtain ⟨t3, ht3, hc3⟩ := h23 i t2 ht2
  exact ⟨t3, ht3, hc2.trans hc3⟩

theorem arenaLe_removeTile {st : TilesState} {id : Nat}
    (hs : Smap.SortedK st.tiles) : ArenaLe (st.removeTile id) st := by
  intro j t' hj
  by_cases hji : j = id
  · subst hji
    have : Smap.lookup (Smap.eraseS st.tiles j) j = none :=
      Smap.lookup_eraseS_self st.tiles j hs
    rw [show (st.removeTile j).getTile j =
      Smap.lookup (Smap.eraseS st.tiles j) j from rfl, this] at hj
    exact Option.noConfusion hj
  · rw [show (st.removeTile id).getTile j =
      Smap.lookup (Smap.eraseS st.tiles id) j from rfl,
      Smap.lookup_eraseS_ne st.tiles id j hji] at hj
    exact ⟨t', hj, rfl⟩

theorem arenaLe_insert_same_children {st' st : TilesState} {id : Nat}
    {t t2 : Tile} (h : ArenaLe st' st) (hid : st.getTile id = some t)
    (hch : tileChildren t2 = tileChildren t) :
    ArenaLe (st'.insertTile id t2) st := by
  intro j t3 hj
  by_cases hji : j = id
  · subst hji
    rw [show (st'.insertTile j t2).getTile j =
      Smap.lookup (Smap.insertS st'.tiles j t2) j from rfl,
      Smap.lookup_insertS_self st'.tiles j t2] at hj
    have ht3 : t3 = t2 := (Option.some.inj hj).symm
    exact ⟨t, hid, ht3 ▸ hch⟩
  · rw [show (st'.insertTile id t2).getTile j =
      Smap.lookup (Smap.insertS st'.tiles id t2) j from rfl,
      Smap.lookup_insertS_ne st'.tiles id j t2 hji] at hj
    exact h j t3 hj

/-- `reach` computed on a child-preserving subset arena is contained in
`reach` on the original. -/
theorem reach_mono_of_arenaLe {st' st : TilesState} (h : ArenaLe st' st) :
    ∀ (fuel : Nat) (i k : Nat), k ∈ reach st' fuel i → k ∈ reach st fuel i := by
  intro fuel
  induction fuel with
  | zero => intro i k hk; exact hk
  | succ fuel ih =>
    intro i k hk
    unfold reach at hk ⊢
    rcases List.mem_cons.mp hk with hk1 | hk2
    · exact List.mem_cons.mpr (Or.inl hk1)
    · refine List.mem_cons.mpr (Or.inr ?_)
      rcases hlz : st'.getTile i with _ | t'
      · rw [hlz] at hk2
        simp at hk2
      · rw [hlz] at hk2
        obtain ⟨t, ht, hch⟩ := h i t' hlz
        rw [ht]
        rw [List.mem_flatMap] at hk2 ⊢
        obtain ⟨c, hc, hkc⟩ := hk2
        exact ⟨c, hch ▸ hc, ih c k hkc⟩

theorem foldl_preserves (P : TilesState → Prop) {α : Type}
    (g : TilesState → α → TilesState) (hg : ∀ s a, P s → P (g s a)) :
    ∀ (l : List α) (s : TilesState), P s → P (l.foldl g s) := by
  intro l
  induction l with
  | nil => intro s hs; exact hs
  | cons a rest ih => intro s hs; exact ih (g s a) (hg s a hs)

theorem layoutGridChildren_preserves (P : TilesState → Prop)
    (f : TilesState → Rect → Nat → TilesState)
    (hf : ∀ s r c, P s → P (f s r c)) :
    ∀ (slots : List (Option Nat)) (st : TilesState) (n : Nat)
      (crs rrs : List (Rat × Rat)) (i : Nat), P st →
      P (layoutGridChildren f st slots n crs rrs i) := by
  intro slots
  induction slots with
  | nil => intro st n crs rrs i hst; exact hst
  | cons slot rest ih =>
    intro st n crs rrs i hst
    cases slot with
    | none => exact ih st n crs rrs (i + 1) hst
    | some c => exact ih _ n crs rrs (i + 1) (hf st _ c hst)

theorem tabs_layout_preserves (P : TilesState → Prop)
    (f : TilesState → Rect → Nat → TilesState) (bp : BehaviorParams)
    (st : TilesState) (rect : Rect) (t : Tabs)
    (h0 : P st) (hf : ∀ s r c, P s → P (f s r c)) :
    P (tabs_layout f bp st rect t).1 := by
  unfold tabs_layout
  dsimp only
  split
  · exact hf _ _ _ h0
  · exact h0

theorem linear_layout_preserves (P : TilesState → Prop)
    (f : TilesState → Rect → Nat → TilesState) (bp : BehaviorParams)
    (st : TilesState) (rect : Rect) (l : Linear)
    (h0 : P st) (hf : ∀ s r c, P s → P (f s r c)) :
    P (linear_layout f bp st rect l).1 := by
  unfold linear_layout
  dsimp only
  exact foldl_preserves P _ (fun s p hp => hf s p.2 p.1 hp) _ st h0

theorem grid_layout_preserves (P : TilesState → Prop)
    (f : TilesState → Rect → Nat → TilesState) (bp : BehaviorParams)
    (st : TilesState) (rect : Rect) (g : Grid)
    (h0 : P st) (hf : ∀ s r c, P s → P (f s r c)) :
    P (grid_layout f bp st rect g).1 := by
  unfold grid_layout
  dsimp only
  split
  · exact layoutGridChildren_preserves P f hf _ st _ _ _ 0 h0
  · exact layoutGridChildren_preserves P f hf _ st _ _ _ 0 h0

/-- The layout pass keeps the arena sorted. -/
theorem layout_tile_sorted (bp : BehaviorParams) :
    ∀ (fuel : Nat) (st : TilesState) (rect : Rect) (id : Nat),
      Smap.SortedK st.tiles →
      Smap.SortedK (layout_tile bp fuel st rect id).tiles := by
  intro fuel
  induction fuel with
  | zero => intro st rect id hs; exact hs
  | succ fuel ih =>
    intro st rect id hs
    unfold layout_tile
    rcases hlz : st.getTile id with _ | tile
    · exact hs
    · have hs2 : Smap.SortedK (Smap.eraseS st.tiles id) :=
        Smap.sortedK_eraseS _ _ hs
      cases tile with
      | pane p => exact Smap.sortedK_insertS _ _ _ hs2
      | cont c =>
        dsimp only
        split
        · exact Smap.sortedK_insertS _ _ _ hs2
        · split
          · exact Smap.sortedK_insertS _ _ _
              (tabs_layout_preserves (fun s => Smap.SortedK s.tiles) _ bp _ rect _
                hs2 (fun s r c2 hp => ih s r c2 hp))
          · exact Smap.sortedK_insertS _ _ _
              (linear_layout_preserves (fun s => Smap.SortedK s.tiles) _ bp _ rect _
                hs2 (fun s r c2 hp => ih s r c2 hp))
          · exact Smap.sortedK_insertS _ _ _
              (grid_layout_preserves (fun s => Smap.SortedK s.tiles) _ bp _ rect _
                hs2 (fun s r c2 hp => ih s r c2 hp))

theorem filterMap_dropWhile_isNone (l : List (Option Nat)) :
    (l.dropWhile (fun s => s.isNone)).filterMap id = l.filterMap id := by
  induction l with
  | nil => rfl
  | cons s rest ih =>
    cases s with
    | none => simpa [List.dropWhile] using ih
    | some c => simp [List.dropWhile]

theorem filterMap_popTrailingNones (l : List (Option Nat)) :
    (popTrailingNones l).filterMap id = l.filterMap id := by
  unfold popTrailingNones
  rw [List.filterMap_reverse, filterMap_dropWhile_isNone, List.filterMap_reverse,
    List.reverse_reverse]

theorem filterMap_filter_isSome (l : List (Option Nat)) :
    (l.filter (fun c => c.isSome)).filterMap id = l.filterMap id := by
  induction l with
  | nil => rfl
  | cons s rest ih =>
    cases s with
    | none => simpa [List.filter] using ih
    | some c => simp [List.filter, ih]

theorem tabs_layout_snd (f : TilesState → Rect → Nat → TilesState)
    (bp : BehaviorParams) (st : TilesState) (rect : Rect) (t : Tabs) :
    (tabs_layout f bp st rect t).2.children = t.children := by
  unfold tabs_layout
  dsimp only
  split
  · rfl
  · rfl

theorem grid_layout_childrenIds (f : TilesState → Rect → Nat → TilesState)
    (bp : BehaviorParams) (st : TilesState) (rect : Rect) (g : Grid) :
    (grid_layout f bp st rect g).2.childrenIds = g.childrenIds := by
  unfold grid_layout
  dsimp only
  split
  · show (Grid.collapse_holes _).childrenIds = _
    unfold Grid.collapse_holes Grid.childrenIds
    dsimp only
    rw [filterMap_filter_isSome, filterMap_popTrailingNones]
  · show Grid.childrenIds _ = _
    unfold Grid.childrenIds
    dsimp only
    rw [filterMap_popTrailingNones]

/-- The layout pass only removes tiles or reinserts them with the same child
ids. -/
theorem layout_tile_arenaLe (bp : BehaviorParams) :
    ∀ (fuel : Nat) (st : TilesState) (rect : Rect) (id : Nat),
      Smap.SortedK st.tiles → ArenaLe (layout_tile bp fuel st rect id) st := by
  intro fuel
  induction fuel with
  | zero => intro st rect id _; exact arenaLe_refl st
  | succ fuel ih =>
    intro st rect id hs
    unfold layout_tile
    rcases hlz : st.getTile id with _ | tile
    · exact arenaLe_refl st
    · have hs2 : Smap.SortedK (Smap.eraseS st.tiles id) :=
        Smap.sortedK_eraseS _ _ hs
      have hrm : ArenaLe (st.removeTile id) st := arenaLe_removeTile hs
      have hstep : ∀ (s : TilesState) (r : Rect) (c2 : Nat),
          (Smap.SortedK s.tiles ∧ ArenaLe s st) →
          (Smap.SortedK (layout_tile bp fuel s r c2).tiles ∧
            ArenaLe (layout_tile bp fuel s r c2) st) := by
        intro s r c2 ⟨hps, hpa⟩
        exact ⟨layout_tile_sorted bp fuel s r c2 hps,
          arenaLe_trans (ih s r c2 hps) hpa⟩
      cases tile with
      | pane p =>
        exact arenaLe_insert_same_children hrm hlz rfl
      | cont c =>
        dsimp only
        split
        · exact arenaLe_insert_same_children hrm hlz rfl
        · split
          next t hx =>
            have hpost := tabs_layout_preserves
              (fun s => Smap.SortedK s.tiles ∧ ArenaLe s st)
              (layout_tile bp fuel) bp
              { st.removeTile id with rects := Smap.insertS (st.removeTile id).rects id rect }
              rect t ⟨hs2, hrm⟩ hstep
            refine arenaLe_insert_same_children hpost.2 hlz ?_
            show (tabs_layout (layout_tile bp fuel) bp _ rect t).2.children =
              t.children
            exact tabs_layout_snd _ bp _ rect t
          next l hx =>
            have hpost := linear_layout_preserves
              (fun s => Smap.SortedK s.tiles ∧ ArenaLe s st)
              (layout_tile bp fuel) bp
              { st.removeTile id with rects := Smap.insertS (st.removeTile id).rects id rect }
              rect l ⟨hs2, hrm⟩ hstep
            exact arenaLe_insert_same_children hpost.2 hlz rfl
          next g hx =>
            have hpost := grid_layout_preserves
              (fun s => Smap.SortedK s.tiles ∧ ArenaLe s st)
              (layout_tile bp fuel) bp
              { st.removeTile id with rects := Smap.insertS (st.removeTile id).rects id rect }
              rect g ⟨hs2, hrm⟩ hstep
            refine arenaLe_insert_same_children hpost.2 hlz ?_
            show (grid_layout (layout_tile bp fuel) bp _ rect g).2.childrenIds =
              g.childrenIds
            exact grid_layout_childrenIds _ bp _ rect g

theorem placeRow_fst_mem (rect : Rect) (gap : Rat) :
    ∀ (ps : List (Nat × Rat)) (x : Rat) (p : Nat × Rect),
      p ∈ placeRow rect gap x ps → ∃ q ∈ ps, p.1 = q.1 := by
  intro ps
  induction ps with
  | nil =>
    intro x p hp
    simp [placeRow] at hp
  | cons q rest ih =>
    intro x p hp
    obtain ⟨c, w⟩ := q
    rw [placeRow] at hp
    rcases List.mem_cons.mp hp with h1 | h2
    · exact ⟨(c, w), List.mem_cons_self _ _, by rw [h1]⟩
    · obtain ⟨q2, hq2, he⟩ := ih _ p h2
      exact ⟨q2, List.mem_cons_of_mem _ hq2, he⟩

theorem placeColumn_fst_mem (rect : Rect) (gap : Rat) :
    ∀ (ps : List (Nat × Rat)) (y : Rat) (p : Nat × Rect),
      p ∈ placeColumn rect gap y ps → ∃ q ∈ ps, p.1 = q.1 := by
  intro ps
  induction ps with
  | nil =>
    intro y p hp
    simp [placeColumn] at hp
  | cons q rest ih =>
    intro y p hp
    obtain ⟨c, w⟩ := q
    rw [placeColumn] at hp
    rcases List.mem_cons.mp hp with h1 | h2
    · exact ⟨(c, w), List.mem_cons_self _ _, by rw [h1]⟩
    · obtain ⟨q2, hq2, he⟩ := ih _ p h2
      exact ⟨q2, List.mem_cons_of_mem _ hq2, he⟩

theorem foldl_layout_keys (f : TilesState → Rect → Nat → TilesState)
    (st : TilesState) (fuel : Nat)
    (hfs : ∀ s r c, Smap.SortedK s.tiles → Smap.SortedK (f s r c).tiles)
    (hfa : ∀ s r c, Smap.SortedK s.tiles → ArenaLe (f s r c) s)
    (hfk : ∀ s r c k2, Smap.SortedK s.tiles → Smap.lookup s.rects k2 = none →
      ¬ Smap.lookup (f s r c).rects k2 = none → k2 ∈ reach s fuel c) :
    ∀ (pairs : List (Nat × Rect)) (s0 : TilesState) (k : Nat),
      Smap.SortedK s0.tiles → ArenaLe s0 st →
      Smap.lookup s0.rects k = none →
      ¬ Smap.lookup ((pairs.foldl (fun acc p => f acc p.2 p.1) s0)).rects k = none →
      ∃ p ∈ pairs, k ∈ reach st fuel p.1 := by
  intro pairs
  induction pairs with
  | nil =>
    intro s0 k _ _ h0 hn
    exact absurd h0 hn
  | cons p rest ih =>
    intro s0 k hs0 ha0 h0 hn
    by_cases h1 : Smap.lookup (f s0 p.2 p.1).rects k = none
    · obtain ⟨q, hq, hkq⟩ := ih (f s0 p.2 p.1) k (hfs _ _ _ hs0)
        (arenaLe_trans (hfa _ _ _ hs0) ha0) h1 hn
      exact ⟨q, List.mem_cons_of_mem _ hq, hkq⟩
    · have hk := hfk s0 p.2 p.1 k hs0 h0 h1
      exact ⟨p, List.mem_cons_self _ _, reach_mono_of_arenaLe ha0 fuel p.1 k hk⟩

theorem gridwalk_layout_keys (f : TilesState → Rect → Nat → TilesState)
    (st : TilesState) (fuel : Nat)
    (hfs : ∀ s r c, Smap.SortedK s.tiles → Smap.SortedK (f s r c).tiles)
    (hfa : ∀ s r c, Smap.SortedK s.tiles → ArenaLe (f s r c) s)
    (hfk : ∀ s r c k2, Smap.SortedK s.tiles → Smap.lookup s.rects k2 = none →
      ¬ Smap.lookup (f s r c).rects k2 = none → k2 ∈ reach s fuel c) :
    ∀ (slots : List (Option Nat)) (s0 : TilesState) (n : Nat)
      (crs rrs : List (Rat × Rat)) (i : Nat) (k : Nat),
      Smap.SortedK s0.tiles → ArenaLe s0 st →
      Smap.lookup s0.rects k = none →
      ¬ Smap.lookup (layoutGridChildren f s0 slots n crs rrs i).rects k = none →
      ∃ c, some c ∈ slots ∧ k ∈ reach st fuel c := by
  intro slots
  induction slots with
  | nil =>
    intro s0 n crs rrs i k _ _ h0 hn
    exact absurd h0 hn
  | cons slot rest ih =>
    intro s0 n crs rrs i k hs0 ha0 h0 hn
    cases slot with
    | none =>
      obtain ⟨c, hc, hkc⟩ := ih s0 n crs rrs (i + 1) k hs0 ha0 h0 hn
      exact ⟨c, List.mem_cons_of_mem _ hc, hkc⟩
    | some c =>
      by_cases h1 : Smap.lookup
          (f s0 ⟨(crs.getD (i % n) (0, 0)).1, (rrs.getD (i / n) (0, 0)).1,
            (crs.getD (i % n) (0, 0)).2, (rrs.getD (i / n) (0, 0)).2⟩ c).rects
          k = none
      · obtain ⟨c2, hc2, hkc2⟩ := ih _ n crs rrs (i + 1) k (hfs _ _ _ hs0)
          (arenaLe_trans (hfa _ _ _ hs0) ha0) h1 hn
        exact ⟨c2, List.mem_cons_of_mem _ hc2, hkc2⟩
      · have hk := hfk s0 _ c k hs0 h0 h1
        exact ⟨c, List.mem_cons_self _ _, reach_mono_of_arenaLe ha0 fuel c k hk⟩

theorem tabs_layout_active_eq (f : TilesState → Rect → Nat → TilesState)
    (bp : BehaviorParams) (st : TilesState) (rect : Rect) (t : Tabs) :
    (tabs_layout f bp st rect t).2.active =
      (if t.children.any (fun c => Tabs.is_active ⟨t.children,
          match t.active with
          | some a => if st.is_visible a = true then some a else none
          | none => none⟩ c) = true
       then (match t.active with
          | some a => if st.is_visible a = true then some a else none
          | none => none)
       else t.children.find? (fun c => st.is_visible c)) := by
  unfold tabs_layout
  dsimp only
  split
  next a2 heq => rfl
  next heq => rfl

/-- The per-call shape of `Tabs::layout`: nothing is laid out when no tab is
active, and exactly the active tab is laid out (below the tab bar) when one
is. -/
theorem tabs_layout_state (f : TilesState → Rect → Nat → TilesState)
    (bp : BehaviorParams) (st : TilesState) (rect : Rect) (t : Tabs) :
    ((tabs_layout f bp st rect t).2.active = none →
      (tabs_layout f bp st rect t).1 = st) ∧
    (∀ a, (tabs_layout f bp st rect t).2.active = some a →
      (tabs_layout f bp st rect t).1 =
        f st { rect with minY := rect.minY + bp.tab_bar_height } a) := by
  unfold tabs_layout
  dsimp only
  split
  next a2 heq =>
    constructor
    · intro h
      rw [heq] at h
      exact Option.noConfusion h
    · intro a ha
      have ha2 : a2 = a := Option.some.inj (heq.symm.trans ha)
      rw [ha2]
  next heq =>
    constructor
    · intro _
      rfl
    · intro a ha
      exact Option.noConfusion (heq.symm.trans ha)

/-- After `Tabs::layout`, an active tab is always a visible member of the
children list. -/
theorem tabs_layout_active_spec (f : TilesState → Rect → Nat → TilesState)
    (bp : BehaviorParams) (st : TilesState) (rect : Rect) (t : Tabs) :
    ∀ a, (tabs_layout f bp st rect t).2.active = some a →
      a ∈ t.children ∧ st.is_visible a = true := by
  intro a ha
  rw [tabs_layout_active_eq] at ha
  by_cases hany : (t.children.any (fun c => Tabs.is_active ⟨t.children,
      match t.active with
      | some a0 => if st.is_visible a0 = true then some a0 else none
      | none => none⟩ c)) = true
  · rw [if_pos hany] at ha
    rw [List.any_eq_true] at hany
    obtain ⟨c, hc, hic⟩ := hany
    have hXc : (match t.active with
        | some a0 => if st.is_visible a0 = true then some a0 else none
        | none => none) = some c := by
      simpa [Tabs.is_active] using hic
    have hca : c = a := Option.some.inj (hXc.symm.trans ha)
    rcases hta : t.active with _ | a0
    · rw [hta] at ha
      exact Option.noConfusion ha
    · rw [hta] at ha
      dsimp only at ha
      by_cases hv : st.is_visible a0 = true
      · rw [if_pos hv] at ha
        have ha0 : a0 = a := by simpa using ha
        exact ⟨hca ▸ hc, ha0 ▸ hv⟩
      · rw [if_neg hv] at ha
        exact Option.noConfusion ha
  · rw [if_neg hany] at ha
    exact ⟨List.mem_of_find?_eq_some ha, List.find?_some ha⟩

/-- When the previous active tab is unset, absent from the children or
invisible, `Tabs::layout` reassigns it to the first visible child in list
order (none when no child is visible). -/
theorem tabs_layout_reassign (f : TilesState → Rect → Nat → TilesState)
    (bp : BehaviorParams) (st : TilesState) (rect : Rect) (t : Tabs)
    (h : t.active = none ∨ ∀ a0, t.active = some a0 →
      a0 ∉ t.children ∨ st.is_visible a0 = false) :
    (tabs_layout f bp st rect t).2.active =
      t.children.find? (fun c => st.is_visible c) := by
  rw [tabs_layout_active_eq]
  have hany : ¬ ((t.children.any (fun c => Tabs.is_active ⟨t.children,
      match t.active with
      | some a0 => if st.is_visible a0 = true then some a0 else none
      | none => none⟩ c)) = true) := by
    intro hany
    rw [List.any_eq_true] at hany
    obtain ⟨c, hc, hic⟩ := hany
    have hXc : (match t.active with
        | some a0 => if st.is_visible a0 = true then some a0 else none
        | none => none) = some c := by
      simpa [Tabs.is_active] using hic
    rcases hta : t.active with _ | a0
    · rw [hta] at hXc
      exact Option.noConfusion hXc
    · rw [hta] at hXc
      dsimp only at hXc
      by_cases hv : st.is_visible a0 = true
      · rw [if_pos hv] at hXc
        have ha0c : a0 = c := Option.some.inj hXc
        rcases h with h0 | h1
        · rw [h0] at hta
          exact Option.noConfusion hta
        · rcases h1 a0 hta with hnc | hnv
          · exact hnc (ha0c ▸ hc)
          · rw [hnv] at hv
            exact Bool.false_ne_true hv
      · rw [if_neg hv] at hXc
        exact Option.noConfusion hXc
  rw [if_neg hany]

theorem linear_layout_fst (f : TilesState → Rect → Nat → TilesState)
    (bp : BehaviorParams) (st : TilesState) (rect : Rect) (l : Linear) :
    ∃ pairs : List (Nat × Rect),
      (linear_layout f bp st rect l).1 =
        pairs.foldl (fun acc p => f acc p.2 p.1) st ∧
      ∀ p ∈ pairs, p.1 ∈ l.children := by
  unfold linear_layout
  dsimp only
  refine ⟨_, rfl, ?_⟩
  intro p hp
  cases hdir : l.dir with
  | horizontal =>
    rw [hdir] at hp
    obtain ⟨q, hq, hpq⟩ := placeRow_fst_mem rect bp.gap_width _ _ p hp
    have hq1 := (List.of_mem_zip hq).1
    rw [hpq]
    exact List.mem_of_mem_filter hq1
  | vertical =>
    rw [hdir] at hp
    obtain ⟨q, hq, hpq⟩ := placeColumn_fst_mem rect bp.gap_width _ _ p hp
    have hq1 := (List.of_mem_zip hq).1
    rw [hpq]
    exact List.mem_of_mem_filter hq1

theorem fst_ite {α β : Type} (c : Prop) [inst : Decidable c] (a : α) (b b' : β) :
    (if c then (a, b) else (a, b')).1 = a := by
  split
  · rfl
  · rfl

theorem grid_layout_fst (f : TilesState → Rect → Nat → TilesState)
    (bp : BehaviorParams) (st : TilesState) (rect : Rect) (g : Grid) :
    ∃ (slots : List (Option Nat)) (n : Nat) (crs rrs : List (Rat × Rat)),
      (grid_layout f bp st rect g).1 =
        layoutGridChildren f st slots n crs rrs 0 ∧
      ∀ c, some c ∈ slots → c ∈ g.childrenIds := by
  unfold grid_layout
  dsimp only
  refine ⟨_, _, _, _, fst_ite _ _ _ _, ?_⟩
  intro c hc
  have hcm : some c ∈ popTrailingNones g.children := List.mem_of_mem_filter hc
  unfold Grid.childrenIds
  rw [← filterMap_popTrailingNones]
  exact List.mem_filterMap.mpr ⟨some c, hcm, rfl⟩

/-- Every rectangle the layout recursion records is for the laid-out tile
itself or for a tile reachable from it through child references. -/
theorem layout_tile_rect_keys (bp : BehaviorParams) :
    ∀ (fuel : Nat) (st : TilesState) (rect : Rect) (id k : Nat),
      Smap.SortedK st.tiles → Smap.lookup st.rects k = none →
      ¬ Smap.lookup (layout_tile bp fuel st rect id).rects k = none →
      k ∈ reach st fuel id := by
  intro fuel
  induction fuel with
  | zero =>
    intro st rect id k _ h0 hn
    exact absurd h0 hn
  | succ fuel ih =>
    intro st rect id k hs h0 hn
    unfold layout_tile at hn
    rcases hlz : st.getTile id with _ | tile
    · rw [hlz] at hn
      exact absurd h0 hn
    · rw [hlz] at hn
      dsimp only at hn
      by_cases hk : k = id
      · subst hk
        unfold reach
        exact List.mem_cons_self _ _
      · have h2 : Smap.lookup ({ st.removeTile id with
            rects := Smap.insertS (st.removeTile id).rects id rect } :
              TilesState).rects k = none := by
          show Smap.lookup (Smap.insertS st.rects id rect) k = none
          rw [Smap.lookup_insertS_ne st.rects id k rect hk]
          exact h0
        have hs2 : Smap.SortedK ({ st.removeTile id with
            rects := Smap.insertS (st.removeTile id).rects id rect } :
              TilesState).tiles := Smap.sortedK_eraseS _ _ hs
        have ha2 : ArenaLe ({ st.removeTile id with
            rects := Smap.insertS (st.removeTile id).rects id rect } :
              TilesState) st := arenaLe_removeTile hs
        have hgoal : ∀ c, c ∈ tileChildren tile → k ∈ reach st fuel c →
            k ∈ reach st (fuel + 1) id := by
          intro c hc hkc
          unfold reach
          rw [hlz]
          refine List.mem_cons.mpr (Or.inr ?_)
          rw [List.mem_flatMap]
          exact ⟨c, hc, hkc⟩
        cases tile with
        | pane p => exact absurd h2 hn
        | cont c =>
          dsimp only at hn
          by_cases hemp : c.is_empty = true
          · rw [if_pos hemp] at hn
            exact absurd h2 hn
          · rw [if_neg hemp] at hn
            cases c with
            | tabs t =>
              dsimp only at hn
              rcases hact : (tabs_layout (layout_tile bp fuel) bp
                  ({ st.removeTile id with
                    rects := Smap.insertS (st.removeTile id).rects id rect } :
                      TilesState) rect t).2.active with _ | a
              · have hfix := (tabs_layout_state (layout_tile bp fuel) bp
                  ({ st.removeTile id with
                    rects := Smap.insertS (st.removeTile id).rects id rect } :
                      TilesState) rect t).1 hact
                exact (hn (by rw [hfix]; exact h2)).elim
              · have hfix := (tabs_layout_state (layout_tile bp fuel) bp
                  ({ st.removeTile id with
                    rects := Smap.insertS (st.removeTile id).rects id rect } :
                      TilesState) rect t).2 a hact
                have hmem := (tabs_layout_active_spec (layout_tile bp fuel) bp
                  ({ st.removeTile id with
                    rects := Smap.insertS (st.removeTile id).rects id rect } :
                      TilesState) rect t a hact).1
                have hn2 : ¬ Smap.lookup (layout_tile bp fuel
                    ({ st.removeTile id with
                      rects := Smap.insertS (st.removeTile id).rects id rect } :
                        TilesState)
                    { rect with minY := rect.minY + bp.tab_bar_height }
                    a).rects k = none := by
                  rw [← hfix]
                  exact hn
                have hk2 := ih _ _ a k hs2 h2 hn2
                exact hgoal a hmem (reach_mono_of_arenaLe ha2 fuel a k hk2)
            | linear l =>
              have hwalk := foldl_layout_keys (layout_tile bp fuel) st fuel
                (fun s r c2 hps => layout_tile_sorted bp fuel s r c2 hps)
                (fun s r c2 hps => layout_tile_arenaLe bp fuel s r c2 hps)
                (fun s r c2 k2 hps hp0 hpn => ih s r c2 k2 hps hp0 hpn)
              obtain ⟨pairs, hfst, hpm⟩ := linear_layout_fst (layout_tile bp fuel)
                bp ({ st.removeTile id with
                  rects := Smap.insertS (st.removeTile id).rects id rect } :
                    TilesState) rect l
              have hn2 : ¬ Smap.lookup ((pairs.foldl
                  (fun acc p => layout_tile bp fuel acc p.2 p.1)
                  ({ st.removeTile id with
                    rects := Smap.insertS (st.removeTile id).rects id rect } :
                      TilesState))).rects k = none := by
                rw [← hfst]
                exact hn
              obtain ⟨p, hp, hkp⟩ := hwalk pairs _ k hs2 ha2 h2 hn2
              exact hgoal p.1 (hpm p hp) hkp
            | grid g =>
              have hwalk := gridwalk_layout_keys (layout_tile bp fuel) st fuel
                (fun s r c2 hps => layout_tile_sorted bp fuel s r c2 hps)
                (fun s r c2 hps => layout_tile_arenaLe bp fuel s r c2 hps)
                (fun s r c2 k2 hps hp0 hpn => ih s r c2 k2 hps hp0 hpn)
              obtain ⟨slots, n2, crs, rrs, hfst, hsl⟩ := grid_layout_fst
                (layout_tile bp fuel) bp ({ st.removeTile id with
                  rects := Smap.insertS (st.removeTile id).rects id rect } :
                    TilesState) rect g
              have hn2 : ¬ Smap.lookup (layoutGridChildren (layout_tile bp fuel)
                  ({ st.removeTile id with
                    rects := Smap.insertS (st.removeTile id).rects id rect } :
                      TilesState) slots n2 crs rrs 0).rects k = none := by
                rw [← hfst]
                exact hn
              obtain ⟨c2, hc2, hkc2⟩ := hwalk slots _ n2 crs rrs 0 k hs2 ha2 h2 hn2
              exact hgoal c2 (hsl c2 hc2) hkc2

/-- C8: after `Tabs::layout`, the active child (if set) is a visible member
of the children list; when the previous active child was unset, absent from
the children, or invisible, it is reassigned to the first visible child in
list order (none if no child is visible); and only the active child is
recursively laid out: with no active child the arena is untouched, and with
active child `a` the whole pass is one recursive layout call on `a` below
the tab bar, every newly recorded rectangle belonging to a tile reachable
from `a`. -/
theorem tabs_layout_active_invariants (bp : BehaviorParams) (fuel : Nat)
    (st : TilesState) (rect : Rect) (t : Tabs)
    (hs : Smap.SortedK st.tiles) :
    (∀ a, (tabs_layout (layout_tile bp fuel) bp st rect t).2.active = some a →
      a ∈ t.children ∧ st.is_visible a = true) ∧
    ((t.active = none ∨ ∀ a0, t.active = some a0 →
        a0 ∉ t.children ∨ st.is_visible a0 = false) →
      (tabs_layout (layout_tile bp fuel) bp st rect t).2.active =
        t.children.find? (fun c => st.is_visible c)) ∧
    ((tabs_layout (layout_tile bp fuel) bp st rect t).2.active = none →
      (tabs_layout (layout_tile bp fuel) bp st rect t).1 = st) ∧
    (∀ a, (tabs_layout (layout_tile bp fuel) bp st rect t).2.active = some a →
      (tabs_layout (layout_tile bp fuel) bp st rect t).1 =
        layout_tile bp fuel st
          { rect with minY := rect.minY + bp.tab_bar_height } a ∧
      ∀ k, Smap.lookup st.rects k = none →
        ¬ Smap.lookup (tabs_layout (layout_tile bp fuel) bp st rect
          t).1.rects k = none → k ∈ reach st fuel a) := by
  refine ⟨tabs_layout_active_spec _ bp st rect t,
    tabs_layout_reassign _ bp st rect t,
    (tabs_layout_state _ bp st rect t).1, ?_⟩
  intro a ha
  have hfix := (tabs_layout_state (layout_tile bp fuel) bp st rect t).2 a ha
  refine ⟨hfix, ?_⟩
  intro k h0 hn
  rw [hfix] at hn
  exact layout_tile_rect_keys bp fuel st _ a k hs h0 hn

/-- Witness for C8: an invisible active tab is reassigned to the first
visible child. -/
theorem tabs_layout_active_invariants_witness :
    Smap.SortedK (TilesState.mk 3 [(1, Tile.pane 0), (2, Tile.pane 1)]
      [1] []).tiles ∧
    ((∀ a, (tabs_layout (layout_tile ⟨1, 2, 1⟩ 1) ⟨1, 2, 1⟩
        (TilesState.mk 3 [(1, Tile.pane 0), (2, Tile.pane 1)] [1] [])
        ⟨0, 0, 10, 10⟩ ⟨[1, 2], some 1⟩).2.active = some a →
      a ∈ ([1, 2] : List Nat) ∧
        (TilesState.mk 3 [(1, Tile.pane 0), (2, Tile.pane 1)]
          [1] []).is_visible a = true) ∧
    (((some 1 : Option Nat) = none ∨ ∀ a0, (some 1 : Option Nat) = some a0 →
        a0 ∉ ([1, 2] : List Nat) ∨
        (TilesState.mk 3 [(1, Tile.pane 0), (2, Tile.pane 1)]
          [1] []).is_visible a0 = false) →
      (tabs_layout (layout_tile ⟨1, 2, 1⟩ 1) ⟨1, 2, 1⟩
        (TilesState.mk 3 [(1, Tile.pane 0), (2, Tile.pane 1)] [1] [])
        ⟨0, 0, 10, 10⟩ ⟨[1, 2], some 1⟩).2.active =
        ([1, 2] : List Nat).find? (fun c =>
          (TilesState.mk 3 [(1, Tile.pane 0), (2, Tile.pane 1)]
            [1] []).is_visible c)) ∧
    ((tabs_layout (layout_tile ⟨1, 2, 1⟩ 1) ⟨1, 2, 1⟩
        (TilesState.mk 3 [(1, Tile.pane 0), (2, Tile.pane 1)] [1] [])
        ⟨0, 0, 10, 10⟩ ⟨[1, 2], some 1⟩).2.active = none →
      (tabs_layout (layout_tile ⟨1, 2, 1⟩ 1) ⟨1, 2, 1⟩
        (TilesState.mk 3 [(1, Tile.pane 0), (2, Tile.pane 1)] [1] [])
        ⟨0, 0, 10, 10⟩ ⟨[1, 2], some 1⟩).1 =
        TilesState.mk 3 [(1, Tile.pane 0), (2, Tile.pane 1)] [1] []) ∧
    (∀ a, (tabs_layout (layout_tile ⟨1, 2, 1⟩ 1) ⟨1, 2, 1⟩
        (TilesState.mk 3 [(1, Tile.pane 0), (2, Tile.pane 1)] [1] [])
        ⟨0, 0, 10, 10⟩ ⟨[1, 2], some 1⟩).2.active = some a →
      (tabs_layout (layout_tile ⟨1, 2, 1⟩ 1) ⟨1, 2, 1⟩
        (TilesState.mk 3 [(1, Tile.pane 0), (2, Tile.pane 1)] [1] [])
        ⟨0, 0, 10, 10⟩ ⟨[1, 2], some 1⟩).1 =
        layout_tile ⟨1, 2, 1⟩ 1
          (TilesState.mk 3 [(1, Tile.pane 0), (2, Tile.pane 1)] [1] [])
          { (⟨0, 0, 10, 10⟩ : Rect) with minY :=
            (⟨0, 0, 10, 10⟩ : Rect).minY + (⟨1, 2, 1⟩ : BehaviorParams).tab_bar_height } a ∧
      ∀ k, Smap.lookup (TilesState.mk 3 [(1, Tile.pane 0), (2, Tile.pane 1)]
          [1] []).rects k = none →
        ¬ Smap.lookup (tabs_layout (layout_tile ⟨1, 2, 1⟩ 1) ⟨1, 2, 1⟩
          (TilesState.mk 3 [(1, Tile.pane 0), (2, Tile.pane 1)] [1] [])
          ⟨0, 0, 10, 10⟩ ⟨[1, 2], some 1⟩).1.rects k = none →
        k ∈ reach (TilesState.mk 3 [(1, Tile.pane 0), (2, Tile.pane 1)]
          [1] []) 1 a)) :=
  ⟨by unfold Smap.SortedK; decide,
    tabs_layout_active_invariants ⟨1, 2, 1⟩ 1
      (TilesState.mk 3 [(1, Tile.pane 0), (2, Tile.pane 1)] [1] [])
      ⟨0, 0, 10, 10⟩ ⟨[1, 2], some 1⟩ (by unfold Smap.SortedK; decide)⟩

end EguiTiles
